import Mathlib

/-!
PE-Parser: the decoding layer of `internal/peparse` (`rva.go`, `peparse.go`)

A shallow embedding of the Go functions `rvaToOff`, `readU16/32/64`,
`readCStringRVA`, `parseImports`, `parseImportNames`, `parseExports`,
`parseResources`, `hexDumpWithOffsets`, `extractStrings` and
`sortFilterRanked`, with the properties of the specification proved or refuted
over it.

Conventions of the embedding:

* a Go `[]byte` is a `List Byte`, a Go `string` is the list of its bytes;
* `uint16`/`uint32`/`uint64` values are natural numbers, every arithmetic
  operation of the source that can wrap carries its explicit `% 2^w`;
* Go's `int` is the 64-bit `int` of the platforms the tool is built for, so
  `int(off) + k` on a `uint32` never wraps and is plain addition;
* a run-time panic (slice or index out of range) is the result
  `Except.error Fault.indexOutOfRange`; loops without a bound of their own
  take a fuel argument and give `Fault.outOfFuel` when it is used up.
-/

namespace PEParse

/-! ## Data model -/

/-- One byte of the input buffer. -/
abbrev Byte := Fin 256

/-- The ways an embedded function can fail to return a value. -/
inductive Fault where
  | indexOutOfRange
  | outOfFuel
  deriving DecidableEq, Repr

/-- Reduction to the range of a `uint16`. -/
def u16 (n : Nat) : Nat := n % 2 ^ 16

/-- Reduction to the range of a `uint32`. -/
def u32 (n : Nat) : Nat := n % 2 ^ 32

/-- The section header fields of `pe.Section` that the decoder uses. -/
structure Section where
  VirtualSize : Nat
  VirtualAddress : Nat
  Offset : Nat
  deriving DecidableEq, Repr

/-- A `pe.DataDirectory`. -/
structure DataDirectory where
  VirtualAddress : Nat
  Size : Nat
  deriving DecidableEq, Repr

/-- The dynamic type of `pe.File.OptionalHeader`, with its sixteen data
directories. -/
inductive OptionalHeader where
  | none
  | oh32 (DataDirectory : Fin 16 → DataDirectory)
  | oh64 (DataDirectory : Fin 16 → DataDirectory)

/-- The part of `pe.File` the decoder reads. -/
structure File where
  Sections : List Section
  OptionalHeader : OptionalHeader

/-- Index `pe.IMAGE_DIRECTORY_ENTRY_EXPORT`. -/
def IMAGE_DIRECTORY_ENTRY_EXPORT : Fin 16 := 0

/-- Index `pe.IMAGE_DIRECTORY_ENTRY_IMPORT`. -/
def IMAGE_DIRECTORY_ENTRY_IMPORT : Fin 16 := 1

/-- Index `pe.IMAGE_DIRECTORY_ENTRY_RESOURCE`. -/
def IMAGE_DIRECTORY_ENTRY_RESOURCE : Fin 16 := 2

/-- The selection `getOptional` followed by the `if oh32 != nil ... else if
oh64 != nil ... else` chain that opens each decoder: the data directory with
the given index, or nothing when there is no optional header. -/
def dataDirectory (f : File) (idx : Fin 16) : Option DataDirectory :=
  match f.OptionalHeader with
  | .oh32 dd => some (dd idx)
  | .oh64 dd => some (dd idx)
  | .none => Option.none

/-- A section is well formed when its three fields are `uint32` values. -/
def Section.wf (s : Section) : Prop :=
  s.VirtualSize < 2 ^ 32 ∧ s.VirtualAddress < 2 ^ 32 ∧ s.Offset < 2 ^ 32

instance (s : Section) : Decidable s.wf := by
  unfold Section.wf; infer_instance

/-! ## Address translator -/

/-- The loop of `rvaToOff` over the section table, first match wins. The sum
`va+vsz` and the returned offset are `uint32` expressions of the source. -/
def rvaToOffLoop : List Section → Nat → Nat × Bool
  | [], _ => (0, false)
  | s :: rest, rva =>
    let va := s.VirtualAddress
    let vsz := s.VirtualSize
    if rva ≥ va ∧ rva < u32 (va + vsz) then
      (u32 (s.Offset + u32 (rva + 2 ^ 32 - va)), true)
    else
      rvaToOffLoop rest rva

/-- The function `rvaToOff(f, rva)`. -/
def rvaToOff (f : File) (rva : Nat) : Nat × Bool :=
  rvaToOffLoop f.Sections rva

/-- The virtual range of a section as the specification reads it: the end
is the integer sum of the two fields. -/
def Section.contains (s : Section) (rva : Nat) : Prop :=
  s.VirtualAddress ≤ rva ∧ rva < s.VirtualAddress + s.VirtualSize

instance (s : Section) (rva : Nat) : Decidable (s.contains rva) := by
  unfold Section.contains; infer_instance

/-! ## Safe byte reader -/

/-- The slice expression `b[off:]`: panics when `off > len(b)`. -/
def sliceFrom (b : List Byte) (off : Nat) : Except Fault (List Byte) :=
  if off ≤ b.length then .ok (b.drop off) else .error .indexOutOfRange

/-- The function `binary.LittleEndian.Uint16`: panics on fewer than 2 bytes. -/
def leUint16 : List Byte → Except Fault Nat
  | b0 :: b1 :: _ => .ok (b0.val + b1.val * 2 ^ 8)
  | _ => .error .indexOutOfRange

/-- The function `binary.LittleEndian.Uint32`: panics on fewer than 4 bytes. -/
def leUint32 : List Byte → Except Fault Nat
  | b0 :: b1 :: b2 :: b3 :: _ =>
    .ok (b0.val + b1.val * 2 ^ 8 + b2.val * 2 ^ 16 + b3.val * 2 ^ 24)
  | _ => .error .indexOutOfRange

/-- The function `binary.LittleEndian.Uint64`: panics on fewer than 8 bytes. -/
def leUint64 : List Byte → Except Fault Nat
  | b0 :: b1 :: b2 :: b3 :: b4 :: b5 :: b6 :: b7 :: _ =>
    .ok (b0.val + b1.val * 2 ^ 8 + b2.val * 2 ^ 16 + b3.val * 2 ^ 24
      + b4.val * 2 ^ 32 + b5.val * 2 ^ 40 + b6.val * 2 ^ 48 + b7.val * 2 ^ 56)
  | _ => .error .indexOutOfRange

/-- The expression `binary.LittleEndian.Uint16(b[off:])`. -/
def sliceU16 (b : List Byte) (off : Nat) : Except Fault Nat :=
  sliceFrom b off >>= leUint16

/-- The expression `binary.LittleEndian.Uint32(b[off:])`. -/
def sliceU32 (b : List Byte) (off : Nat) : Except Fault Nat :=
  sliceFrom b off >>= leUint32

/-- The expression `binary.LittleEndian.Uint64(b[off:])`. -/
def sliceU64 (b : List Byte) (off : Nat) : Except Fault Nat :=
  sliceFrom b off >>= leUint64

/-- The function `readU16(b, off)`. -/
def readU16 (b : List Byte) (off : Nat) : Except Fault (Nat × Bool) :=
  if off + 2 > b.length then .ok (0, false)
  else do
    let v ← sliceU16 b off
    pure (v, true)

/-- The function `readU32(b, off)`. -/
def readU32 (b : List Byte) (off : Nat) : Except Fault (Nat × Bool) :=
  if off + 4 > b.length then .ok (0, false)
  else do
    let v ← sliceU32 b off
    pure (v, true)

/-- The function `readU64(b, off)`. -/
def readU64 (b : List Byte) (off : Nat) : Except Fault (Nat × Bool) :=
  if off + 8 > b.length then .ok (0, false)
  else do
    let v ← sliceU64 b off
    pure (v, true)

/-- The little-endian value of the `w` bytes `b[off .. off+w)`: the sum over
`k < w` of `b[off+k] * 256^k`. -/
def leValue (b : List Byte) (off w : Nat) : Nat :=
  ((List.range w).map (fun k => (b.getD (off + k) 0).val * 256 ^ k)).sum

/-- The index expression `b[i]`: panics when `i >= len(b)`. -/
def index (b : List Byte) (i : Nat) : Except Fault Byte :=
  match b[i]? with
  | some x => .ok x
  | none => .error .indexOutOfRange

/-- The slice expression `b[lo:hi]`: panics unless `lo <= hi <= len(b)`. -/
def sliceRange (b : List Byte) (lo hi : Nat) : Except Fault (List Byte) :=
  if lo ≤ hi ∧ hi ≤ b.length then .ok ((b.take hi).drop lo) else .error .indexOutOfRange

/-- The scan `for i < uint32(len(bin)) && bin[i] != 0 { i++ }` of
`readCStringRVA`, started at `i`; the result is the final `i`. -/
def cstringLoop (bin : List Byte) : Nat → Nat → Except Fault Nat
  | 0, _ => .error .outOfFuel
  | fuel + 1, i =>
    if i < u32 bin.length then do
      let c ← index bin i
      if c ≠ 0 then cstringLoop bin fuel (u32 (i + 1)) else pure i
    else pure i

/-- The function `readCStringRVA(f, bin, rva)`. The scan advances at most
`uint32(len(bin))` times, so `len(bin) + 1` steps of fuel are never used up. -/
def readCStringRVA (f : File) (bin : List Byte) (rva : Nat) :
    Except Fault (List Byte × Bool) :=
  match rvaToOff f rva with
  | (off, ok) =>
    if ok = false ∨ off ≥ bin.length then .ok ([], false)
    else do
      let i ← cstringLoop bin (bin.length + 1) off
      let s ← sliceRange bin off i
      pure (s, true)

/-! ## Strings built by the decoder -/

/-- The bytes of an ASCII string constant of the source. -/
def ascii (s : String) : List Byte :=
  s.toList.map (fun c => ⟨c.toNat % 256, Nat.mod_lt _ (by decide)⟩)

/-- The decimal digits of a number, as `%d` prints them. -/
def decimal (n : Nat) : List Byte :=
  (Nat.toDigits 10 n).map (fun c => ⟨c.toNat % 256, Nat.mod_lt _ (by decide)⟩)

/-- The call `fmt.Sprintf("#%d", n)`. -/
def sprintfOrdinal (n : Nat) : List Byte :=
  ascii "#" ++ decimal n

/-! ## Import table decoder -/

/-- The struct `importDesc`. -/
structure importDesc where
  OriginalFirstThunk : Nat
  TimeDateStamp : Nat
  ForwarderChain : Nat
  NameRVA : Nat
  FirstThunk : Nat
  deriving DecidableEq, Repr

/-- The struct `ImportDLL`. -/
structure ImportDLL where
  Name : List Byte
  Functions : List (List Byte)
  deriving DecidableEq, Repr

/-- The struct `ImportReport`. -/
structure ImportReport where
  DLLs : List ImportDLL
  Note : String
  deriving DecidableEq, Repr

/-- The `for { ... }` loop of `parseImportNames`; the state is the offset
`off` of the next thunk entry and the slice `names` built so far. -/
def importNamesLoop (f : File) (bin : List Byte) (is64 : Bool) :
    Nat → Nat → List (List Byte) → Except Fault (List (List Byte))
  | 0, _, _ => .error .outOfFuel
  | fuel + 1, off, names =>
    if is64 = false then do
      let (val, ok) ← readU32 bin off
      if ok = false ∨ val = 0 then pure names
      else
        let off := u32 (off + 4)
        if val &&& 0x80000000 ≠ 0 then
          importNamesLoop f bin is64 fuel off (names ++ [sprintfOrdinal (val &&& 0xFFFF)])
        else do
          let rva := u32 val
          let (name, ok) ← readCStringRVA f bin (u32 (rva + 2))
          let name := if ok = false then ascii "<name>" else name
          importNamesLoop f bin is64 fuel off (names ++ [name])
    else do
      let (val, ok) ← readU64 bin off
      if ok = false ∨ val = 0 then pure names
      else
        let off := u32 (off + 8)
        if val &&& 0x8000000000000000 ≠ 0 then
          importNamesLoop f bin is64 fuel off
            (names ++ [sprintfOrdinal (u32 (val &&& 0xFFFF))])
        else do
          let rva := u32 val
          let (name, ok) ← readCStringRVA f bin (u32 (rva + 2))
          let name := if ok = false then ascii "<name>" else name
          importNamesLoop f bin is64 fuel off (names ++ [name])

/-- The function `parseImportNames(f, bin, id, is64)`, its loop run with the
given fuel. -/
def parseImportNames (fuel : Nat) (f : File) (bin : List Byte) (id : importDesc)
    (is64 : Bool) : Except Fault (List (List Byte)) :=
  let thunk := if id.OriginalFirstThunk = 0 then id.FirstThunk else id.OriginalFirstThunk
  match rvaToOff f thunk with
  | (off, ok) =>
    if ok = false then .ok []
    else importNamesLoop f bin is64 fuel off []

/-- The loop `for off := baseOff; ; off += 20` of `parseImports`. The library
function `strings.ToLower` is the parameter `toLower`; `inner` is the fuel of
each thunk walk. -/
def importsLoop (toLower : List Byte → List Byte) (f : File) (bin : List Byte)
    (is64 : Bool) (inner : Nat) : Nat → Nat → ImportReport → Except Fault ImportReport
  | 0, _, _ => .error .outOfFuel
  | fuel + 1, off, r =>
    if off + 20 > bin.length then pure r
    else do
      let oft ← sliceU32 bin (u32 (off + 0))
      let tds ← sliceU32 bin (u32 (off + 4))
      let fwd ← sliceU32 bin (u32 (off + 8))
      let nam ← sliceU32 bin (u32 (off + 12))
      let ft ← sliceU32 bin (u32 (off + 16))
      let id : importDesc :=
        { OriginalFirstThunk := oft, TimeDateStamp := tds, ForwarderChain := fwd,
          NameRVA := nam, FirstThunk := ft }
      if id.OriginalFirstThunk = 0 ∧ id.NameRVA = 0 ∧ id.FirstThunk = 0 then pure r
      else do
        let (dll, ok) ← readCStringRVA f bin id.NameRVA
        let dll := if ok = false ∨ dll = [] then ascii "<unknown>" else dll
        let funcs ← parseImportNames inner f bin id is64
        importsLoop toLower f bin is64 inner fuel (u32 (off + 20))
          { r with DLLs := r.DLLs ++ [{ Name := toLower dll, Functions := funcs }] }

/-- The function `parseImports(f, bin, is64)`, every loop run with the given
fuel. -/
def parseImports (toLower : List Byte → List Byte) (fuel : Nat) (f : File)
    (bin : List Byte) (is64 : Bool) : Except Fault ImportReport :=
  let r : ImportReport := { DLLs := [], Note := "" }
  match dataDirectory f IMAGE_DIRECTORY_ENTRY_IMPORT with
  | none => .ok { r with Note := "no optional header" }
  | some dir =>
    if dir.VirtualAddress = 0 ∨ dir.Size < 20 then .ok r
    else
      match rvaToOff f dir.VirtualAddress with
      | (baseOff, ok) =>
        if ok = false then .ok { r with Note := "bad import directory RVA" }
        else importsLoop toLower f bin is64 fuel fuel baseOff r

/-! ## Export table decoder -/

/-- The struct `exportDir`. -/
structure exportDir where
  Characteristics : Nat
  TimeDateStamp : Nat
  MajorVersion : Nat
  MinorVersion : Nat
  NameRVA : Nat
  Base : Nat
  NumberOfFunctions : Nat
  NumberOfNames : Nat
  AddressOfFunctions : Nat
  AddressOfNames : Nat
  AddressOfNameOrdinal : Nat
  deriving DecidableEq, Repr

/-- The struct `ExportSymbol`; `Ordinal` is a `uint16`, `RVA` a `uint32`. -/
structure ExportSymbol where
  Name : List Byte
  Ordinal : Nat
  RVA : Nat
  deriving DecidableEq, Repr

/-- The struct `ExportReport`. -/
structure ExportReport where
  DLLName : List Byte
  Symbols : List ExportSymbol
  Note : String
  deriving DecidableEq, Repr

/-- The loop `for i := 0; i < nNames; i++` of `parseExports`. The first
argument is the number `nNames - i` of iterations still to run (the body does
not use `i`); the state is `namesOff`, `ordsOff` and the report. -/
def exportsLoop (f : File) (bin : List Byte) (ed : exportDir) (nFuncs funcsOff : Nat) :
    Nat → Nat → Nat → ExportReport → Except Fault ExportReport
  | 0, _, _, r => pure r
  | n + 1, namesOff, ordsOff, r =>
    if namesOff + 4 > bin.length ∨ ordsOff + 2 > bin.length then pure r
    else do
      let nameRVA ← sliceU32 bin namesOff
      let ordIdx ← sliceU16 bin ordsOff
      let namesOff := u32 (namesOff + 4)
      let ordsOff := u32 (ordsOff + 2)
      let (name, _) ← readCStringRVA f bin nameRVA
      let idx := ordIdx
      if idx ≥ nFuncs then exportsLoop f bin ed nFuncs funcsOff n namesOff ordsOff r
      else do
        let funcRVA ← sliceU32 bin (u32 (funcsOff + u32 (idx * 4)))
        exportsLoop f bin ed nFuncs funcsOff n namesOff ordsOff
          { r with Symbols := r.Symbols ++
              [{ Name := name, Ordinal := u16 (u16 ed.Base + u16 idx), RVA := funcRVA }] }

/-- The function `parseExports(f, bin)`. -/
def parseExports (f : File) (bin : List Byte) : Except Fault ExportReport :=
  let r : ExportReport := { DLLName := [], Symbols := [], Note := "" }
  match dataDirectory f IMAGE_DIRECTORY_ENTRY_EXPORT with
  | none => .ok { r with Note := "no optional header" }
  | some dir =>
    if dir.VirtualAddress = 0 ∨ dir.Size < 40 then .ok r
    else
      match rvaToOff f dir.VirtualAddress with
      | (baseOff, ok) =>
        if ok = false ∨ baseOff + 40 > bin.length then
          .ok { r with Note := "bad export directory RVA" }
        else do
          let characteristics ← sliceU32 bin (u32 (baseOff + 0))
          let timeDateStamp ← sliceU32 bin (u32 (baseOff + 4))
          let majorVersion ← sliceU16 bin (u32 (baseOff + 8))
          let minorVersion ← sliceU16 bin (u32 (baseOff + 10))
          let nameRVA ← sliceU32 bin (u32 (baseOff + 12))
          let base ← sliceU32 bin (u32 (baseOff + 16))
          let numberOfFunctions ← sliceU32 bin (u32 (baseOff + 20))
          let numberOfNames ← sliceU32 bin (u32 (baseOff + 24))
          let addressOfFunctions ← sliceU32 bin (u32 (baseOff + 28))
          let addressOfNames ← sliceU32 bin (u32 (baseOff + 32))
          let addressOfNameOrdinal ← sliceU32 bin (u32 (baseOff + 36))
          let ed : exportDir :=
            { Characteristics := characteristics, TimeDateStamp := timeDateStamp,
              MajorVersion := majorVersion, MinorVersion := minorVersion,
              NameRVA := nameRVA, Base := base,
              NumberOfFunctions := numberOfFunctions, NumberOfNames := numberOfNames,
              AddressOfFunctions := addressOfFunctions, AddressOfNames := addressOfNames,
              AddressOfNameOrdinal := addressOfNameOrdinal }
          let (name, ok) ← readCStringRVA f bin ed.NameRVA
          let r := if ok = true then { r with DLLName := name } else r
          match rvaToOff f ed.AddressOfFunctions, rvaToOff f ed.AddressOfNames,
            rvaToOff f ed.AddressOfNameOrdinal with
          | (funcsOff, ok1), (namesOff, ok2), (ordsOff, ok3) =>
            if ok1 = false ∨ ok2 = false ∨ ok3 = false then
              .ok { r with Note := "malformed export arrays" }
            else
              let nNames := ed.NumberOfNames
              let nFuncs := ed.NumberOfFunctions
              if nNames > 2 ^ 20 ∨ nFuncs > 2 ^ 20 then
                .ok { r with Note := "suspicious export counts" }
              else exportsLoop f bin ed nFuncs funcsOff nNames namesOff ordsOff r

/-! ## Resource census decoder -/

/-- The helper `le32(b, off)`: zero when the four bytes do not fit. -/
def le32 (b : List Byte) (off : Nat) : Except Fault Nat :=
  if off + 4 > b.length then .ok 0 else sliceU32 b off

/-- The helper `le16(b, off)`: zero when the two bytes do not fit. -/
def le16 (b : List Byte) (off : Nat) : Except Fault Nat :=
  if off + 2 > b.length then .ok 0 else sliceU16 b off

/-- The struct `resEntry`. -/
structure resEntry where
  NameOrID : Nat
  OffsetToData : Nat
  deriving DecidableEq, Repr

/-- The struct `ResourceTypeSummary`. -/
structure ResourceTypeSummary where
  TypeID : Nat
  TypeName : String
  Count : Nat
  deriving DecidableEq, Repr

/-- The struct `ResourceReport`. -/
structure ResourceReport where
  Types : List ResourceTypeSummary
  Note : String
  deriving DecidableEq, Repr

/-- The function `resourceTypeName(id)`. -/
def resourceTypeName (id : Nat) : String :=
  match id with
  | 1 => "RT_CURSOR (1)"
  | 2 => "RT_BITMAP (2)"
  | 3 => "RT_ICON (3)"
  | 4 => "RT_MENU (4)"
  | 5 => "RT_DIALOG (5)"
  | 6 => "RT_STRING (6)"
  | 7 => "RT_FONTDIR (7)"
  | 8 => "RT_FONT (8)"
  | 9 => "RT_ACCELERATOR (9)"
  | 10 => "RT_RCDATA (10)"
  | 11 => "RT_MESSAGETABLE (11)"
  | 12 => "RT_GROUP_CURSOR (12)"
  | 14 => "RT_GROUP_ICON (14)"
  | 16 => "RT_VERSION (16)"
  | 24 => "RT_MANIFEST (24)"
  | 0 => "RT_(named) (?)"
  | _ => "RT_" ++ toString id

/-- The Go map `map[uint32]int` as a list of key/value pairs with distinct
keys, in the order the keys were first stored. -/
abbrev TypeMap := List (Nat × Nat)

/-- The statement `types[k] += v` (a missing key is read as zero, and is
created by the statement). -/
def TypeMap.add : TypeMap → Nat → Nat → TypeMap
  | [], k, v => [(k, v)]
  | (k', c) :: rest, k, v =>
    if k' = k then (k', c + v) :: rest else (k', c) :: TypeMap.add rest k v

/-- The loop `for i := 0; i < total; i++` of `parseResources`. The first
argument is the number `total - i` of iterations still to run (the body does
not use `i`); the state is `entryOff` and the map `types`. -/
def resourcesLoop (f : File) (bin : List Byte) (dir : DataDirectory) :
    Nat → Nat → TypeMap → Except Fault TypeMap
  | 0, _, types => pure types
  | n + 1, entryOff, types =>
    if entryOff + 8 > bin.length then pure types
    else do
      let nameOrID ← le32 bin (u32 (entryOff + 0))
      let offsetToData ← le32 bin (u32 (entryOff + 4))
      let e : resEntry := { NameOrID := nameOrID, OffsetToData := offsetToData }
      let entryOff := u32 (entryOff + 8)
      let isID := decide (e.NameOrID &&& 0x80000000 = 0)
      let typeID := if isID = true then e.NameOrID else 0
      if e.OffsetToData &&& 0x80000000 ≠ 0 then
        let subRVA := u32 (dir.VirtualAddress + (e.OffsetToData &&& 0x7FFFFFFF))
        match rvaToOff f subRVA with
        | (subOff, ok) =>
          if ok = true ∧ subOff + 16 ≤ bin.length then do
            let nNamed ← le16 bin (u32 (subOff + 12))
            let nId ← le16 bin (u32 (subOff + 14))
            resourcesLoop f bin dir n entryOff (types.add typeID (nNamed + nId))
          else resourcesLoop f bin dir n entryOff types
      else resourcesLoop f bin dir n entryOff types

/-- The function `parseResources(f, bin)`. Go leaves the order in which
`range types` visits the map unspecified; the rows are given here in the order
the keys were first stored. -/
def parseResources (f : File) (bin : List Byte) : Except Fault ResourceReport :=
  let r : ResourceReport := { Types := [], Note := "" }
  match dataDirectory f IMAGE_DIRECTORY_ENTRY_RESOURCE with
  | none => .ok { r with Note := "no optional header" }
  | some dir =>
    if dir.VirtualAddress = 0 ∨ dir.Size < 16 then .ok r
    else
      match rvaToOff f dir.VirtualAddress with
      | (baseOff, ok) =>
        if ok = false ∨ baseOff + 16 > bin.length then
          .ok { r with Note := "bad resource directory RVA" }
        else do
          let _characteristics ← le32 bin (u32 (baseOff + 0))
          let _timeDateStamp ← le32 bin (u32 (baseOff + 4))
          let _majorVersion ← le16 bin (u32 (baseOff + 8))
          let _minorVersion ← le16 bin (u32 (baseOff + 10))
          let nNamed ← le16 bin (u32 (baseOff + 12))
          let nId ← le16 bin (u32 (baseOff + 14))
          let total := nNamed + nId
          let entryOff := u32 (baseOff + 16)
          let types ← resourcesLoop f bin dir total entryOff []
          pure { r with Types := r.Types ++ types.map (fun (id, cnt) =>
            { TypeID := id, TypeName := resourceTypeName id, Count := cnt }) }

/-! ## Section byte tools -/

/-- An uppercase hexadecimal digit. -/
def hexDigit (d : Nat) : Byte :=
  if d < 10 then Fin.ofNat (48 + d) else Fin.ofNat (55 + d)

/-- The verb `%0wX` of `fmt` on a value below `16^w`: its `w` uppercase
hexadecimal digits, padded with zeros (`%08X` on a `uint32`, `%02X` on a
byte). -/
def hexUpper (w n : Nat) : List Byte :=
  (List.range w).reverse.map (fun k => hexDigit (n / 16 ^ k % 16))

/-- The loop `for j := 0; j < 16; j++` of `hexDumpWithOffsets` for the row that
starts at `i`. The first argument is the number `16 - j` of iterations still
to run; the state is the builder `b`. -/
def hexCellsLoop (data : List Byte) (i : Nat) : Nat → Nat → List Byte → Except Fault (List Byte)
  | 0, _, b => .ok b
  | n + 1, j, b =>
    if i + j < data.length then do
      let x ← index data (i + j)
      hexCellsLoop data i n (j + 1) (b ++ hexUpper 2 x.val ++ ascii " ")
    else hexCellsLoop data i n (j + 1) (b ++ ascii "   ")

/-- The loop `for i := 0; i < len(data); i += 16` of `hexDumpWithOffsets`; the
state is `i` and the builder `b`. -/
def hexDumpLoop (sectionRawOffset : Nat) (data : List Byte) :
    Nat → Nat → List Byte → Except Fault (List Byte)
  | 0, _, _ => .error .outOfFuel
  | fuel + 1, i, b =>
    if i < data.length then do
      let stop := if i + 16 > data.length then data.length else i + 16
      let chunk ← sliceRange data i stop
      let b := b ++ hexUpper 8 (u32 (sectionRawOffset + u32 i)) ++ ascii "  "
      let b ← hexCellsLoop data i 16 0 b
      let b := b ++ ascii " "
      let b := b ++ chunk.map (fun c => if c.val ≥ 32 ∧ c.val ≤ 126 then c else 46)
      let b := b ++ ascii "\n"
      hexDumpLoop sectionRawOffset data fuel (i + 16) b
    else .ok b

/-- The function `hexDumpWithOffsets(sectionRawOffset, data)`. The loop runs
at most `len(data)` times, so `len(data) + 1` steps of fuel are never used
up. -/
def hexDumpWithOffsets (sectionRawOffset : Nat) (data : List Byte) : Except Fault (List Byte) :=
  hexDumpLoop sectionRawOffset data (data.length + 1) 0 []

/-- The library predicate `unicode.IsPrint` on the runes `0 .. 255`, read off
Go's Latin-1 property table: the printable runes are `0x20 .. 0x7E` and
`0xA1 .. 0xFF` without the soft hyphen `0xAD`. -/
def isPrintLatin1 (b : Byte) : Bool :=
  decide ((0x20 ≤ b.val ∧ b.val ≤ 0x7E) ∨ (0xA1 ≤ b.val ∧ b.val ≠ 0xAD))

/-- The bytes that `strings.Builder.WriteRune(rune(b))` appends: the UTF-8
encoding of the code point `b`, one byte below `0x80`, two bytes from `0x80`. -/
def encodeRune (b : Byte) : List Byte :=
  if b.val < 0x80 then [b]
  else [Fin.ofNat (0xC0 + b.val / 64), Fin.ofNat (0x80 + b.val % 64)]

/-- The closure `flush` of `extractStrings`, as the new value of `out`; the
caller empties `buf`. -/
def flushOut (minLen : Int) (buf : List Byte) (out : List (List Byte)) : List (List Byte) :=
  if (buf.length : Int) ≥ minLen then out ++ [buf] else out

/-- The loop `for _, b := range data` of `extractStrings`; the state is the
builder `buf` and the slice `out`. -/
def extractLoop (minLen : Int) :
    List Byte → List Byte × List (List Byte) → List Byte × List (List Byte)
  | [], st => st
  | b :: rest, (buf, out) =>
    if isPrintLatin1 b = true ∧ b ≠ 9 ∧ b ≠ 13 ∧ b ≠ 10 then
      extractLoop minLen rest (buf ++ encodeRune b, out)
    else extractLoop minLen rest ([], flushOut minLen buf out)

/-- The function `extractStrings(data, minLen)`. -/
def extractStrings (data : List Byte) (minLen : Int) : List (List Byte) :=
  let minLen := if minLen < 1 then 1 else minLen
  match extractLoop minLen data ([], []) with
  | (buf, out) => flushOut minLen buf out

/-! ## Ranked-string filter (`peparse.go`) -/

/-- The struct `RankedString`. The field `Score` is a `*float64`: `none` is the
nil pointer. The score type `α` is any type with decidable comparisons `≤`
and `<`; the `float64` values other than NaN are linearly ordered by them. -/
structure RankedString (α : Type) where
  Text : String
  Score : Option α
  deriving DecidableEq, Repr

/-- The loop `for _, r := range in` of `sortFilterRanked`; the state is the
slice `filtered`. (The slice shares the array of `in`, but position `k` is
only written after position `k` of `in` has been read.) -/
def filterLoop {α : Type} [LE α] [DecidableRel (fun a b : α => a ≤ b)] [Zero α]
    (minScore : α) :
    List (RankedString α) → List (RankedString α) → List (RankedString α)
  | [], filtered => filtered
  | r :: rest, filtered =>
    match r.Score with
    | none =>
      if minScore ≤ 0 then filterLoop minScore rest (filtered ++ [r])
      else filterLoop minScore rest filtered
    | some s =>
      if s ≥ minScore then filterLoop minScore rest (filtered ++ [r])
      else filterLoop minScore rest filtered

/-- The comparison closure that `sortFilterRanked` passes to
`sort.SliceStable`, on the two elements it compares. -/
def rankedLess {α : Type} [LT α] [DecidableRel (fun a b : α => a < b)]
    (a b : RankedString α) : Bool :=
  match a.Score, b.Score with
  | none, none => false
  | none, some _ => false
  | some _, none => true
  | some li, some lj => decide (li > lj)

/-- Insertion of `a` in front of a sorted list: `a` moves past the elements
that are less than it and stops before the first that is not. -/
def insertStable {β : Type} (less : β → β → Bool) (a : β) : List β → List β
  | [] => [a]
  | b :: l => if less b a = true then b :: insertStable less a l else a :: b :: l

/-- The library function `sort.SliceStable(x, less)`, which sorts by `less`
and keeps equal elements in their original order, as a stable insertion sort.
For a strict weak order, such as `rankedLess`, any stable sort gives the same
result (theorem `sliceStable_unique`). -/
def sliceStable {β : Type} (less : β → β → Bool) : List β → List β
  | [] => []
  | a :: l => insertStable less a (sliceStable less l)

/-- The function `sortFilterRanked(in, limit, minScore)`. -/
def sortFilterRanked {α : Type} [LE α] [DecidableRel (fun a b : α => a ≤ b)] [LT α]
    [DecidableRel (fun a b : α => a < b)] [Zero α]
    (input : List (RankedString α)) (limit : Int) (minScore : α) : List (RankedString α) :=
  let filtered := filterLoop minScore input []
  let filtered := sliceStable rankedLess filtered
  let filtered :=
    if limit > 0 ∧ (filtered.length : Int) > limit then filtered.take limit.toNat
    else filtered
  filtered

/-! ## Notions of the specification

The definitions of this section follow the words of the specification; the
theorems compare them with the embedded code above. -/

/-- The thunk RVA `parseImportNames` starts from, in the words of the
specification: `original_thunk` if it is nonzero, else `first_thunk`. -/
def startThunk (id : importDesc) : Nat :=
  if id.OriginalFirstThunk ≠ 0 then id.OriginalFirstThunk else id.FirstThunk

/-- The size in bytes of a thunk entry. -/
def thunkWidth (is64 : Bool) : Nat := if is64 = false then 4 else 8

/-- The thunk entry read of `parseImportNames` at offset `off`: `readU32` in
32-bit mode, `readU64` in 64-bit mode. -/
def readThunk (bin : List Byte) (is64 : Bool) (off : Nat) : Except Fault (Nat × Bool) :=
  if is64 = false then readU32 bin off else readU64 bin off

/-- What the specification says the element for a nonzero thunk entry `val`
is: the token `#` and the decimal low 16 bits when the top bit of the entry is
set, otherwise the string that `readCStringRVA` finds two bytes past the RVA in
the low 32 bits, or `<name>` when it finds none. -/
def thunkElement (f : File) (bin : List Byte) (is64 : Bool) (val : Nat)
    (nm : List Byte) : Prop :=
  if val.testBit (8 * thunkWidth is64 - 1) = true then
    nm = ascii "#" ++ decimal (val % 2 ^ 16)
  else
    ∃ s ok, readCStringRVA f bin (u32 (val % 2 ^ 32 + 2)) = .ok (s, ok) ∧
      nm = if ok = true then s else ascii "<name>"

/-- The import descriptor stored in the 20 bytes at offset `off`: five
little-endian 32-bit fields. -/
def descAt (bin : List Byte) (off : Nat) : importDesc :=
  { OriginalFirstThunk := leValue bin off 4,
    TimeDateStamp := leValue bin (off + 4) 4,
    ForwarderChain := leValue bin (off + 8) 4,
    NameRVA := leValue bin (off + 12) 4,
    FirstThunk := leValue bin (off + 16) 4 }

/-- A descriptor whose 20 bytes are all zero: all five fields are zero. -/
def importDesc.allZero (id : importDesc) : Prop :=
  id.OriginalFirstThunk = 0 ∧ id.TimeDateStamp = 0 ∧ id.ForwarderChain = 0 ∧
    id.NameRVA = 0 ∧ id.FirstThunk = 0

instance (id : importDesc) : Decidable id.allZero := by
  unfold importDesc.allZero; infer_instance

/-- The test that ends the walk of `parseImports`: original-thunk, name RVA
and first-thunk are zero; the time stamp and the forwarder chain are not
looked at. -/
def importDesc.ends (id : importDesc) : Prop :=
  id.OriginalFirstThunk = 0 ∧ id.NameRVA = 0 ∧ id.FirstThunk = 0

instance (id : importDesc) : Decidable id.ends := by
  unfold importDesc.ends; infer_instance

/-- The DLL entry `parseImports` builds for a descriptor: the lower-cased
name read at the name RVA (`<unknown>` when unresolved or empty) and the
functions of its thunk walk. -/
def dllEntry (toLower : List Byte → List Byte) (fuel : Nat) (f : File) (bin : List Byte)
    (is64 : Bool) (id : importDesc) (d : ImportDLL) : Prop :=
  (∃ s ok, readCStringRVA f bin id.NameRVA = .ok (s, ok) ∧
    d.Name = toLower (if ok = false ∨ s = [] then ascii "<unknown>" else s)) ∧
  parseImportNames fuel f bin id is64 = .ok d.Functions

/-- The export directory header stored in the 40 bytes at offset `baseOff`
(field offsets in `uint32` arithmetic, as the source computes them). -/
def exportDirAt (bin : List Byte) (baseOff : Nat) : exportDir :=
  { Characteristics := leValue bin (u32 (baseOff + 0)) 4,
    TimeDateStamp := leValue bin (u32 (baseOff + 4)) 4,
    MajorVersion := leValue bin (u32 (baseOff + 8)) 2,
    MinorVersion := leValue bin (u32 (baseOff + 10)) 2,
    NameRVA := leValue bin (u32 (baseOff + 12)) 4,
    Base := leValue bin (u32 (baseOff + 16)) 4,
    NumberOfFunctions := leValue bin (u32 (baseOff + 20)) 4,
    NumberOfNames := leValue bin (u32 (baseOff + 24)) 4,
    AddressOfFunctions := leValue bin (u32 (baseOff + 28)) 4,
    AddressOfNames := leValue bin (u32 (baseOff + 32)) 4,
    AddressOfNameOrdinal := leValue bin (u32 (baseOff + 36)) 4 }

/-- An array of `n` entries of `w` bytes at the 32-bit file offset `off` lies
wholly inside the buffer: each entry, at the `uint32` offset `off + w*i`, ends
at or before the end of the buffer. -/
def arrayInside (bin : List Byte) (off w n : Nat) : Prop :=
  ∀ i, i < n → u32 (off + w * i) + w ≤ bin.length

instance (bin : List Byte) (off w n : Nat) : Decidable (arrayInside bin off w n) := by
  unfold arrayInside; infer_instance

/-- The string at an RVA, empty when `readCStringRVA` does not resolve it. -/
def nameAt (f : File) (bin : List Byte) (rva : Nat) : List Byte :=
  match readCStringRVA f bin rva with
  | .ok (s, _) => s
  | .error _ => []

/-- The ordinal index stored in entry `i` of the name-ordinal array. -/
def ordinalIndex (bin : List Byte) (ordsOff i : Nat) : Nat :=
  leValue bin (u32 (ordsOff + 2 * i)) 2

/-- The symbol the specification gives for pair `i` of the name and
name-ordinal arrays: none when the ordinal index is not below the function
count, otherwise the name at the `i`-th name RVA, the function RVA stored at
function-array offset `idx*4`, and the ordinal as `parseExports` computes it. -/
def exportPair (f : File) (bin : List Byte) (ed : exportDir)
    (funcsOff namesOff ordsOff i : Nat) : Option ExportSymbol :=
  let idx := ordinalIndex bin ordsOff i
  if idx < ed.NumberOfFunctions then
    some { Name := nameAt f bin (leValue bin (u32 (namesOff + 4 * i)) 4),
           Ordinal := u16 (u16 ed.Base + u16 idx),
           RVA := leValue bin (u32 (funcsOff + 4 * idx)) 4 }
  else none

/-- The export directory header a data directory points to: the header stored
at the offset its RVA resolves to. -/
def exportHeaderOf (f : File) (bin : List Byte) (dir : DataDirectory) : exportDir :=
  exportDirAt bin (rvaToOff f dir.VirtualAddress).1

/-- The symbol built from pair `i` of the name and name-ordinal arrays, with
the ordinal of the amended specification: ordinal base plus ordinal index,
reduced modulo `2^16`. There is none when the ordinal index is not below the
function count. -/
def ordinalPair (f : File) (bin : List Byte) (ed : exportDir)
    (funcsOff namesOff ordsOff i : Nat) : Option ExportSymbol :=
  if ordinalIndex bin ordsOff i < ed.NumberOfFunctions then
    some { Name := nameAt f bin (leValue bin (u32 (namesOff + 4 * i)) 4),
           Ordinal := (ed.Base + ordinalIndex bin ordsOff i) % 2 ^ 16,
           RVA := leValue bin (u32 (funcsOff + 4 * ordinalIndex bin ordsOff i)) 4 }
  else none

/-- The `uint32` file offset of root entry `i` of a resource directory whose
header is at `baseOff`: the 16-byte header is followed by 8-byte entries. -/
def rootEntryOff (baseOff i : Nat) : Nat := u32 (baseOff + 16 + 8 * i)

/-- Root entry `i`: the name-or-id field and the offset-to-data field. -/
def rootEntry (bin : List Byte) (baseOff i : Nat) : resEntry :=
  { NameOrID := leValue bin (rootEntryOff baseOff i) 4,
    OffsetToData := leValue bin (u32 (rootEntryOff baseOff i + 4)) 4 }

/-- The number of root entries the header at `baseOff` declares: named count
plus id count. -/
def rootTotal (bin : List Byte) (baseOff : Nat) : Nat :=
  leValue bin (u32 (baseOff + 12)) 2 + leValue bin (u32 (baseOff + 14)) 2

/-- The type id of a root entry in the words of the specification: the
name-or-id field when its top bit is clear, 0 when it is set. -/
def resEntry.typeID (e : resEntry) : Nat :=
  if e.NameOrID.testBit 31 = true then 0 else e.NameOrID

/-- The count an entry contributes, in the words of the specification: when
the top bit of offset-to-data is set and the sub-directory at directory RVA
plus the low 31 bits (an RVA, so a `uint32` sum) resolves to a 16-byte header
inside the buffer, the named count plus the id count of that header; nothing
otherwise. -/
def subDirCount (f : File) (bin : List Byte) (dir : DataDirectory) (e : resEntry) :
    Option Nat :=
  if e.OffsetToData.testBit 31 = true then
    match rvaToOff f (u32 (dir.VirtualAddress + e.OffsetToData % 2 ^ 31)) with
    | (subOff, ok) =>
      if ok = true ∧ subOff + 16 ≤ bin.length then
        some (leValue bin (u32 (subOff + 12)) 2 + leValue bin (u32 (subOff + 14)) 2)
      else none
  else none

/-- The count entry `i` contributes to type id `t`. -/
def contribution (f : File) (bin : List Byte) (dir : DataDirectory) (baseOff t i : Nat) :
    Option Nat :=
  if (rootEntry bin baseOff i).typeID = t then subDirCount f bin dir (rootEntry bin baseOff i)
  else none

/-- The value stored for key `t` in a map, if any. -/
def TypeMap.find : TypeMap → Nat → Option Nat
  | [], _ => none
  | (k, c) :: rest, t => if k = t then some c else TypeMap.find rest t

/-- The effect on one key's value of an entry that contributes `c`. -/
def accumulate (acc : Option Nat) (c : Option Nat) : Option Nat :=
  match c with
  | none => acc
  | some v => some (acc.getD 0 + v)

/-- The filter rule of the specification: an entry with a score is kept iff
`score >= minimum`, an entry without a score iff `minimum <= 0`. -/
def kept {α : Type} [LE α] [DecidableRel (fun a b : α => a ≤ b)] [Zero α]
    (minScore : α) (r : RankedString α) : Bool :=
  match r.Score with
  | some s => decide (s ≥ minScore)
  | none => decide (minScore ≤ 0)

/-- The order of the specification between an earlier entry `x` and a later
entry `y` of the output: an unscored entry is followed only by unscored ones,
and scores do not increase. -/
def inRankOrder {α : Type} [LinearOrder α] (x y : RankedString α) : Prop :=
  (x.Score = none → y.Score = none) ∧
    ∀ a b, x.Score = some a → y.Score = some b → b ≤ a

/-- A row of the dump as the specification describes it: the address
`base_offset + 16*k` (a `uint32`) in 8 uppercase hex digits, two spaces, each
byte of the row in 2 uppercase hex digits and a space, three blanks for each
of the 16 positions the row lacks, one space, the ASCII column (the byte
itself in `[0x20, 0x7E]`, a dot otherwise) and a newline. -/
def dumpRow (base k : Nat) (row : List Byte) : List Byte :=
  hexUpper 8 (u32 (base + 16 * k)) ++ ascii "  "
    ++ row.flatMap (fun x => hexUpper 2 x.val ++ ascii " ")
    ++ (List.replicate (16 - row.length) (ascii "   ")).flatten
    ++ ascii " "
    ++ row.map (fun x => if 0x20 ≤ x.val ∧ x.val ≤ 0x7E then x else 46)
    ++ ascii "\n"

/-- The rows of the dump of the specification: row `k` holds the bytes
`data[16k .. 16k+16)`, for `k` below `ceil(len/16)`. -/
def dumpRows (base : Nat) (data : List Byte) : List (List Byte) :=
  (List.range ((data.length + 15) / 16)).map
    (fun k => dumpRow base k ((data.drop (16 * k)).take 16))

/-- A printable byte in the sense of `extractStrings`: printable for
`unicode.IsPrint` and not a tab, a carriage return or a line feed. -/
def printable (b : Byte) : Bool :=
  isPrintLatin1 b && decide (b ≠ 9) && decide (b ≠ 13) && decide (b ≠ 10)

/-- The maximal runs of consecutive printable bytes of a buffer, in buffer
order: the non-empty pieces between its non-printable bytes. -/
def maximalRuns (data : List Byte) : List (List Byte) :=
  (data.splitOnP (fun b => !printable b)).filter (fun run => decide (run ≠ []))

/-- The text the builder of `extractStrings` holds for a run: each byte written
as the UTF-8 encoding of its code point. -/
def runText (run : List Byte) : List Byte :=
  run.flatMap encodeRune

/-- The result the specification gives for `extractStrings`: in buffer order,
the maximal runs of printable bytes whose length in input bytes is at least
`max(min_len, 1)`. -/
def longRuns (data : List Byte) (minLen : Int) : List (List Byte) :=
  (maximalRuns data).filter (fun run => decide (max minLen 1 ≤ (run.length : Int)))

/-! ## Concrete inputs -/

deriving instance DecidableEq for Except

/-- One section mapping RVAs `0x1000 .. 0x2000` to file offsets `0 ..`. -/
def flatSections : List Section :=
  [{ VirtualSize := 0x1000, VirtualAddress := 0x1000, Offset := 0 }]

/-- A 32-bit image whose export directory is at RVA `0x1000`. -/
def exportFile : File :=
  { Sections := flatSections,
    OptionalHeader := .oh32 (fun i => if i = 0 then ⟨0x1000, 40⟩ else ⟨0, 0⟩) }

/-- An export table: module name `d`, base 1, two functions with RVAs
`0x1000` and `0x2000`, two names `f` and `g` with ordinal indices 0 and 1. -/
def exportBuf : List Byte := [
    0, 0, 0, 0, 0, 0, 0, 0, 0, 0, 0, 0, 60, 16, 0, 0, 1, 0, 0, 0,
    2, 0, 0, 0, 2, 0, 0, 0, 40, 16, 0, 0, 48, 16, 0, 0, 56, 16, 0, 0,
    0, 16, 0, 0, 0, 32, 0, 0, 62, 16, 0, 0, 64, 16, 0, 0, 0, 0, 1, 0,
    100, 0, 102, 0, 103, 0]

/-- An export table whose header declares one function and one name; the name
and ordinal arrays (offsets 40 and 44) are inside the buffer, the function
array is declared at RVA `0x1F00`, offset `0xF00`, far past the 46 bytes of
the buffer. -/
def truncatedExportBuf : List Byte := [
    0, 0, 0, 0, 0, 0, 0, 0, 0, 0, 0, 0, 0, 0, 0, 0, 1, 0, 0, 0,
    1, 0, 0, 0, 1, 0, 0, 0, 0, 31, 0, 0, 40, 16, 0, 0, 44, 16, 0, 0,
    0, 0, 0, 0, 0, 0]

/-- An export table with ordinal base `0x10000`, one function with RVA
`0x1000` and one name `f` with ordinal index 0. -/
def wideBaseExportBuf : List Byte := [
    0, 0, 0, 0, 0, 0, 0, 0, 0, 0, 0, 0, 0, 0, 0, 0, 0, 0, 1, 0,
    1, 0, 0, 0, 1, 0, 0, 0, 40, 16, 0, 0, 44, 16, 0, 0, 48, 16, 0, 0,
    0, 16, 0, 0, 50, 16, 0, 0, 0, 0, 102, 0]

/-- A 32-bit image whose import directory is at RVA `0x1000`. -/
def importFile : File :=
  { Sections := flatSections,
    OptionalHeader := .oh32 (fun i => if i = 1 then ⟨0x1000, 40⟩ else ⟨0, 0⟩) }

/-- An import table: one descriptor for `K.DLL` with the thunks `foo` (by
name) and ordinal 7, then the all-zero descriptor. -/
def importBuf : List Byte := [
    40, 16, 0, 0, 0, 0, 0, 0, 0, 0, 0, 0, 52, 16, 0, 0, 40, 16, 0, 0,
    0, 0, 0, 0, 0, 0, 0, 0, 0, 0, 0, 0, 0, 0, 0, 0, 0, 0, 0, 0,
    58, 16, 0, 0, 7, 0, 0, 128, 0, 0, 0, 0, 75, 46, 68, 76, 76, 0, 0, 0,
    102, 111, 111, 0]

/-- The descriptor at offset 0 of `importBuf`. -/
def importBufDesc : importDesc :=
  { OriginalFirstThunk := 0x1028, TimeDateStamp := 0, ForwarderChain := 0,
    NameRVA := 0x1034, FirstThunk := 0x1028 }

/-- An import table that opens with a descriptor whose time stamp is 1 and
whose other fields are zero, followed by the descriptor for `K.DLL` and the
all-zero descriptor. -/
def stampedImportBuf : List Byte := [
    0, 0, 0, 0, 1, 0, 0, 0, 0, 0, 0, 0, 0, 0, 0, 0, 0, 0, 0, 0,
    60, 16, 0, 0, 0, 0, 0, 0, 0, 0, 0, 0, 72, 16, 0, 0, 60, 16, 0, 0,
    0, 0, 0, 0, 0, 0, 0, 0, 0, 0, 0, 0, 0, 0, 0, 0, 0, 0, 0, 0,
    78, 16, 0, 0, 7, 0, 0, 128, 0, 0, 0, 0, 75, 46, 68, 76, 76, 0, 0, 0,
    102, 111, 111, 0]

/-- The effect of `strings.ToLower` on ASCII text. -/
def asciiLower (s : List Byte) : List Byte :=
  s.map (fun c => if 65 ≤ c.val ∧ c.val ≤ 90 then c + 32 else c)

/-- A 32-bit image whose resource directory is at RVA `0x1000`. -/
def resourceFile : File :=
  { Sections := flatSections,
    OptionalHeader := .oh32 (fun i => if i = 2 then ⟨0x1000, 40⟩ else ⟨0, 0⟩) }

/-- A resource directory with one id entry of type 5 that points to a
sub-directory (offset 24) with 3 named and 2 id entries. -/
def resourceBuf : List Byte := [
    0, 0, 0, 0, 0, 0, 0, 0, 0, 0, 0, 0, 0, 0, 1, 0, 5, 0, 0, 0,
    24, 0, 0, 128, 0, 0, 0, 0, 0, 0, 0, 0, 0, 0, 0, 0, 3, 0, 2, 0]

/-- An import table of three live descriptors without a zero sentinel: the
buffer ends after the third descriptor. Every thunk and name RVA is `0x1000`,
offset 0. -/
def unterminatedImportBuf : List Byte := [
    0, 16, 0, 0, 0, 0, 0, 0, 0, 0, 0, 0, 0, 16, 0, 0, 0, 16, 0, 0,
    0, 16, 0, 0, 0, 0, 0, 0, 0, 0, 0, 0, 0, 16, 0, 0, 0, 16, 0, 0,
    0, 16, 0, 0, 0, 0, 0, 0, 0, 0, 0, 0, 0, 16, 0, 0, 0, 16, 0, 0]

/-- An export header that declares exactly `2^20` functions and `2^20` names;
the three arrays are declared at offset 40, the end of the buffer. -/
def fullCountExportBuf : List Byte := [
    0, 0, 0, 0, 0, 0, 0, 0, 0, 0, 0, 0, 0, 0, 0, 0, 1, 0, 0, 0,
    0, 0, 16, 0, 0, 0, 16, 0, 40, 16, 0, 0, 40, 16, 0, 0, 40, 16, 0, 0]

/-- An export header that declares `2^20 + 1` names. -/
def overCountExportBuf : List Byte := [
    0, 0, 0, 0, 0, 0, 0, 0, 0, 0, 0, 0, 0, 0, 0, 0, 1, 0, 0, 0,
    0, 0, 16, 0, 1, 0, 16, 0, 40, 16, 0, 0, 40, 16, 0, 0, 40, 16, 0, 0]

/-- An export header whose function array RVA `0x3000` lies in no section. -/
def unresolvedExportBuf : List Byte := [
    0, 0, 0, 0, 0, 0, 0, 0, 0, 0, 0, 0, 0, 0, 0, 0, 1, 0, 0, 0,
    1, 0, 0, 0, 1, 0, 0, 0, 0, 48, 0, 0, 40, 16, 0, 0, 40, 16, 0, 0]

/-- A 32-bit image whose three data directories are absent: the import
directory is too small, the export directory has address zero, the resource
directory is too small. -/
def absentDirFile : File :=
  { Sections := flatSections,
    OptionalHeader := .oh32 (fun i =>
      if i = 1 then ⟨0x1000, 19⟩ else if i = 0 then ⟨0, 100⟩ else ⟨0x1000, 15⟩) }

/-- The ranked list of the specification's example: `a` with score 0.9, `b`
without a score, `c` with score 0.5. -/
def rankedExample : List (RankedString ℚ) :=
  [{ Text := "a", Score := some 0.9 }, { Text := "b", Score := none },
   { Text := "c", Score := some 0.5 }]

/-- Seventeen bytes: the letters `A` to `P` and a zero byte. -/
def seventeenBytes : List Byte :=
  [65, 66, 67, 68, 69, 70, 71, 72, 73, 74, 75, 76, 77, 78, 79, 80, 0]

/-- The buffer `AB\x00WXYZ\x00C` of the specification's example. -/
def stringsExample : List Byte := [65, 66, 0, 87, 88, 89, 90, 0, 67]

/-! ## Theorems -/

/-! ### Arithmetic and buffer access -/

theorem u32_of_lt {n : Nat} (h : n < 2 ^ 32) : u32 n = n := Nat.mod_eq_of_lt h

theorem u32_lt (n : Nat) : u32 n < 2 ^ 32 := Nat.mod_lt _ (by decide)

theorem and_two_pow_ne_zero (x n : Nat) : x &&& 2 ^ n ≠ 0 ↔ x.testBit n = true := by
  constructor
  · intro h
    by_contra hb
    apply h
    apply Nat.eq_of_testBit_eq
    intro i
    simp only [Nat.testBit_and, Nat.testBit_two_pow, Nat.zero_testBit]
    by_cases hi : n = i
    · subst hi; simp [hb]
    · simp [hi]
  · intro h h0
    have := congrArg (fun y => Nat.testBit y n) h0
    simp [Nat.testBit_and, Nat.testBit_two_pow, h] at this

theorem index_of_lt (b : List Byte) (i : Nat) (h : i < b.length) :
    index b i = .ok (b.getD i 0) := by
  simp [index, List.getD_eq_getElem _ _ h, List.getElem?_eq_getElem h]

theorem drop_cons_getD (b : List Byte) (off : Nat) (h : off < b.length) :
    b.drop off = b.getD off 0 :: b.drop (off + 1) := by
  rw [List.drop_eq_getElem_cons h, List.getD_eq_getElem _ _ h]

theorem sliceU16_eq (b : List Byte) (off : Nat) (h : off + 2 ≤ b.length) :
    sliceU16 b off = .ok (leValue b off 2) := by
  have h0 : off ≤ b.length := by omega
  simp only [sliceU16, sliceFrom, h0, if_true]
  rw [drop_cons_getD b off (by omega), drop_cons_getD b (off + 1) (by omega)]
  simp [leUint16, leValue, List.range_succ, bind, Except.bind]

theorem sliceU32_eq (b : List Byte) (off : Nat) (h : off + 4 ≤ b.length) :
    sliceU32 b off = .ok (leValue b off 4) := by
  have h0 : off ≤ b.length := by omega
  simp only [sliceU32, sliceFrom, h0, if_true]
  rw [drop_cons_getD b off (by omega), drop_cons_getD b (off + 1) (by omega),
    drop_cons_getD b (off + 2) (by omega), drop_cons_getD b (off + 3) (by omega)]
  simp [leUint32, leValue, List.range_succ, bind, Except.bind]
  ring

theorem sliceU64_eq (b : List Byte) (off : Nat) (h : off + 8 ≤ b.length) :
    sliceU64 b off = .ok (leValue b off 8) := by
  have h0 : off ≤ b.length := by omega
  simp only [sliceU64, sliceFrom, h0, if_true]
  rw [drop_cons_getD b off (by omega), drop_cons_getD b (off + 1) (by omega),
    drop_cons_getD b (off + 2) (by omega), drop_cons_getD b (off + 3) (by omega),
    drop_cons_getD b (off + 4) (by omega), drop_cons_getD b (off + 5) (by omega),
    drop_cons_getD b (off + 6) (by omega), drop_cons_getD b (off + 7) (by omega)]
  simp [leUint64, leValue, List.range_succ, bind, Except.bind]
  ring

/-! ### Address translator -/

theorem rvaToOffLoop_lt (secs : List Section) (rva : Nat) :
    (rvaToOffLoop secs rva).1 < 2 ^ 32 := by
  induction secs with
  | nil => simp [rvaToOffLoop]
  | cons s rest ih =>
    simp only [rvaToOffLoop]
    split
    · exact u32_lt _
    · exact ih

theorem rvaToOff_lt (f : File) (rva : Nat) : (rvaToOff f rva).1 < 2 ^ 32 :=
  rvaToOffLoop_lt _ _

/-- When the range end `va+vsz` of the matching section stays below `2^32`,
the scan returns the mapped offset of the first section that contains the
RVA. -/
theorem rvaToOffLoop_first_match (pre post : List Section) (s : Section) (rva : Nat)
    (hpre : ∀ t ∈ pre, ¬ t.contains rva) (hs : s.contains rva)
    (hnw : s.VirtualAddress + s.VirtualSize < 2 ^ 32) :
    rvaToOffLoop (pre ++ s :: post) rva = (u32 (s.Offset + (rva - s.VirtualAddress)), true) := by
  induction pre with
  | nil =>
    obtain ⟨h1, h2⟩ := hs
    have hlt : rva < u32 (s.VirtualAddress + s.VirtualSize) := by
      rw [u32_of_lt hnw]; exact h2
    have hsub : u32 (rva + 2 ^ 32 - s.VirtualAddress) = rva - s.VirtualAddress := by
      simp only [u32]; omega
    simp only [List.nil_append, rvaToOffLoop, ge_iff_le, h1, hlt, and_self, if_true, hsub]
  | cons t pre ih =>
    have ht : ¬ t.contains rva := hpre t (List.mem_cons_self _ _)
    have hle : u32 (t.VirtualAddress + t.VirtualSize) ≤ t.VirtualAddress + t.VirtualSize :=
      Nat.mod_le _ _
    have hno : ¬ (rva ≥ t.VirtualAddress ∧ rva < u32 (t.VirtualAddress + t.VirtualSize)) :=
      fun hc => ht ⟨hc.1, lt_of_lt_of_le hc.2 hle⟩
    simp only [List.cons_append, rvaToOffLoop, hno, if_false]
    exact ih (fun u hu => hpre u (List.mem_cons_of_mem _ hu))

/-- C1 (refuted on the code): a well-formed section whose range end
`virtual_address + virtual_size` passes `2^32` contains the RVA `0xFFFFF800`
when the end is taken as the integer sum, and `rvaToOff` answers not-found:
the `uint32` sum `va+vsz` of the source wraps to `0x1000`. -/
theorem rvaToOff_misses_wrapping_section :
    (∃ s ∈ [({ VirtualSize := 0x2000, VirtualAddress := 0xFFFFF000, Offset := 0x400 } : Section)],
      s.wf ∧ s.contains 0xFFFFF800) ∧
    rvaToOff { Sections := [{ VirtualSize := 0x2000, VirtualAddress := 0xFFFFF000,
                               Offset := 0x400 }],
               OptionalHeader := .none } 0xFFFFF800 = (0, false) := by
  decide

/-- C2: when no section of the table (the empty table included) contains the
RVA in its range `virtual_address <= rva < virtual_address + virtual_size`,
`rvaToOff` returns offset 0 and `ok = false`. -/
theorem rvaToOff_not_found (f : File) (rva : Nat)
    (h : ∀ s ∈ f.Sections, ¬ s.contains rva) : rvaToOff f rva = (0, false) := by
  unfold rvaToOff
  generalize f.Sections = secs at h
  induction secs with
  | nil => rfl
  | cons s rest ih =>
    have hs : ¬ s.contains rva := h s (List.mem_cons_self _ _)
    have hle : u32 (s.VirtualAddress + s.VirtualSize) ≤ s.VirtualAddress + s.VirtualSize :=
      Nat.mod_le _ _
    have hno : ¬ (rva ≥ s.VirtualAddress ∧ rva < u32 (s.VirtualAddress + s.VirtualSize)) :=
      fun hc => hs ⟨hc.1, lt_of_lt_of_le hc.2 hle⟩
    simp only [rvaToOffLoop, hno, if_false]
    exact ih (fun t ht => h t (List.mem_cons_of_mem _ ht))

/-- Witness of C2: RVA `0x2000` lies just past the only section of
`exportFile`. -/
theorem rvaToOff_not_found_witness :
    (∀ s ∈ exportFile.Sections, ¬ s.contains 0x2000) ∧
      rvaToOff exportFile 0x2000 = (0, false) :=
  ⟨by decide, rvaToOff_not_found exportFile 0x2000 (by decide)⟩

/-! ### Safe byte reader -/

theorem readU16_eq (b : List Byte) (off : Nat) :
    readU16 b off = .ok (if off + 2 > b.length then (0, false) else (leValue b off 2, true)) := by
  unfold readU16
  split
  · rfl
  · rw [sliceU16_eq b off (by omega)]; rfl

theorem readU32_eq (b : List Byte) (off : Nat) :
    readU32 b off = .ok (if off + 4 > b.length then (0, false) else (leValue b off 4, true)) := by
  unfold readU32
  split
  · rfl
  · rw [sliceU32_eq b off (by omega)]; rfl

theorem readU64_eq (b : List Byte) (off : Nat) :
    readU64 b off = .ok (if off + 8 > b.length then (0, false) else (leValue b off 8, true)) := by
  unfold readU64
  split
  · rfl
  · rw [sliceU64_eq b off (by omega)]; rfl

/-- C4: each of `readU16`, `readU32`, `readU64` (width `w` = 2, 4, 8) returns
`ok = false` exactly when `off + w > len(b)`, and otherwise `ok = true` with
the little-endian value of the bytes `b[off .. off+w)`; it never panics. -/
theorem readers_spec (b : List Byte) (off : Nat) :
    readU16 b off = .ok (if off + 2 > b.length then (0, false) else (leValue b off 2, true)) ∧
    readU32 b off = .ok (if off + 4 > b.length then (0, false) else (leValue b off 4, true)) ∧
    readU64 b off = .ok (if off + 8 > b.length then (0, false) else (leValue b off 8, true)) :=
  ⟨readU16_eq b off, readU32_eq b off, readU64_eq b off⟩

theorem cstringLoop_total (bin : List Byte) :
    ∀ fuel i, u32 bin.length - i < fuel →
      ∃ j, cstringLoop bin fuel i = .ok j ∧ i ≤ j ∧
        (i ≤ u32 bin.length → j ≤ u32 bin.length) ∧ (u32 bin.length ≤ i → j = i) ∧
        (∀ k, i ≤ k → k < j → bin.getD k 0 ≠ 0) ∧
        (j < u32 bin.length → bin.getD j 0 = 0) := by
  have hlim : u32 bin.length ≤ bin.length := Nat.mod_le _ _
  have hlim2 := u32_lt bin.length
  intro fuel
  induction fuel with
  | zero => intro i h; omega
  | succ fuel ih =>
    intro i hf
    rw [cstringLoop]
    by_cases hlt : i < u32 bin.length
    · rw [if_pos hlt, index_of_lt bin i (by omega)]
      by_cases hz : bin.getD i 0 ≠ 0
      · have h1 : u32 (i + 1) = i + 1 := u32_of_lt (by omega)
        obtain ⟨j, hj, hij, hjl, _, hnz, hend⟩ := ih (i + 1) (by omega)
        refine ⟨j, ?_, by omega, fun _ => hjl (by omega), fun h => by omega, ?_, hend⟩
        · simp only [bind, Except.bind, hz, if_true, ne_eq, not_false_eq_true, h1]
          exact hj
        · intro k hk hkj
          by_cases hki : k = i
          · subst hki; exact hz
          · exact hnz k (by omega) hkj
      · refine ⟨i, ?_, le_refl _, fun h => h, fun _ => rfl, ?_, ?_⟩
        · simp only [bind, Except.bind, hz, if_false]
          rfl
        · intro k hk hkj; omega
        · intro _; simpa using hz
    · rw [if_neg hlt]
      refine ⟨i, rfl, le_refl _, fun h => h, fun _ => rfl, ?_, ?_⟩
      · intro k hk hkj; omega
      · intro h; omega

/-- The function `readCStringRVA` returns on every input: its scan neither
indexes out of range nor uses up its fuel. -/
theorem readCStringRVA_total (f : File) (bin : List Byte) (rva : Nat) :
    ∃ s ok, readCStringRVA f bin rva = .ok (s, ok) := by
  rcases hr : rvaToOff f rva with ⟨off, ok⟩
  simp only [readCStringRVA, hr]
  by_cases h : ok = false ∨ off ≥ bin.length
  · rw [if_pos h]; exact ⟨[], false, rfl⟩
  · rw [if_neg h]
    have hoff : off < bin.length := by
      simp only [not_or, not_le] at h; simpa using h.2
    have hlim : u32 bin.length ≤ bin.length := Nat.mod_le _ _
    obtain ⟨j, hj, hij, hjl, hji, _, _⟩ :=
      cstringLoop_total bin (bin.length + 1) off (by omega)
    have hjlen : j ≤ bin.length := by
      by_cases hc : off ≤ u32 bin.length
      · have := hjl hc; omega
      · have := hji (by omega); omega
    rw [hj]
    refine ⟨(bin.take j).drop off, true, ?_⟩
    simp [bind, Except.bind, sliceRange, hij, hjlen, pure, Except.pure]

/-- C5: for a buffer shorter than `2^32` bytes, `readCStringRVA` returns
not-found exactly when `rvaToOff` does not resolve the RVA or resolves it to an
offset `>= len(bin)`; otherwise it returns found with the bytes `bin[off .. j)`,
where no byte in `[off, j)` is zero and `j` is either `len(bin)` or the position
of a zero byte (so `j` is the first zero at or after `off`, or the buffer end). -/
theorem readCStringRVA_spec (f : File) (bin : List Byte) (rva : Nat)
    (hlen : bin.length < 2 ^ 32) :
    (((rvaToOff f rva).2 = false ∨ (rvaToOff f rva).1 ≥ bin.length) →
      readCStringRVA f bin rva = .ok ([], false)) ∧
    (¬ ((rvaToOff f rva).2 = false ∨ (rvaToOff f rva).1 ≥ bin.length) →
      ∃ j, (rvaToOff f rva).1 ≤ j ∧ j ≤ bin.length ∧
        (∀ k, (rvaToOff f rva).1 ≤ k → k < j → bin.getD k 0 ≠ 0) ∧
        (j < bin.length → bin.getD j 0 = 0) ∧
        readCStringRVA f bin rva = .ok ((bin.take j).drop (rvaToOff f rva).1, true)) := by
  rcases hr : rvaToOff f rva with ⟨off, ok⟩
  constructor
  · intro h
    simp only [readCStringRVA, hr]
    rw [if_pos h]
  · intro h
    have hoff : off < bin.length := by
      simp only [not_or, not_le] at h; simpa using h.2
    have hlim : u32 bin.length = bin.length := u32_of_lt hlen
    obtain ⟨j, hj, hij, hjl, _, hnz, hend⟩ :=
      cstringLoop_total bin (bin.length + 1) off (by omega)
    rw [hlim] at hjl hend
    have hjlen : j ≤ bin.length := hjl (by omega)
    refine ⟨j, hij, hjlen, hnz, hend, ?_⟩
    simp only [readCStringRVA, hr]
    rw [if_neg h, hj]
    simp [bind, Except.bind, sliceRange, hij, hjlen, pure, Except.pure]

/-- Witness of C5: in `exportBuf` the RVA `0x103E` resolves to offset 62, where
the string `f` stands. -/
theorem readCStringRVA_spec_witness :
    exportBuf.length < 2 ^ 32 ∧
    ((((rvaToOff exportFile 0x103E).2 = false ∨
        (rvaToOff exportFile 0x103E).1 ≥ exportBuf.length) →
      readCStringRVA exportFile exportBuf 0x103E = .ok ([], false)) ∧
    (¬ ((rvaToOff exportFile 0x103E).2 = false ∨
        (rvaToOff exportFile 0x103E).1 ≥ exportBuf.length) →
      ∃ j, (rvaToOff exportFile 0x103E).1 ≤ j ∧ j ≤ exportBuf.length ∧
        (∀ k, (rvaToOff exportFile 0x103E).1 ≤ k → k < j → exportBuf.getD k 0 ≠ 0) ∧
        (j < exportBuf.length → exportBuf.getD j 0 = 0) ∧
        readCStringRVA exportFile exportBuf 0x103E
          = .ok ((exportBuf.take j).drop (rvaToOff exportFile 0x103E).1, true))) ∧
    readCStringRVA exportFile exportBuf 0x103E = .ok (ascii "f", true) :=
  ⟨by decide, readCStringRVA_spec exportFile exportBuf 0x103E (by decide), by decide⟩

/-! ### Import table decoder -/

theorem importNamesLoop_spec (f : File) (bin : List Byte) (is64 : Bool) :
    ∀ (vals : List Nat) (fuel off : Nat) (acc : List (List Byte)), off < 2 ^ 32 →
      (∀ j (h : j < vals.length),
        readThunk bin is64 (u32 (off + thunkWidth is64 * j)) = .ok (vals[j], true) ∧
          vals[j] ≠ 0) →
      (∃ v ok, readThunk bin is64 (u32 (off + thunkWidth is64 * vals.length)) = .ok (v, ok) ∧
        (ok = false ∨ v = 0)) →
      vals.length < fuel →
      ∃ names, importNamesLoop f bin is64 fuel off acc = .ok (acc ++ names) ∧
        names.length = vals.length ∧
        ∀ j (h : j < vals.length), ∃ nm, names[j]? = some nm ∧
          thunkElement f bin is64 vals[j] nm := by
  intro vals
  induction vals with
  | nil =>
    intro fuel off acc hoff _ hend hf
    obtain ⟨v, ok, hr, hstop⟩ := hend
    simp only [List.length_nil, Nat.mul_zero, Nat.add_zero, u32_of_lt hoff] at hr
    obtain ⟨fuel, rfl⟩ : ∃ n, fuel = n + 1 := ⟨fuel - 1, by simp at hf; omega⟩
    refine ⟨[], ?_, rfl, fun j h => absurd h (by simp)⟩
    cases is64
    · simp only [readThunk, if_true] at hr
      rw [importNamesLoop]
      simp only [if_true, hr, bind, Except.bind, hstop, pure, Except.pure, List.append_nil]
    · simp only [readThunk, Bool.true_eq_false, if_false] at hr
      rw [importNamesLoop]
      simp only [Bool.true_eq_false, if_false, hr, bind, Except.bind, hstop, if_true, pure,
        Except.pure, List.append_nil]
  | cons v vs ih =>
    intro fuel off acc hoff hread hend hf
    obtain ⟨fuel, rfl⟩ : ∃ n, fuel = n + 1 := ⟨fuel - 1, by simp at hf; omega⟩
    have h0 := hread 0 (by simp)
    simp only [Nat.mul_zero, Nat.add_zero, u32_of_lt hoff, List.getElem_cons_zero] at h0
    obtain ⟨h0r, hv0⟩ := h0
    have hstep : ∀ j, u32 (u32 (off + thunkWidth is64) + thunkWidth is64 * j)
        = u32 (off + thunkWidth is64 * (j + 1)) := by
      intro j
      simp only [u32]
      rw [Nat.mul_succ]
      omega
    have hread' : ∀ j (h : j < vs.length),
        readThunk bin is64 (u32 (u32 (off + thunkWidth is64) + thunkWidth is64 * j))
          = .ok (vs[j], true) ∧ vs[j] ≠ 0 := by
      intro j h
      rw [hstep]
      have := hread (j + 1) (by simpa using h)
      simpa using this
    have hend' : ∃ v' ok, readThunk bin is64
        (u32 (u32 (off + thunkWidth is64) + thunkWidth is64 * vs.length)) = .ok (v', ok) ∧
        (ok = false ∨ v' = 0) := by
      rw [hstep]; simpa using hend
    have hfin : ∀ nm, thunkElement f bin is64 v nm →
        (∃ names, importNamesLoop f bin is64 fuel (u32 (off + thunkWidth is64)) (acc ++ [nm])
            = .ok (acc ++ [nm] ++ names) ∧ names.length = vs.length ∧
          ∀ j (h : j < vs.length), ∃ nm, names[j]? = some nm ∧
            thunkElement f bin is64 vs[j] nm) →
        ∃ names, importNamesLoop f bin is64 fuel (u32 (off + thunkWidth is64)) (acc ++ [nm])
            = .ok (acc ++ names) ∧ names.length = (v :: vs).length ∧
          ∀ j (h : j < (v :: vs).length), ∃ nm, names[j]? = some nm ∧
            thunkElement f bin is64 (v :: vs)[j] nm := by
      intro nm hnm ⟨names, hn, hl, hel⟩
      refine ⟨nm :: names, by simpa using hn, by simp [hl], ?_⟩
      intro j h
      cases j with
      | zero => exact ⟨nm, by simp, hnm⟩
      | succ j => simpa using hel j (by simpa using h)
    have hrec := fun nm => ih fuel (u32 (off + thunkWidth is64)) (acc ++ [nm]) (u32_lt _)
      hread' hend' (by simpa using hf)
    obtain ⟨s, ok, hs⟩ := readCStringRVA_total f bin (u32 (v % 2 ^ 32 + 2))
    cases is64
    · simp only [readThunk, if_true] at h0r
      simp only [thunkWidth, if_true] at hfin hrec
      rw [importNamesLoop]
      simp only [if_true, h0r, bind, Except.bind, hv0, or_self, if_false]
      by_cases hb : v &&& 0x80000000 ≠ 0
      · rw [if_pos hb]
        have hbit : v.testBit 31 = true := (and_two_pow_ne_zero v 31).1 hb
        have hmask : v &&& 0xFFFF = v % 2 ^ 16 := Nat.and_pow_two_sub_one_eq_mod v 16
        apply hfin _ _ (hrec _)
        simp [thunkElement, thunkWidth, hbit, sprintfOrdinal, hmask]
      · rw [if_neg hb]
        have hbit : ¬ v.testBit 31 = true := fun h => hb ((and_two_pow_ne_zero v 31).2 h)
        have hs' : readCStringRVA f bin (u32 (u32 v + 2)) = .ok (s, ok) := hs
        simp only [hs']
        apply hfin _ _ (hrec _)
        simp only [thunkElement, thunkWidth, if_true, hbit, if_false]
        refine ⟨s, ok, hs, ?_⟩
        cases ok <;> simp
    · simp only [readThunk, Bool.true_eq_false, if_false] at h0r
      simp only [thunkWidth, Bool.true_eq_false, if_false] at hfin hrec
      rw [importNamesLoop]
      simp only [Bool.true_eq_false, if_false, h0r, bind, Except.bind, hv0, or_self]
      by_cases hb : v &&& 0x8000000000000000 ≠ 0
      · rw [if_pos hb]
        have hbit : v.testBit 63 = true := (and_two_pow_ne_zero v 63).1 hb
        have hmask : v &&& 0xFFFF = v % 2 ^ 16 := Nat.and_pow_two_sub_one_eq_mod v 16
        have hmask2 : u32 (v % 2 ^ 16) = v % 2 ^ 16 :=
          u32_of_lt (lt_trans (Nat.mod_lt _ (by decide)) (by decide))
        apply hfin _ _ (hrec _)
        simp only [thunkElement, thunkWidth, Bool.true_eq_false, if_false, hbit, if_true,
          sprintfOrdinal, hmask, hmask2]
      · rw [if_neg hb]
        have hbit : ¬ v.testBit 63 = true := fun h => hb ((and_two_pow_ne_zero v 63).2 h)
        have hs' : readCStringRVA f bin (u32 (u32 v + 2)) = .ok (s, ok) := hs
        simp only [hs']
        apply hfin _ _ (hrec _)
        simp only [thunkElement, thunkWidth, Bool.true_eq_false, if_false, hbit]
        refine ⟨s, ok, hs, ?_⟩
        cases ok <;> simp

/-- C7: `parseImportNames` starts at `original_thunk` if that is nonzero and at
`first_thunk` otherwise. If the starting RVA does not resolve the result is
empty. If it resolves to `off`, the entries at `off`, `off+w`, ... (`w` = 4 or 8
bytes, offsets in `uint32` arithmetic) with values `vals` are readable and
nonzero and the next entry is zero or unreadable, then the result has exactly
one element per entry of `vals`, in order: `#` and the decimal low 16 bits when
the entry's top bit is set, otherwise the string `readCStringRVA` finds 2 bytes
past the RVA in its low 32 bits, or `<name>` when it finds none. -/
theorem parseImportNames_spec (f : File) (bin : List Byte) (id : importDesc) (is64 : Bool) :
    ((rvaToOff f (startThunk id)).2 = false →
      ∀ fuel, parseImportNames fuel f bin id is64 = .ok []) ∧
    (∀ (off : Nat) (vals : List Nat), rvaToOff f (startThunk id) = (off, true) →
      (∀ j (h : j < vals.length),
        readThunk bin is64 (u32 (off + thunkWidth is64 * j)) = .ok (vals[j], true) ∧
          vals[j] ≠ 0) →
      (∃ v ok, readThunk bin is64 (u32 (off + thunkWidth is64 * vals.length)) = .ok (v, ok) ∧
        (ok = false ∨ v = 0)) →
      ∀ fuel, vals.length < fuel →
        ∃ names, parseImportNames fuel f bin id is64 = .ok names ∧
          names.length = vals.length ∧
          ∀ j (h : j < vals.length), ∃ nm, names[j]? = some nm ∧
            thunkElement f bin is64 vals[j] nm) := by
  have hstart : (if id.OriginalFirstThunk = 0 then id.FirstThunk else id.OriginalFirstThunk)
      = startThunk id := by
    unfold startThunk; by_cases h : id.OriginalFirstThunk = 0 <;> simp [h]
  constructor
  · intro h fuel
    rcases hr : rvaToOff f (startThunk id) with ⟨off, ok⟩
    rw [hr] at h
    simp only at h
    simp only [parseImportNames, hstart, hr, h, if_true]
  · intro off vals hr hread hend fuel hf
    have hoff : off < 2 ^ 32 := by
      have := rvaToOff_lt f (startThunk id); rw [hr] at this; exact this
    obtain ⟨names, hn, hl, hel⟩ := importNamesLoop_spec f bin is64 vals fuel off [] hoff hread hend hf
    refine ⟨names, ?_, hl, hel⟩
    simp only [parseImportNames, hstart, hr, Bool.true_eq_false, if_false]
    simpa using hn

/-- Witness of C7: the thunk array of `importBuf` (offset 40) holds a name
entry, the ordinal entry 7 and the zero entry; the result is `foo`, `#7`. -/
theorem parseImportNames_spec_witness :
    rvaToOff importFile (startThunk importBufDesc) = (40, true) ∧
    (∀ j (h : j < [0x103A, 0x80000007].length),
      readThunk importBuf false (u32 (40 + thunkWidth false * j))
          = .ok ([0x103A, 0x80000007][j], true) ∧
        [0x103A, 0x80000007][j] ≠ 0) ∧
    (∃ names, parseImportNames 3 importFile importBuf importBufDesc false = .ok names ∧
      names.length = [0x103A, 0x80000007].length ∧
      ∀ j (h : j < [0x103A, 0x80000007].length), ∃ nm, names[j]? = some nm ∧
        thunkElement importFile importBuf false [0x103A, 0x80000007][j] nm) ∧
    parseImportNames 3 importFile importBuf importBufDesc false
      = .ok [ascii "foo", ascii "#7"] :=
  ⟨by decide, by decide,
    (parseImportNames_spec importFile importBuf importBufDesc false).2 40 [0x103A, 0x80000007]
      (by decide) (by decide) ⟨0, true, by decide, Or.inr rfl⟩ 3 (by decide),
    by decide⟩

theorem importNamesLoop_terminates (f : File) (bin : List Byte) (is64 : Bool)
    (hlen : bin.length < 2 ^ 32) :
    ∀ fuel off acc, bin.length - off < fuel →
      ∃ names, importNamesLoop f bin is64 fuel off acc = .ok names := by
  intro fuel
  induction fuel with
  | zero => intro off acc h; omega
  | succ fuel ih =>
    intro off acc hf
    cases is64
    · rw [importNamesLoop]
      simp only [if_true, readU32_eq bin off]
      by_cases hfit : off + 4 > bin.length
      · simp [hfit, bind, Except.bind, pure, Except.pure]
      · simp only [hfit, if_false, bind, Except.bind]
        by_cases hv : leValue bin off 4 = 0
        · simp [hv, pure, Except.pure]
        · have hoff : u32 (off + 4) = off + 4 := u32_of_lt (by omega)
          simp only [Bool.true_eq_false, hv, or_self, if_false, hoff]
          split
          · exact ih _ _ (by omega)
          · obtain ⟨s, ok, hs⟩ := readCStringRVA_total f bin (u32 (u32 (leValue bin off 4) + 2))
            simp only [hs]
            exact ih _ _ (by omega)
    · rw [importNamesLoop]
      simp only [Bool.true_eq_false, if_false, readU64_eq bin off]
      by_cases hfit : off + 8 > bin.length
      · simp [hfit, bind, Except.bind, pure, Except.pure]
      · simp only [hfit, if_false, bind, Except.bind]
        by_cases hv : leValue bin off 8 = 0
        · simp [hv, pure, Except.pure]
        · have hoff : u32 (off + 8) = off + 8 := u32_of_lt (by omega)
          simp only [Bool.true_eq_false, hv, or_self, if_false, hoff]
          split
          · exact ih _ _ (by omega)
          · obtain ⟨s, ok, hs⟩ := readCStringRVA_total f bin (u32 (u32 (leValue bin off 8) + 2))
            simp only [hs]
            exact ih _ _ (by omega)

/-- On a buffer shorter than `2^32` bytes the thunk walk returns with any fuel
above the buffer length. -/
theorem parseImportNames_terminates (f : File) (bin : List Byte) (id : importDesc)
    (is64 : Bool) (hlen : bin.length < 2 ^ 32) (fuel : Nat) (hf : bin.length < fuel) :
    ∃ names, parseImportNames fuel f bin id is64 = .ok names := by
  simp only [parseImportNames]
  generalize (if id.OriginalFirstThunk = 0 then id.FirstThunk else id.OriginalFirstThunk) = thunk
  rcases hr : rvaToOff f thunk with ⟨off, ok⟩
  simp only
  by_cases hok : ok = false
  · rw [if_pos hok]; exact ⟨[], rfl⟩
  · rw [if_neg hok]
    exact importNamesLoop_terminates f bin is64 hlen fuel off [] (by omega)

theorem importsLoop_read (bin : List Byte) (off : Nat) (hlen : bin.length < 2 ^ 32)
    (hfit : off + 20 ≤ bin.length) :
    sliceU32 bin (u32 (off + 0)) = .ok (leValue bin off 4) ∧
    sliceU32 bin (u32 (off + 4)) = .ok (leValue bin (off + 4) 4) ∧
    sliceU32 bin (u32 (off + 8)) = .ok (leValue bin (off + 8) 4) ∧
    sliceU32 bin (u32 (off + 12)) = .ok (leValue bin (off + 12) 4) ∧
    sliceU32 bin (u32 (off + 16)) = .ok (leValue bin (off + 16) 4) := by
  rw [u32_of_lt (by omega : off + 0 < 2 ^ 32), u32_of_lt (by omega : off + 4 < 2 ^ 32),
    u32_of_lt (by omega : off + 8 < 2 ^ 32), u32_of_lt (by omega : off + 12 < 2 ^ 32),
    u32_of_lt (by omega : off + 16 < 2 ^ 32)]
  exact ⟨sliceU32_eq bin _ (by omega), sliceU32_eq bin _ (by omega),
    sliceU32_eq bin _ (by omega), sliceU32_eq bin _ (by omega), sliceU32_eq bin _ (by omega)⟩

theorem importsLoop_spec (toLower : List Byte → List Byte) (f : File) (bin : List Byte)
    (is64 : Bool) (inner : Nat) (hlen : bin.length < 2 ^ 32) (hinner : bin.length < inner) :
    ∀ (k fuel off : Nat) (r : ImportReport),
      (∀ j, j < k → off + 20 * j + 20 ≤ bin.length ∧ ¬ (descAt bin (off + 20 * j)).ends) →
      (bin.length < off + 20 * k + 20 ∨ (descAt bin (off + 20 * k)).ends) →
      k < fuel →
      ∃ ds, importsLoop toLower f bin is64 inner fuel off r
          = .ok { r with DLLs := r.DLLs ++ ds } ∧ ds.length = k ∧
        ∀ j, j < k → ∃ d, ds[j]? = some d ∧
          dllEntry toLower inner f bin is64 (descAt bin (off + 20 * j)) d := by
  intro k
  induction k with
  | zero =>
    intro fuel off r _ hend hf
    obtain ⟨fuel, rfl⟩ : ∃ n, fuel = n + 1 := ⟨fuel - 1, by omega⟩
    refine ⟨[], ?_, rfl, fun j h => absurd h (by omega)⟩
    simp only [Nat.mul_zero, Nat.add_zero] at hend
    rw [importsLoop]
    by_cases hfit : off + 20 > bin.length
    · simp [hfit, pure, Except.pure]
    · have hends : (descAt bin off).ends := by
        rcases hend with h | h
        · omega
        · exact h
      simp only [importDesc.ends, descAt] at hends
      obtain ⟨h1, h2, h3, h4, h5⟩ := importsLoop_read bin off hlen (by omega)
      rw [if_neg hfit, h1, h2, h3, h4, h5]
      simp only [bind, Except.bind]
      rw [if_pos hends]
      simp [pure, Except.pure]
  | succ k ih =>
    intro fuel off r hbefore hend hf
    obtain ⟨fuel, rfl⟩ : ∃ n, fuel = n + 1 := ⟨fuel - 1, by omega⟩
    obtain ⟨hfit0, hne0⟩ := hbefore 0 (by omega)
    simp only [Nat.mul_zero, Nat.add_zero] at hfit0 hne0
    obtain ⟨h1, h2, h3, h4, h5⟩ := importsLoop_read bin off hlen hfit0
    obtain ⟨s, ok, hs⟩ := readCStringRVA_total f bin (descAt bin off).NameRVA
    obtain ⟨funcs, hfuncs⟩ :=
      parseImportNames_terminates f bin (descAt bin off) is64 hlen inner hinner
    have hoff : u32 (off + 20) = off + 20 := u32_of_lt (by omega)
    have hshift : ∀ j, off + 20 + 20 * j = off + 20 * (j + 1) := fun j => by ring
    obtain ⟨ds, hds, hlen', hel⟩ := ih fuel (off + 20)
      { r with DLLs := r.DLLs ++
          [{ Name := toLower (if ok = false ∨ s = [] then ascii "<unknown>" else s),
             Functions := funcs }] }
      (fun j hj => by rw [hshift]; exact hbefore (j + 1) (by omega))
      (by rw [hshift]; exact hend) (by omega)
    refine ⟨{ Name := toLower (if ok = false ∨ s = [] then ascii "<unknown>" else s),
              Functions := funcs } :: ds, ?_, by simp [hlen'], ?_⟩
    · have hne0' := hne0
      have hs' := hs
      have hfuncs' := hfuncs
      simp only [importDesc.ends, descAt] at hne0' hs' hfuncs'
      rw [importsLoop]
      rw [if_neg (by omega : ¬ off + 20 > bin.length), h1, h2, h3, h4, h5]
      simp only [bind, Except.bind]
      rw [if_neg hne0', hs']
      simp only [hfuncs', hoff]
      rw [hds]
      simp
    · intro j hj
      cases j with
      | zero =>
        refine ⟨{ Name := toLower (if ok = false ∨ s = [] then ascii "<unknown>" else s),
                  Functions := funcs }, by simp, ?_⟩
        simp only [Nat.mul_zero, Nat.add_zero]
        exact ⟨⟨s, ok, hs, rfl⟩, hfuncs⟩
      | succ j =>
        obtain ⟨d, hd, hde⟩ := hel j (by omega)
        refine ⟨d, by simpa using hd, ?_⟩
        rw [← hshift]; exact hde

/-- C6 (refuted as stated): in `stampedImportBuf` descriptors 0 and 1 fit in
the buffer and are not all-zero (descriptor 0 has time stamp 1), descriptor 2
is the first all-zero one, so the claim gives a DLL list of two entries; the
walk of `parseImports` ends at descriptor 0 and returns no DLL. -/
theorem parseImports_stops_at_stamped_descriptor :
    dataDirectory importFile IMAGE_DIRECTORY_ENTRY_IMPORT = some ⟨0x1000, 40⟩ ∧
    rvaToOff importFile 0x1000 = (0, true) ∧
    (∀ j, j < 2 → 0 + 20 * j + 20 ≤ stampedImportBuf.length ∧
      ¬ (descAt stampedImportBuf (0 + 20 * j)).allZero) ∧
    (descAt stampedImportBuf (0 + 20 * 2)).allZero ∧
    parseImports asciiLower 100 importFile stampedImportBuf false
      = .ok { DLLs := [], Note := "" } := by
  decide

/-- C6 (amended): for a buffer shorter than `2^32` bytes and a present import
directory (RVA nonzero, size at least 20) whose RVA resolves to offset `o`, the
walk over the descriptors at `o`, `o+20`, ... ends at the first descriptor `k`
that does not fit in the buffer or whose original-thunk, name RVA and
first-thunk fields are all zero (time stamp and forwarder chain are not
examined); the DLL list has exactly one entry, in order, for each of the `k`
descriptors before it, the note is empty, and when the first descriptor is
all-zero the DLL list is empty. -/
theorem parseImports_walk (toLower : List Byte → List Byte) (fuel : Nat) (f : File)
    (bin : List Byte) (is64 : Bool) (dir : DataDirectory) (o k : Nat)
    (hlen : bin.length < 2 ^ 32) (hfuel : bin.length < fuel)
    (hdir : dataDirectory f IMAGE_DIRECTORY_ENTRY_IMPORT = some dir)
    (hva : dir.VirtualAddress ≠ 0) (hsz : 20 ≤ dir.Size)
    (ho : rvaToOff f dir.VirtualAddress = (o, true))
    (hbefore : ∀ j, j < k →
      o + 20 * j + 20 ≤ bin.length ∧ ¬ (descAt bin (o + 20 * j)).ends)
    (hend : bin.length < o + 20 * k + 20 ∨ (descAt bin (o + 20 * k)).ends) :
    ∃ r, parseImports toLower fuel f bin is64 = .ok r ∧ r.Note = "" ∧
      r.DLLs.length = k ∧
      (∀ j, j < k → ∃ d, r.DLLs[j]? = some d ∧
        dllEntry toLower fuel f bin is64 (descAt bin (o + 20 * j)) d) ∧
      ((descAt bin o).allZero → r.DLLs = []) := by
  have hk : k < fuel := by
    rcases Nat.eq_zero_or_pos k with h | h
    · omega
    · have := (hbefore (k - 1) (by omega)).1
      omega
  obtain ⟨ds, hds, hl, hel⟩ := importsLoop_spec toLower f bin is64 fuel hlen hfuel k fuel o
    { DLLs := [], Note := "" } hbefore hend hk
  refine ⟨{ DLLs := ds, Note := "" }, ?_, rfl, hl, hel, ?_⟩
  · have hnp : ¬ (dir.VirtualAddress = 0 ∨ dir.Size < 20) := by
      intro h; rcases h with h | h
      · exact hva h
      · omega
    simp only [parseImports, hdir, hnp, if_false, ho, Bool.true_eq_false]
    simpa using hds
  · intro hz
    have hk0 : k = 0 := by
      by_contra hne
      have h0 := (hbefore 0 (by omega)).2
      simp only [Nat.mul_zero, Nat.add_zero] at h0
      exact h0 ⟨hz.1, hz.2.2.2.1, hz.2.2.2.2⟩
    subst hk0
    simpa using hl

/-- Witness of C6 (amended): in `importBuf` the descriptor at offset 0 is live
and the one at offset 20 ends the walk; the DLL list is the single entry for
`k.dll` with the functions `foo` and `#7`. -/
theorem parseImports_walk_witness :
    importBuf.length < 2 ^ 32 ∧ importBuf.length < 100 ∧
    dataDirectory importFile IMAGE_DIRECTORY_ENTRY_IMPORT = some ⟨0x1000, 40⟩ ∧
    rvaToOff importFile 0x1000 = (0, true) ∧
    (∀ j, j < 1 →
      0 + 20 * j + 20 ≤ importBuf.length ∧ ¬ (descAt importBuf (0 + 20 * j)).ends) ∧
    (importBuf.length < 0 + 20 * 1 + 20 ∨ (descAt importBuf (0 + 20 * 1)).ends) ∧
    (∃ r, parseImports asciiLower 100 importFile importBuf false = .ok r ∧ r.Note = "" ∧
      r.DLLs.length = 1 ∧
      (∀ j, j < 1 → ∃ d, r.DLLs[j]? = some d ∧
        dllEntry asciiLower 100 importFile importBuf false (descAt importBuf (0 + 20 * j)) d) ∧
      ((descAt importBuf 0).allZero → r.DLLs = [])) ∧
    parseImports asciiLower 100 importFile importBuf false
      = .ok { DLLs := [{ Name := ascii "k.dll", Functions := [ascii "foo", ascii "#7"] }],
              Note := "" } :=
  ⟨by decide, by decide, by decide, by decide, by decide, by decide,
    parseImports_walk asciiLower 100 importFile importBuf false ⟨0x1000, 40⟩ 0 1
      (by decide) (by decide) (by decide) (by decide) (by decide) (by decide)
      (by decide) (by decide),
    by decide⟩

/-! ### Export table decoder -/

theorem u32_le (n : Nat) : u32 n ≤ n := Nat.mod_le _ _

theorem nameAt_eq (f : File) (bin : List Byte) (rva : Nat) :
    ∃ ok, readCStringRVA f bin rva = .ok (nameAt f bin rva, ok) := by
  obtain ⟨s, ok, hs⟩ := readCStringRVA_total f bin rva
  exact ⟨ok, by simp [nameAt, hs]⟩

theorem exportsLoop_spec (f : File) (bin : List Byte) (ed : exportDir)
    (funcsOff namesOff ordsOff : Nat)
    (hfuncs : arrayInside bin funcsOff 4 ed.NumberOfFunctions) :
    ∀ (n i0 : Nat) (r : ExportReport),
      (∀ i, i0 ≤ i → i < i0 + n → u32 (namesOff + 4 * i) + 4 ≤ bin.length) →
      (∀ i, i0 ≤ i → i < i0 + n → u32 (ordsOff + 2 * i) + 2 ≤ bin.length) →
      exportsLoop f bin ed ed.NumberOfFunctions funcsOff n
          (u32 (namesOff + 4 * i0)) (u32 (ordsOff + 2 * i0)) r
        = .ok { r with Symbols := r.Symbols ++
            (List.range' i0 n).filterMap (exportPair f bin ed funcsOff namesOff ordsOff) } := by
  intro n
  induction n with
  | zero => intro i0 r _ _; simp [exportsLoop, pure, Except.pure]
  | succ n ih =>
    intro i0 r hn ho
    have hn0 := hn i0 (le_refl _) (by omega)
    have ho0 := ho i0 (le_refl _) (by omega)
    have hbrk : ¬ (u32 (namesOff + 4 * i0) + 4 > bin.length ∨
        u32 (ordsOff + 2 * i0) + 2 > bin.length) := by omega
    obtain ⟨ok, hname⟩ := nameAt_eq f bin (leValue bin (u32 (namesOff + 4 * i0)) 4)
    have hnext1 : u32 (u32 (namesOff + 4 * i0) + 4) = u32 (namesOff + 4 * (i0 + 1)) := by
      simp only [u32]; omega
    have hnext2 : u32 (u32 (ordsOff + 2 * i0) + 2) = u32 (ordsOff + 2 * (i0 + 1)) := by
      simp only [u32]; omega
    rw [exportsLoop, if_neg hbrk, sliceU32_eq bin _ hn0, sliceU16_eq bin _ ho0]
    simp only [bind, Except.bind, hname, hnext1, hnext2]
    have hih := fun r' => ih (i0 + 1) r'
      (fun i h1 h2 => hn i (by omega) (by omega)) (fun i h1 h2 => ho i (by omega) (by omega))
    by_cases hidx : leValue bin (u32 (ordsOff + 2 * i0)) 2 ≥ ed.NumberOfFunctions
    · rw [if_pos hidx, hih]
      have : exportPair f bin ed funcsOff namesOff ordsOff i0 = none := by
        simp only [exportPair, ordinalIndex]; rw [if_neg (by omega)]
      simp [List.range'_succ, List.filterMap_cons, this]
    · rw [if_neg hidx]
      have hlt : leValue bin (u32 (ordsOff + 2 * i0)) 2 < ed.NumberOfFunctions := by omega
      have hfo : u32 (funcsOff + u32 (leValue bin (u32 (ordsOff + 2 * i0)) 2 * 4))
          = u32 (funcsOff + 4 * leValue bin (u32 (ordsOff + 2 * i0)) 2) := by
        simp only [u32]; omega
      rw [hfo, sliceU32_eq bin _ (hfuncs _ hlt)]
      simp only [hih]
      have : exportPair f bin ed funcsOff namesOff ordsOff i0 = some
          { Name := nameAt f bin (leValue bin (u32 (namesOff + 4 * i0)) 4),
            Ordinal := u16 (u16 ed.Base + u16 (leValue bin (u32 (ordsOff + 2 * i0)) 2)),
            RVA := leValue bin (u32 (funcsOff + 4 * leValue bin (u32 (ordsOff + 2 * i0)) 2)) 4 } := by
        simp only [exportPair, ordinalIndex]; rw [if_pos hlt]
      simp [List.range'_succ, List.filterMap_cons, this]

theorem exportHeader_read (bin : List Byte) (baseOff : Nat) (hfit : baseOff + 40 ≤ bin.length) :
    sliceU32 bin (u32 (baseOff + 0)) = .ok (exportDirAt bin baseOff).Characteristics ∧
    sliceU32 bin (u32 (baseOff + 4)) = .ok (exportDirAt bin baseOff).TimeDateStamp ∧
    sliceU16 bin (u32 (baseOff + 8)) = .ok (exportDirAt bin baseOff).MajorVersion ∧
    sliceU16 bin (u32 (baseOff + 10)) = .ok (exportDirAt bin baseOff).MinorVersion ∧
    sliceU32 bin (u32 (baseOff + 12)) = .ok (exportDirAt bin baseOff).NameRVA ∧
    sliceU32 bin (u32 (baseOff + 16)) = .ok (exportDirAt bin baseOff).Base ∧
    sliceU32 bin (u32 (baseOff + 20)) = .ok (exportDirAt bin baseOff).NumberOfFunctions ∧
    sliceU32 bin (u32 (baseOff + 24)) = .ok (exportDirAt bin baseOff).NumberOfNames ∧
    sliceU32 bin (u32 (baseOff + 28)) = .ok (exportDirAt bin baseOff).AddressOfFunctions ∧
    sliceU32 bin (u32 (baseOff + 32)) = .ok (exportDirAt bin baseOff).AddressOfNames ∧
    sliceU32 bin (u32 (baseOff + 36)) = .ok (exportDirAt bin baseOff).AddressOfNameOrdinal := by
  have h := fun c => u32_le (baseOff + c)
  refine ⟨sliceU32_eq bin _ ?_, sliceU32_eq bin _ ?_, sliceU16_eq bin _ ?_, sliceU16_eq bin _ ?_,
    sliceU32_eq bin _ ?_, sliceU32_eq bin _ ?_, sliceU32_eq bin _ ?_, sliceU32_eq bin _ ?_,
    sliceU32_eq bin _ ?_, sliceU32_eq bin _ ?_, sliceU32_eq bin _ ?_⟩
  · have := h 0; omega
  · have := h 4; omega
  · have := h 8; omega
  · have := h 10; omega
  · have := h 12; omega
  · have := h 16; omega
  · have := h 20; omega
  · have := h 24; omega
  · have := h 28; omega
  · have := h 32; omega
  · have := h 36; omega

/-- What `parseExports` does once a present directory has resolved to a
readable header: the three array RVAs and the two counts are checked, then the
name loop runs. -/
theorem parseExports_after_header (f : File) (bin : List Byte) (dir : DataDirectory)
    (baseOff : Nat)
    (hdir : dataDirectory f IMAGE_DIRECTORY_ENTRY_EXPORT = some dir)
    (hva : dir.VirtualAddress ≠ 0) (hsz : 40 ≤ dir.Size)
    (hbase : rvaToOff f dir.VirtualAddress = (baseOff, true))
    (hfit : baseOff + 40 ≤ bin.length) :
    ∃ r0 : ExportReport, r0.Symbols = [] ∧ r0.Note = "" ∧
      parseExports f bin =
        if (rvaToOff f (exportDirAt bin baseOff).AddressOfFunctions).2 = false ∨
            (rvaToOff f (exportDirAt bin baseOff).AddressOfNames).2 = false ∨
            (rvaToOff f (exportDirAt bin baseOff).AddressOfNameOrdinal).2 = false then
          .ok { r0 with Note := "malformed export arrays" }
        else if (exportDirAt bin baseOff).NumberOfNames > 2 ^ 20 ∨
            (exportDirAt bin baseOff).NumberOfFunctions > 2 ^ 20 then
          .ok { r0 with Note := "suspicious export counts" }
        else
          exportsLoop f bin (exportDirAt bin baseOff) (exportDirAt bin baseOff).NumberOfFunctions
            (rvaToOff f (exportDirAt bin baseOff).AddressOfFunctions).1
            (exportDirAt bin baseOff).NumberOfNames
            (rvaToOff f (exportDirAt bin baseOff).AddressOfNames).1
            (rvaToOff f (exportDirAt bin baseOff).AddressOfNameOrdinal).1 r0 := by
  have hnp : ¬ (dir.VirtualAddress = 0 ∨ dir.Size < 40) := by
    intro h; rcases h with h | h
    · exact hva h
    · omega
  have hnb : ¬ (true = false ∨ baseOff + 40 > bin.length) := by
    intro h; rcases h with h | h
    · cases h
    · omega
  obtain ⟨s, ok, hs⟩ := readCStringRVA_total f bin (exportDirAt bin baseOff).NameRVA
  obtain ⟨h1, h2, h3, h4, h5, h6, h7, h8, h9, h10, h11⟩ := exportHeader_read bin baseOff hfit
  refine ⟨if ok = true then { DLLName := s, Symbols := [], Note := "" }
    else { DLLName := [], Symbols := [], Note := "" }, ?_, ?_, ?_⟩
  · cases ok <;> rfl
  · cases ok <;> rfl
  · simp only [parseExports, hdir, hnp, if_false, hbase, hnb, h1, h2, h3, h4, h5, h6, h7, h8,
      h9, h10, h11, bind, Except.bind, hs]

/-- C3 (refuted on the code): on `truncatedExportBuf` the name and ordinal
arrays are read inside the buffer, and the unchecked read of the function RVA
at `bin[funcsOff+idx*4:]` indexes out of range: `parseExports` panics. -/
theorem parseExports_panics_on_truncated_functions :
    parseExports exportFile truncatedExportBuf = .error .indexOutOfRange := by
  decide

/-- The symbols of a well-formed export table, with the three arrays inside
the buffer entry by entry (`arrayInside`). -/
theorem parseExports_symbols_of_arrayInside (f : File) (bin : List Byte) (dir : DataDirectory)
    (baseOff funcsOff namesOff ordsOff : Nat)
    (hdir : dataDirectory f IMAGE_DIRECTORY_ENTRY_EXPORT = some dir)
    (hva : dir.VirtualAddress ≠ 0) (hsz : 40 ≤ dir.Size)
    (hbase : rvaToOff f dir.VirtualAddress = (baseOff, true))
    (hfit : baseOff + 40 ≤ bin.length)
    (hF : rvaToOff f (exportDirAt bin baseOff).AddressOfFunctions = (funcsOff, true))
    (hN : rvaToOff f (exportDirAt bin baseOff).AddressOfNames = (namesOff, true))
    (hO : rvaToOff f (exportDirAt bin baseOff).AddressOfNameOrdinal = (ordsOff, true))
    (hnf : (exportDirAt bin baseOff).NumberOfFunctions ≤ 2 ^ 20)
    (hnn : (exportDirAt bin baseOff).NumberOfNames ≤ 2 ^ 20)
    (haF : arrayInside bin funcsOff 4 (exportDirAt bin baseOff).NumberOfFunctions)
    (haN : arrayInside bin namesOff 4 (exportDirAt bin baseOff).NumberOfNames)
    (haO : arrayInside bin ordsOff 2 (exportDirAt bin baseOff).NumberOfNames) :
    ∃ r, parseExports f bin = .ok r ∧ r.Note = "" ∧
      r.Symbols = (List.range (exportDirAt bin baseOff).NumberOfNames).filterMap
        (exportPair f bin (exportDirAt bin baseOff) funcsOff namesOff ordsOff) := by
  obtain ⟨r0, hsym, hnote, heq⟩ := parseExports_after_header f bin dir baseOff hdir hva hsz hbase hfit
  have hres : ¬ ((true = false) ∨ (true = false) ∨ (true = false)) := by simp
  have hcnt : ¬ ((exportDirAt bin baseOff).NumberOfNames > 2 ^ 20 ∨
      (exportDirAt bin baseOff).NumberOfFunctions > 2 ^ 20) := by omega
  have hN0 : u32 (namesOff + 4 * 0) = namesOff := by
    have := rvaToOff_lt f (exportDirAt bin baseOff).AddressOfNames
    rw [hN] at this; exact u32_of_lt this
  have hO0 : u32 (ordsOff + 2 * 0) = ordsOff := by
    have := rvaToOff_lt f (exportDirAt bin baseOff).AddressOfNameOrdinal
    rw [hO] at this; exact u32_of_lt this
  have hloop := exportsLoop_spec f bin (exportDirAt bin baseOff) funcsOff namesOff ordsOff haF
    (exportDirAt bin baseOff).NumberOfNames 0 r0
    (fun i _ h => haN i (by omega)) (fun i _ h => haO i (by omega))
  rw [hN0, hO0] at hloop
  rw [hF, hN, hO, if_neg hres, if_neg hcnt, hloop] at heq
  refine ⟨_, heq, hnote, ?_⟩
  simp [hsym, List.range_eq_range']


theorem arrayInside_of_le (bin : List Byte) (off w n : Nat)
    (h : off + w * n ≤ bin.length) : arrayInside bin off w n := by
  intro i hi
  have h1 := u32_le (off + w * i)
  have h2 : w * (i + 1) ≤ w * n := Nat.mul_le_mul_left w hi
  rw [Nat.mul_succ] at h2
  omega

/-- C8: for a present export directory whose 40-byte header is readable, whose
three array RVAs resolve, whose counts are at most `2^20` and whose three
arrays lie wholly inside the buffer, `parseExports` returns, with an empty
note, the symbols of the pairs `i < name_count` whose ordinal index is below
the function count, in name-array order: pair `i` gives the name at the `i`-th
name RVA (empty if unresolved) and the 4-byte value at function-array offset
`idx*4`; pairs with an index at or above the function count are skipped. -/
theorem parseExports_symbols (f : File) (bin : List Byte) (dir : DataDirectory)
    (baseOff funcsOff namesOff ordsOff : Nat)
    (hdir : dataDirectory f IMAGE_DIRECTORY_ENTRY_EXPORT = some dir)
    (hva : dir.VirtualAddress ≠ 0) (hsz : 40 ≤ dir.Size)
    (hbase : rvaToOff f dir.VirtualAddress = (baseOff, true))
    (hfit : baseOff + 40 ≤ bin.length)
    (hF : rvaToOff f (exportDirAt bin baseOff).AddressOfFunctions = (funcsOff, true))
    (hN : rvaToOff f (exportDirAt bin baseOff).AddressOfNames = (namesOff, true))
    (hO : rvaToOff f (exportDirAt bin baseOff).AddressOfNameOrdinal = (ordsOff, true))
    (hnf : (exportDirAt bin baseOff).NumberOfFunctions ≤ 2 ^ 20)
    (hnn : (exportDirAt bin baseOff).NumberOfNames ≤ 2 ^ 20)
    (haF : funcsOff + 4 * (exportDirAt bin baseOff).NumberOfFunctions ≤ bin.length)
    (haN : namesOff + 4 * (exportDirAt bin baseOff).NumberOfNames ≤ bin.length)
    (haO : ordsOff + 2 * (exportDirAt bin baseOff).NumberOfNames ≤ bin.length) :
    ∃ r, parseExports f bin = .ok r ∧ r.Note = "" ∧
      r.Symbols = (List.range (exportDirAt bin baseOff).NumberOfNames).filterMap
        (exportPair f bin (exportDirAt bin baseOff) funcsOff namesOff ordsOff) :=
  parseExports_symbols_of_arrayInside f bin dir baseOff funcsOff namesOff ordsOff hdir hva hsz
    hbase hfit hF hN hO hnf hnn (arrayInside_of_le _ _ _ _ haF) (arrayInside_of_le _ _ _ _ haN)
    (arrayInside_of_le _ _ _ _ haO)

/-- Witness of C8: `exportBuf` has two names with ordinal indices 0 and 1, the
function RVAs `0x1000` and `0x2000` and base 1; the symbols are `f` with
ordinal 1 and RVA `0x1000`, then `g` with ordinal 2 and RVA `0x2000`. -/
theorem parseExports_symbols_witness :
    dataDirectory exportFile IMAGE_DIRECTORY_ENTRY_EXPORT = some ⟨0x1000, 40⟩ ∧
    rvaToOff exportFile 0x1000 = (0, true) ∧ 0 + 40 ≤ exportBuf.length ∧
    rvaToOff exportFile (exportDirAt exportBuf 0).AddressOfFunctions = (40, true) ∧
    rvaToOff exportFile (exportDirAt exportBuf 0).AddressOfNames = (48, true) ∧
    rvaToOff exportFile (exportDirAt exportBuf 0).AddressOfNameOrdinal = (56, true) ∧
    (exportDirAt exportBuf 0).NumberOfFunctions = 2 ∧
    (exportDirAt exportBuf 0).NumberOfNames = 2 ∧
    40 + 4 * (exportDirAt exportBuf 0).NumberOfFunctions ≤ exportBuf.length ∧
    48 + 4 * (exportDirAt exportBuf 0).NumberOfNames ≤ exportBuf.length ∧
    56 + 2 * (exportDirAt exportBuf 0).NumberOfNames ≤ exportBuf.length ∧
    (∃ r, parseExports exportFile exportBuf = .ok r ∧ r.Note = "" ∧
      r.Symbols = (List.range (exportDirAt exportBuf 0).NumberOfNames).filterMap
        (exportPair exportFile exportBuf (exportDirAt exportBuf 0) 40 48 56)) ∧
    parseExports exportFile exportBuf
      = .ok { DLLName := ascii "d",
              Symbols := [{ Name := ascii "f", Ordinal := 1, RVA := 0x1000 },
                          { Name := ascii "g", Ordinal := 2, RVA := 0x2000 }],
              Note := "" } :=
  ⟨by decide, by decide, by decide, by decide, by decide, by decide, by decide, by decide,
    by decide, by decide, by decide,
    parseExports_symbols exportFile exportBuf ⟨0x1000, 40⟩ 0 40 48 56
      (by decide) (by decide) (by decide) (by decide) (by decide) (by decide) (by decide)
      (by decide) (by decide) (by decide) (by decide) (by decide) (by decide),
    by decide⟩

theorem sliceU32_ok (b : List Byte) (off v : Nat) (h : sliceU32 b off = .ok v) :
    off + 4 ≤ b.length ∧ v = leValue b off 4 := by
  by_cases hfit : off + 4 ≤ b.length
  · rw [sliceU32_eq b off hfit] at h
    simp only [Except.ok.injEq] at h
    exact ⟨hfit, h.symm⟩
  · exfalso
    simp only [sliceU32, sliceFrom] at h
    by_cases hle : off ≤ b.length
    · rw [if_pos hle] at h
      have hlen : (b.drop off).length < 4 := by rw [List.length_drop]; omega
      generalize b.drop off = l at h hlen
      rcases l with _ | ⟨x0, _ | ⟨x1, _ | ⟨x2, _ | ⟨x3, l⟩⟩⟩⟩
      · simp [bind, Except.bind, leUint32] at h
      · simp [bind, Except.bind, leUint32] at h
      · simp [bind, Except.bind, leUint32] at h
      · simp [bind, Except.bind, leUint32] at h
      · simp only [List.length_cons] at hlen; omega
    · rw [if_neg hle] at h
      simp [bind, Except.bind] at h

theorem ordinalPair_eq (f : File) (bin : List Byte) (ed : exportDir)
    (funcsOff namesOff ordsOff i : Nat) :
    exportPair f bin ed funcsOff namesOff ordsOff i
      = ordinalPair f bin ed funcsOff namesOff ordsOff i := by
  have hord : u16 (u16 ed.Base + u16 (ordinalIndex bin ordsOff i))
      = (ed.Base + ordinalIndex bin ordsOff i) % 2 ^ 16 := by
    simp only [u16]; omega
  simp only [exportPair, ordinalPair, hord]

/-- Whatever the buffer, when the name loop of `parseExports` returns, it has
run over the pairs `i0 .. i0+m` for some `m` and has appended, in order, the
symbol of each pair whose ordinal index is below the function count. -/
theorem exportsLoop_symbols (f : File) (bin : List Byte) (ed : exportDir)
    (funcsOff namesOff ordsOff : Nat) :
    ∀ (n i0 : Nat) (r r' : ExportReport),
      exportsLoop f bin ed ed.NumberOfFunctions funcsOff n
          (u32 (namesOff + 4 * i0)) (u32 (ordsOff + 2 * i0)) r = .ok r' →
      ∃ m, m ≤ n ∧ r'.Symbols = r.Symbols ++
        (List.range' i0 m).filterMap (exportPair f bin ed funcsOff namesOff ordsOff) := by
  intro n
  induction n with
  | zero =>
    intro i0 r r' h
    simp only [exportsLoop, pure, Except.pure, Except.ok.injEq] at h
    subst h; exact ⟨0, le_refl _, by simp⟩
  | succ n ih =>
    intro i0 r r' h
    rw [exportsLoop] at h
    by_cases hbrk : u32 (namesOff + 4 * i0) + 4 > bin.length ∨
        u32 (ordsOff + 2 * i0) + 2 > bin.length
    · rw [if_pos hbrk] at h
      simp only [pure, Except.pure, Except.ok.injEq] at h
      subst h; exact ⟨0, Nat.zero_le _, by simp⟩
    · rw [if_neg hbrk] at h
      obtain ⟨ok, hname⟩ := nameAt_eq f bin (leValue bin (u32 (namesOff + 4 * i0)) 4)
      have hnext1 : u32 (u32 (namesOff + 4 * i0) + 4) = u32 (namesOff + 4 * (i0 + 1)) := by
        simp only [u32]; omega
      have hnext2 : u32 (u32 (ordsOff + 2 * i0) + 2) = u32 (ordsOff + 2 * (i0 + 1)) := by
        simp only [u32]; omega
      rw [sliceU32_eq bin _ (by omega), sliceU16_eq bin _ (by omega)] at h
      simp only [bind, Except.bind, hname, hnext1, hnext2] at h
      by_cases hidx : leValue bin (u32 (ordsOff + 2 * i0)) 2 ≥ ed.NumberOfFunctions
      · rw [if_pos hidx] at h
        obtain ⟨m, hm, hsym⟩ := ih (i0 + 1) r r' h
        have hnone : exportPair f bin ed funcsOff namesOff ordsOff i0 = none := by
          simp only [exportPair, ordinalIndex]; rw [if_neg (by omega)]
        exact ⟨m + 1, by omega, by
          rw [hsym, List.range'_succ, List.filterMap_cons, hnone]⟩
      · rw [if_neg hidx] at h
        have hlt : leValue bin (u32 (ordsOff + 2 * i0)) 2 < ed.NumberOfFunctions := by omega
        have hfo : u32 (funcsOff + u32 (leValue bin (u32 (ordsOff + 2 * i0)) 2 * 4))
            = u32 (funcsOff + 4 * leValue bin (u32 (ordsOff + 2 * i0)) 2) := by
          simp only [u32]; omega
        rw [hfo] at h
        cases hrd : sliceU32 bin
            (u32 (funcsOff + 4 * leValue bin (u32 (ordsOff + 2 * i0)) 2)) with
        | error e => rw [hrd] at h; simp at h
        | ok v =>
          rw [hrd] at h
          simp only at h
          obtain ⟨_, hv⟩ := sliceU32_ok bin _ v hrd
          obtain ⟨m, hm, hsym⟩ := ih (i0 + 1) _ r' h
          have hsome : exportPair f bin ed funcsOff namesOff ordsOff i0 = some
              { Name := nameAt f bin (leValue bin (u32 (namesOff + 4 * i0)) 4),
                Ordinal := u16 (u16 ed.Base + u16 (leValue bin (u32 (ordsOff + 2 * i0)) 2)),
                RVA := v } := by
            simp only [exportPair, ordinalIndex]; rw [if_pos hlt, hv]
          exact ⟨m + 1, by omega, by
            rw [hsym, List.range'_succ, List.filterMap_cons, hsome]; simp⟩

/-- C9 (refuted as stated): `wideBaseExportBuf` has ordinal base `0x10000` and
one name with ordinal index 0; the emitted symbol has ordinal 0, not the
integer sum `0x10000 + 0`. -/
theorem parseExports_ordinal_truncates_base :
    (exportDirAt wideBaseExportBuf 0).Base = 0x10000 ∧
    ordinalIndex wideBaseExportBuf 48 0 = 0 ∧
    parseExports exportFile wideBaseExportBuf
      = .ok { DLLName := [],
              Symbols := [{ Name := ascii "f", Ordinal := 0, RVA := 0x1000 }],
              Note := "" } ∧
    (0 : Nat) ≠ 0x10000 + 0 := by
  decide

/-- C9 (amended): the symbols `parseExports` emits are, in order, the symbols
built from the pairs `i < n` of the name and name-ordinal arrays whose ordinal
index `idx_i` is below the function count, for some `n` up to the name count
(the pairs the loop reached); the symbol built from pair `i` has the name at
the `i`-th name RVA, the function RVA at index `idx_i`, and as its ordinal the
header's ordinal base plus `idx_i` reduced modulo `2^16` (the field is a
`uint16`), which is the integer sum whenever that sum is below `2^16`. -/
theorem parseExports_ordinal (f : File) (bin : List Byte) (dir : DataDirectory)
    (r : ExportReport)
    (hdir : dataDirectory f IMAGE_DIRECTORY_ENTRY_EXPORT = some dir)
    (hr : parseExports f bin = .ok r) :
    ∃ n, n ≤ (exportHeaderOf f bin dir).NumberOfNames ∧
      r.Symbols = (List.range n).filterMap
        (ordinalPair f bin (exportHeaderOf f bin dir)
          (rvaToOff f (exportHeaderOf f bin dir).AddressOfFunctions).1
          (rvaToOff f (exportHeaderOf f bin dir).AddressOfNames).1
          (rvaToOff f (exportHeaderOf f bin dir).AddressOfNameOrdinal).1) ∧
      ∀ i s,
        ordinalPair f bin (exportHeaderOf f bin dir)
          (rvaToOff f (exportHeaderOf f bin dir).AddressOfFunctions).1
          (rvaToOff f (exportHeaderOf f bin dir).AddressOfNames).1
          (rvaToOff f (exportHeaderOf f bin dir).AddressOfNameOrdinal).1 i = some s →
        ordinalIndex bin (rvaToOff f (exportHeaderOf f bin dir).AddressOfNameOrdinal).1 i
          < (exportHeaderOf f bin dir).NumberOfFunctions ∧
        s.Ordinal = ((exportHeaderOf f bin dir).Base +
          ordinalIndex bin (rvaToOff f (exportHeaderOf f bin dir).AddressOfNameOrdinal).1 i)
            % 2 ^ 16 ∧
        ((exportHeaderOf f bin dir).Base +
          ordinalIndex bin (rvaToOff f (exportHeaderOf f bin dir).AddressOfNameOrdinal).1 i
            < 2 ^ 16 →
          s.Ordinal = (exportHeaderOf f bin dir).Base +
            ordinalIndex bin
              (rvaToOff f (exportHeaderOf f bin dir).AddressOfNameOrdinal).1 i) := by
  have hpair : ∀ i s,
      ordinalPair f bin (exportHeaderOf f bin dir)
        (rvaToOff f (exportHeaderOf f bin dir).AddressOfFunctions).1
        (rvaToOff f (exportHeaderOf f bin dir).AddressOfNames).1
        (rvaToOff f (exportHeaderOf f bin dir).AddressOfNameOrdinal).1 i = some s →
      ordinalIndex bin (rvaToOff f (exportHeaderOf f bin dir).AddressOfNameOrdinal).1 i
        < (exportHeaderOf f bin dir).NumberOfFunctions ∧
      s.Ordinal = ((exportHeaderOf f bin dir).Base +
        ordinalIndex bin (rvaToOff f (exportHeaderOf f bin dir).AddressOfNameOrdinal).1 i)
          % 2 ^ 16 ∧
      ((exportHeaderOf f bin dir).Base +
        ordinalIndex bin (rvaToOff f (exportHeaderOf f bin dir).AddressOfNameOrdinal).1 i
          < 2 ^ 16 →
        s.Ordinal = (exportHeaderOf f bin dir).Base +
          ordinalIndex bin
            (rvaToOff f (exportHeaderOf f bin dir).AddressOfNameOrdinal).1 i) := by
    intro i s hs
    simp only [ordinalPair] at hs
    split at hs
    · rename_i hlt
      simp only [Option.some.injEq] at hs
      subst hs
      exact ⟨hlt, rfl, fun h => Nat.mod_eq_of_lt h⟩
    · cases hs
  have hempty : r.Symbols = [] → ∃ n, n ≤ (exportHeaderOf f bin dir).NumberOfNames ∧
      r.Symbols = (List.range n).filterMap
        (ordinalPair f bin (exportHeaderOf f bin dir)
          (rvaToOff f (exportHeaderOf f bin dir).AddressOfFunctions).1
          (rvaToOff f (exportHeaderOf f bin dir).AddressOfNames).1
          (rvaToOff f (exportHeaderOf f bin dir).AddressOfNameOrdinal).1) ∧ _ :=
    fun h => ⟨0, Nat.zero_le _, by simp [h], hpair⟩
  by_cases hnp : dir.VirtualAddress = 0 ∨ dir.Size < 40
  · simp only [parseExports, hdir, hnp, if_true, Except.ok.injEq] at hr
    subst hr; exact hempty rfl
  rcases hbase : rvaToOff f dir.VirtualAddress with ⟨baseOff, ok⟩
  by_cases hnb : ok = false ∨ baseOff + 40 > bin.length
  · simp only [parseExports, hdir, hnp, if_false, hbase, hnb, if_true, Except.ok.injEq] at hr
    subst hr; exact hempty rfl
  have hok : ok = true := by
    cases ok
    · exact absurd (Or.inl rfl) hnb
    · rfl
  subst hok
  have hhead : exportHeaderOf f bin dir = exportDirAt bin baseOff := by
    simp only [exportHeaderOf, hbase]
  obtain ⟨r0, hsym, hnote, heq⟩ := parseExports_after_header f bin dir baseOff hdir
    (fun h => hnp (Or.inl h)) (by omega) hbase (by omega)
  rw [heq] at hr
  split at hr
  · simp only [Except.ok.injEq] at hr
    subst hr; exact hempty hsym
  split at hr
  · simp only [Except.ok.injEq] at hr
    subst hr; exact hempty hsym
  have hN0 : u32 ((rvaToOff f (exportDirAt bin baseOff).AddressOfNames).1 + 4 * 0)
      = (rvaToOff f (exportDirAt bin baseOff).AddressOfNames).1 :=
    u32_of_lt (rvaToOff_lt f _)
  have hO0 : u32 ((rvaToOff f (exportDirAt bin baseOff).AddressOfNameOrdinal).1 + 2 * 0)
      = (rvaToOff f (exportDirAt bin baseOff).AddressOfNameOrdinal).1 :=
    u32_of_lt (rvaToOff_lt f _)
  rw [← hN0, ← hO0] at hr
  obtain ⟨m, hm, hsyms⟩ := exportsLoop_symbols f bin _ _ _ _ _ 0 r0 r hr
  refine ⟨m, by rw [hhead]; exact hm, ?_, hpair⟩
  rw [hsyms, hsym, hhead, List.nil_append, List.range_eq_range']
  congr 1
  funext i
  exact ordinalPair_eq f bin _ _ _ _ i

/-- Witness of C9 (amended): the two symbols built from `exportBuf`, with base
1 and ordinal indices 0 and 1, are `f` with ordinal 1 and `g` with ordinal 2,
in this order. -/
theorem parseExports_ordinal_witness :
    dataDirectory exportFile IMAGE_DIRECTORY_ENTRY_EXPORT = some ⟨0x1000, 40⟩ ∧
    parseExports exportFile exportBuf
      = .ok { DLLName := ascii "d",
              Symbols := [{ Name := ascii "f", Ordinal := 1, RVA := 0x1000 },
                          { Name := ascii "g", Ordinal := 2, RVA := 0x2000 }],
              Note := "" } ∧
    (∃ n, n ≤ (exportHeaderOf exportFile exportBuf ⟨0x1000, 40⟩).NumberOfNames ∧
      [({ Name := ascii "f", Ordinal := 1, RVA := 0x1000 } : ExportSymbol),
        { Name := ascii "g", Ordinal := 2, RVA := 0x2000 }]
        = (List.range n).filterMap
          (ordinalPair exportFile exportBuf (exportHeaderOf exportFile exportBuf ⟨0x1000, 40⟩)
            40 48 56)) ∧
    (List.range 2).filterMap
        (ordinalPair exportFile exportBuf (exportHeaderOf exportFile exportBuf ⟨0x1000, 40⟩)
          40 48 56)
      = [{ Name := ascii "f", Ordinal := 1, RVA := 0x1000 },
         { Name := ascii "g", Ordinal := 2, RVA := 0x2000 }] :=
  ⟨by decide, by decide,
    (parseExports_ordinal exportFile exportBuf ⟨0x1000, 40⟩
      { DLLName := ascii "d",
        Symbols := [{ Name := ascii "f", Ordinal := 1, RVA := 0x1000 },
                    { Name := ascii "g", Ordinal := 2, RVA := 0x2000 }],
        Note := "" } (by decide) (by decide)).imp (fun n h => ⟨h.1, h.2.1⟩),
    by decide⟩

/-! ### Resource census decoder -/

theorem TypeMap.find_add (m : TypeMap) (k v t : Nat) :
    (m.add k v).find t = if k = t then some ((m.find k).getD 0 + v) else m.find t := by
  induction m with
  | nil => simp [TypeMap.add, TypeMap.find]
  | cons p rest ih =>
    obtain ⟨k', c⟩ := p
    by_cases hk : k' = k
    · subst hk
      by_cases ht : k' = t
      · simp [TypeMap.add, TypeMap.find, ht]
      · simp [TypeMap.add, TypeMap.find, ht]
    · by_cases ht : k' = t
      · subst ht
        have hkt : ¬ k = k' := fun h => hk h.symm
        simp only [TypeMap.add, hk, if_false, TypeMap.find, if_true, hkt]
      · simp only [TypeMap.add, hk, if_false, TypeMap.find, ht]
        exact ih

theorem TypeMap.keys_add (m : TypeMap) (k v : Nat) :
    ∀ t, t ∈ (m.add k v).map Prod.fst ↔ t = k ∨ t ∈ m.map Prod.fst := by
  induction m with
  | nil => intro t; simp [TypeMap.add]
  | cons p rest ih =>
    obtain ⟨k', c⟩ := p
    intro t
    by_cases hk : k' = k
    · subst hk
      simp [TypeMap.add]
    · simp only [TypeMap.add, hk, if_false, List.map_cons, List.mem_cons, ih t]
      tauto

theorem TypeMap.nodup_add (m : TypeMap) (k v : Nat) (h : (m.map Prod.fst).Nodup) :
    ((m.add k v).map Prod.fst).Nodup := by
  induction m with
  | nil => simp [TypeMap.add]
  | cons p rest ih =>
    obtain ⟨k', c⟩ := p
    simp only [List.map_cons, List.nodup_cons] at h
    by_cases hk : k' = k
    · subst hk
      simpa [TypeMap.add] using h
    · simp only [TypeMap.add, hk, if_false, List.map_cons, List.nodup_cons]
      refine ⟨?_, ih h.2⟩
      intro hmem
      rcases (TypeMap.keys_add rest k v k').1 hmem with h1 | h1
      · exact hk h1
      · exact h.1 h1

theorem TypeMap.mem_iff_find (m : TypeMap) (h : (m.map Prod.fst).Nodup) (t c : Nat) :
    (t, c) ∈ m ↔ m.find t = some c := by
  induction m with
  | nil => simp [TypeMap.find]
  | cons p rest ih =>
    obtain ⟨k', c'⟩ := p
    simp only [List.map_cons, List.nodup_cons] at h
    by_cases hk : k' = t
    · subst hk
      simp only [List.mem_cons, Prod.mk.injEq, true_and, TypeMap.find, if_true, Option.some.injEq]
      constructor
      · intro hc
        rcases hc with hc | hc
        · exact hc.symm
        · exact absurd (List.mem_map_of_mem Prod.fst hc) h.1
      · intro hc; exact Or.inl hc.symm
    · simp only [List.mem_cons, Prod.mk.injEq, TypeMap.find, hk, if_false]
      rw [← ih h.2]
      constructor
      · intro hc
        rcases hc with hc | hc
        · exact absurd hc.1.symm hk
        · exact hc
      · intro hc; exact Or.inr hc

theorem foldl_accumulate (cs : List (Option Nat)) :
    ∀ acc : Option Nat, cs.foldl accumulate acc =
      if acc.isSome = true ∨ ∃ c ∈ cs, c.isSome = true then
        some (acc.getD 0 + (cs.map (fun c => c.getD 0)).sum)
      else none := by
  induction cs with
  | nil => intro acc; cases acc <;> simp
  | cons c cs ih =>
    intro acc
    rw [List.foldl_cons, ih]
    cases c with
    | none =>
      cases acc <;> simp [accumulate]
    | some v =>
      cases acc <;> simp [accumulate, Nat.add_assoc]

theorem typeID_eq (x : Nat) :
    (if decide (x &&& 0x80000000 = 0) = true then x else 0)
      = (if x.testBit 31 = true then 0 else x) := by
  by_cases hb : x &&& 0x80000000 ≠ 0
  · have hbit : x.testBit 31 = true := (and_two_pow_ne_zero x 31).1 hb
    simp [hb, hbit]
  · have hbit : ¬ x.testBit 31 = true := fun h => hb ((and_two_pow_ne_zero x 31).2 h)
    have hz : x &&& 0x80000000 = 0 := by simpa using hb
    simp [hz, hbit]

theorem le32_eq (bin : List Byte) (off : Nat) (h : off + 4 ≤ bin.length) :
    le32 bin off = .ok (leValue bin off 4) := by
  rw [le32, if_neg (by omega), sliceU32_eq bin off h]

theorem le16_eq (bin : List Byte) (off : Nat) (h : off + 2 ≤ bin.length) :
    le16 bin off = .ok (leValue bin off 2) := by
  rw [le16, if_neg (by omega), sliceU16_eq bin off h]

/-- One iteration of the loop of `parseResources` on an entry that fits, in
terms of the entry's type id and contribution. -/
theorem resourcesLoop_step (f : File) (bin : List Byte) (dir : DataDirectory)
    (baseOff i n : Nat) (types : TypeMap)
    (hfit : rootEntryOff baseOff i + 8 ≤ bin.length) :
    resourcesLoop f bin dir (n + 1) (rootEntryOff baseOff i) types =
      resourcesLoop f bin dir n (rootEntryOff baseOff (i + 1))
        (match subDirCount f bin dir (rootEntry bin baseOff i) with
          | some c => types.add (rootEntry bin baseOff i).typeID c
          | none => types) := by
  have hlt : rootEntryOff baseOff i < 2 ^ 32 := u32_lt _
  have h0 : u32 (rootEntryOff baseOff i + 0) = rootEntryOff baseOff i := u32_of_lt hlt
  have h4 := u32_le (rootEntryOff baseOff i + 4)
  have hnext : u32 (rootEntryOff baseOff i + 8) = rootEntryOff baseOff (i + 1) := by
    simp only [rootEntryOff, u32]; omega
  rw [resourcesLoop, if_neg (by omega), h0, le32_eq bin _ (by omega), le32_eq bin _ (by omega)]
  simp only [bind, Except.bind, hnext, typeID_eq]
  have hmask : leValue bin (u32 (rootEntryOff baseOff i + 4)) 4 &&& 0x7FFFFFFF
      = leValue bin (u32 (rootEntryOff baseOff i + 4)) 4 % 2 ^ 31 :=
    Nat.and_pow_two_sub_one_eq_mod _ 31
  by_cases hb : leValue bin (u32 (rootEntryOff baseOff i + 4)) 4 &&& 0x80000000 ≠ 0
  · have hbit : (leValue bin (u32 (rootEntryOff baseOff i + 4)) 4).testBit 31 = true :=
      (and_two_pow_ne_zero _ 31).1 hb
    rw [if_pos hb, hmask]
    simp only [subDirCount, rootEntry, hbit, if_true, resEntry.typeID]
    rcases rvaToOff f (u32 (dir.VirtualAddress +
      leValue bin (u32 (rootEntryOff baseOff i + 4)) 4 % 2 ^ 31)) with ⟨subOff, ok⟩
    simp only
    by_cases hsub : ok = true ∧ subOff + 16 ≤ bin.length
    · have h12 := u32_le (subOff + 12)
      have h14 := u32_le (subOff + 14)
      rw [if_pos hsub, if_pos hsub, le16_eq bin _ (by omega), le16_eq bin _ (by omega)]
    · rw [if_neg hsub, if_neg hsub]
  · have hbit : ¬ (leValue bin (u32 (rootEntryOff baseOff i + 4)) 4).testBit 31 = true :=
      fun h => hb ((and_two_pow_ne_zero _ 31).2 h)
    rw [if_neg hb]
    simp [subDirCount, rootEntry, hbit]

theorem resourcesLoop_spec (f : File) (bin : List Byte) (dir : DataDirectory) (baseOff : Nat) :
    ∀ (m cnt i0 : Nat) (types : TypeMap), m ≤ cnt →
      (∀ i, i0 ≤ i → i < i0 + m → rootEntryOff baseOff i + 8 ≤ bin.length) →
      (m = cnt ∨ bin.length < rootEntryOff baseOff (i0 + m) + 8) →
      (types.map Prod.fst).Nodup →
      ∃ types', resourcesLoop f bin dir cnt (rootEntryOff baseOff i0) types = .ok types' ∧
        (types'.map Prod.fst).Nodup ∧
        ∀ t, types'.find t =
          ((List.range' i0 m).map (contribution f bin dir baseOff t)).foldl accumulate
            (types.find t) := by
  intro m
  induction m with
  | zero =>
    intro cnt i0 types _ _ hstop hnd
    refine ⟨types, ?_, hnd, fun t => by simp⟩
    cases cnt with
    | zero => rfl
    | succ c =>
      rcases hstop with h | h
      · omega
      · rw [resourcesLoop, if_pos (by simpa using h)]; rfl
  | succ m ih =>
    intro cnt i0 types hle hin hstop hnd
    obtain ⟨c, rfl⟩ : ∃ c, cnt = c + 1 := ⟨cnt - 1, by omega⟩
    have hfit := hin i0 (le_refl _) (by omega)
    rw [resourcesLoop_step f bin dir baseOff i0 c types hfit]
    have hstop' : m = c ∨ bin.length < rootEntryOff baseOff (i0 + 1 + m) + 8 := by
      rcases hstop with h | h
      · left; omega
      · right; rw [show i0 + 1 + m = i0 + (m + 1) by omega]; exact h
    have hin' : ∀ i, i0 + 1 ≤ i → i < i0 + 1 + m → rootEntryOff baseOff i + 8 ≤ bin.length :=
      fun i h1 h2 => hin i (by omega) (by omega)
    cases hsub : subDirCount f bin dir (rootEntry bin baseOff i0) with
    | none =>
      obtain ⟨types', hrun, hnd', hfind⟩ := ih c (i0 + 1) types (by omega) hin' hstop' hnd
      refine ⟨types', hrun, hnd', fun t => ?_⟩
      rw [hfind t, List.range'_succ, List.map_cons, List.foldl_cons]
      simp [contribution, hsub, accumulate]
    | some v =>
      obtain ⟨types', hrun, hnd', hfind⟩ := ih c (i0 + 1)
        (types.add (rootEntry bin baseOff i0).typeID v) (by omega) hin' hstop'
        (TypeMap.nodup_add _ _ _ hnd)
      refine ⟨types', hrun, hnd', fun t => ?_⟩
      rw [hfind t, List.range'_succ, List.map_cons, List.foldl_cons, TypeMap.find_add]
      by_cases ht : (rootEntry bin baseOff i0).typeID = t
      · subst ht
        simp [contribution, hsub, accumulate]
      · simp [contribution, ht, accumulate]

theorem le32_total (bin : List Byte) (off : Nat) : ∃ v, le32 bin off = .ok v := by
  by_cases h : off + 4 > bin.length
  · exact ⟨0, by rw [le32, if_pos h]⟩
  · exact ⟨_, le32_eq bin off (by omega)⟩

theorem le16_total (bin : List Byte) (off : Nat) : ∃ v, le16 bin off = .ok v := by
  by_cases h : off + 2 > bin.length
  · exact ⟨0, by rw [le16, if_pos h]⟩
  · exact ⟨_, le16_eq bin off (by omega)⟩

/-- C10: for a present resource directory whose 16-byte root header is
readable, let `n` be the number of root entries taken: the first of the
declared named+id entries that fit in the buffer. `parseResources` returns,
with an empty note, summary rows with pairwise distinct type ids, and there is
a row with type id `t` and count `c` exactly when some taken entry of type `t`
has the sub-directory bit set and a sub-directory that resolves to a 16-byte
header inside the buffer, and `c` is the sum over the taken entries of type `t`
of the named+id counts of their sub-directories; entries without such a
sub-directory contribute neither a row nor a count. -/
theorem parseResources_census (f : File) (bin : List Byte) (dir : DataDirectory)
    (baseOff n : Nat)
    (hdir : dataDirectory f IMAGE_DIRECTORY_ENTRY_RESOURCE = some dir)
    (hva : dir.VirtualAddress ≠ 0) (hsz : 16 ≤ dir.Size)
    (hbase : rvaToOff f dir.VirtualAddress = (baseOff, true))
    (hfit : baseOff + 16 ≤ bin.length)
    (hn : n ≤ rootTotal bin baseOff)
    (hin : ∀ i, i < n → rootEntryOff baseOff i + 8 ≤ bin.length)
    (hstop : n = rootTotal bin baseOff ∨ bin.length < rootEntryOff baseOff n + 8) :
    ∃ r, parseResources f bin = .ok r ∧ r.Note = "" ∧
      (r.Types.map (fun row => row.TypeID)).Nodup ∧
      (∀ row ∈ r.Types, row.TypeName = resourceTypeName row.TypeID) ∧
      ∀ t c, (∃ row ∈ r.Types, row.TypeID = t ∧ row.Count = c) ↔
        ((∃ i, i < n ∧ (rootEntry bin baseOff i).typeID = t ∧
            (subDirCount f bin dir (rootEntry bin baseOff i)).isSome = true) ∧
          c = ((List.range n).map
            (fun i => (contribution f bin dir baseOff t i).getD 0)).sum) := by
  have hnp : ¬ (dir.VirtualAddress = 0 ∨ dir.Size < 16) := by
    intro h; rcases h with h | h
    · exact hva h
    · omega
  have hnb : ¬ (true = false ∨ baseOff + 16 > bin.length) := by
    intro h; rcases h with h | h
    · cases h
    · omega
  obtain ⟨v0, hv0⟩ := le32_total bin (u32 (baseOff + 0))
  obtain ⟨v1, hv1⟩ := le32_total bin (u32 (baseOff + 4))
  obtain ⟨v2, hv2⟩ := le16_total bin (u32 (baseOff + 8))
  obtain ⟨v3, hv3⟩ := le16_total bin (u32 (baseOff + 10))
  have h12 := u32_le (baseOff + 12)
  have h14 := u32_le (baseOff + 14)
  have hv4 := le16_eq bin (u32 (baseOff + 12)) (by omega)
  have hv5 := le16_eq bin (u32 (baseOff + 14)) (by omega)
  obtain ⟨types, hrun, hnd, hfind⟩ := resourcesLoop_spec f bin dir baseOff n
    (rootTotal bin baseOff) 0 [] hn (fun i _ h => hin i (by omega))
    (by simpa using hstop) (by simp)
  have hoff0 : rootEntryOff baseOff 0 = u32 (baseOff + 16) := by simp [rootEntryOff]
  rw [hoff0] at hrun
  simp only [rootTotal] at hrun
  refine ⟨{ Types := types.map (fun p =>
      { TypeID := p.1, TypeName := resourceTypeName p.1, Count := p.2 }), Note := "" },
    ?_, rfl, ?_, ?_, ?_⟩
  · simp only [parseResources, hdir, hnp, if_false, hbase, hnb, hv0, hv1, hv2, hv3, hv4, hv5,
      bind, Except.bind, hrun, pure, Except.pure, List.nil_append]
  · simpa [List.map_map, Function.comp_def] using hnd
  · intro row hrow
    simp only [List.mem_map] at hrow
    obtain ⟨p, _, rfl⟩ := hrow
    rfl
  · intro t c
    have hrows : (∃ row ∈ types.map (fun p =>
        (⟨p.1, resourceTypeName p.1, p.2⟩ : ResourceTypeSummary)),
          row.TypeID = t ∧ row.Count = c) ↔ (t, c) ∈ types := by
      constructor
      · rintro ⟨row, hrow, h1, h2⟩
        simp only [List.mem_map] at hrow
        obtain ⟨⟨a, b⟩, hp, rfl⟩ := hrow
        simp only at h1 h2
        subst h1; subst h2; exact hp
      · intro h
        exact ⟨_, List.mem_map_of_mem _ h, rfl, rfl⟩
    rw [hrows, TypeMap.mem_iff_find types hnd, hfind t, foldl_accumulate]
    have hnone : TypeMap.find [] t = none := rfl
    rw [hnone]
    have hex : ((none : Option Nat).isSome = true ∨
        ∃ c ∈ (List.range' 0 n).map (contribution f bin dir baseOff t), c.isSome = true) ↔
        (∃ i, i < n ∧ (rootEntry bin baseOff i).typeID = t ∧
          (subDirCount f bin dir (rootEntry bin baseOff i)).isSome = true) := by
      constructor
      · intro h
        rcases h with h | ⟨c, hc, hsome⟩
        · simp at h
        · simp only [List.mem_map, List.mem_range'_1] at hc
          obtain ⟨i, ⟨_, hi⟩, rfl⟩ := hc
          refine ⟨i, by omega, ?_⟩
          simp only [contribution] at hsome
          by_cases ht : (rootEntry bin baseOff i).typeID = t
          · rw [if_pos ht] at hsome; exact ⟨ht, hsome⟩
          · rw [if_neg ht] at hsome; simp at hsome
      · rintro ⟨i, hi, ht, hc⟩
        refine Or.inr ⟨contribution f bin dir baseOff t i, ?_, ?_⟩
        · simp only [List.mem_map, List.mem_range'_1]
          exact ⟨i, ⟨by omega, by omega⟩, rfl⟩
        · simp only [contribution, ht, if_true]; exact hc
    have hsum : (List.map (fun c : Option Nat => c.getD 0)
          (List.map (contribution f bin dir baseOff t) (List.range' 0 n))).sum
        = ((List.range n).map (fun i => (contribution f bin dir baseOff t i).getD 0)).sum := by
      simp [List.range_eq_range', List.map_map, Function.comp_def]
    by_cases hany : ∃ i, i < n ∧ (rootEntry bin baseOff i).typeID = t ∧
        (subDirCount f bin dir (rootEntry bin baseOff i)).isSome = true
    · rw [if_pos (hex.2 hany), hsum]
      simp only [Option.getD_none, Nat.zero_add, Option.some.injEq, hany, true_and]
      exact eq_comm
    · rw [if_neg (fun h => hany (hex.1 h))]
      simp [hany]

/-- Witness of C10: `resourceBuf` has one id entry of type 5 whose
sub-directory declares 3 named and 2 id entries; the census is the single row
with type id 5 and count 5. -/
theorem parseResources_census_witness :
    dataDirectory resourceFile IMAGE_DIRECTORY_ENTRY_RESOURCE = some ⟨0x1000, 40⟩ ∧
    rvaToOff resourceFile 0x1000 = (0, true) ∧ 0 + 16 ≤ resourceBuf.length ∧
    1 ≤ rootTotal resourceBuf 0 ∧
    (∀ i, i < 1 → rootEntryOff 0 i + 8 ≤ resourceBuf.length) ∧
    (1 = rootTotal resourceBuf 0 ∨ resourceBuf.length < rootEntryOff 0 1 + 8) ∧
    (∃ r, parseResources resourceFile resourceBuf = .ok r ∧ r.Note = "" ∧
      (r.Types.map (fun row => row.TypeID)).Nodup ∧
      (∀ row ∈ r.Types, row.TypeName = resourceTypeName row.TypeID) ∧
      ∀ t c, (∃ row ∈ r.Types, row.TypeID = t ∧ row.Count = c) ↔
        ((∃ i, i < 1 ∧ (rootEntry resourceBuf 0 i).typeID = t ∧
            (subDirCount resourceFile resourceBuf ⟨0x1000, 40⟩
              (rootEntry resourceBuf 0 i)).isSome = true) ∧
          c = ((List.range 1).map
            (fun i => (contribution resourceFile resourceBuf ⟨0x1000, 40⟩ 0 t i).getD 0)).sum)) ∧
    parseResources resourceFile resourceBuf
      = .ok { Types := [{ TypeID := 5, TypeName := "RT_DIALOG (5)", Count := 5 }],
              Note := "" } :=
  ⟨by decide, by decide, by decide, by decide, by decide, by decide,
    parseResources_census resourceFile resourceBuf ⟨0x1000, 40⟩ 0 1
      (by decide) (by decide) (by decide) (by decide) (by decide) (by decide)
      (by decide) (by decide),
    by decide⟩

/-! ### Import table decoder: safety and bounds -/

theorem importNamesLoop_bounded (f : File) (bin : List Byte) (is64 : Bool)
    (hlen : bin.length < 2 ^ 32) :
    ∀ fuel off acc, bin.length - off < fuel →
      ∃ names, importNamesLoop f bin is64 fuel off acc = .ok names ∧
        names.length ≤ acc.length + (bin.length - off) / thunkWidth is64 := by
  intro fuel
  induction fuel with
  | zero => intro off acc h; omega
  | succ fuel ih =>
    intro off acc hf
    cases is64
    · simp only [thunkWidth, if_true] at ih ⊢
      rw [importNamesLoop]
      simp only [if_true, readU32_eq bin off]
      by_cases hfit : off + 4 > bin.length
      · exact ⟨acc, by simp [hfit, bind, Except.bind, pure, Except.pure], by omega⟩
      · simp only [hfit, if_false, bind, Except.bind]
        by_cases hv : leValue bin off 4 = 0
        · exact ⟨acc, by simp [hv, pure, Except.pure], by omega⟩
        · have hoff : u32 (off + 4) = off + 4 := u32_of_lt (by omega)
          simp only [Bool.true_eq_false, hv, or_self, if_false, hoff]
          split
          · obtain ⟨names, hn, hb⟩ := ih (off + 4) _ (by omega)
            refine ⟨names, hn, ?_⟩
            simp only [List.length_append, List.length_singleton] at hb
            omega
          · obtain ⟨s, ok, hs⟩ := readCStringRVA_total f bin (u32 (u32 (leValue bin off 4) + 2))
            simp only [hs]
            obtain ⟨names, hn, hb⟩ := ih (off + 4) _ (by omega)
            refine ⟨names, hn, ?_⟩
            simp only [List.length_append, List.length_singleton] at hb
            omega
    · simp only [thunkWidth, Bool.true_eq_false, if_false] at ih ⊢
      rw [importNamesLoop]
      simp only [Bool.true_eq_false, if_false, readU64_eq bin off]
      by_cases hfit : off + 8 > bin.length
      · exact ⟨acc, by simp [hfit, bind, Except.bind, pure, Except.pure], by omega⟩
      · simp only [hfit, if_false, bind, Except.bind]
        by_cases hv : leValue bin off 8 = 0
        · exact ⟨acc, by simp [hv, pure, Except.pure], by omega⟩
        · have hoff : u32 (off + 8) = off + 8 := u32_of_lt (by omega)
          simp only [Bool.true_eq_false, hv, or_self, if_false, hoff]
          split
          · obtain ⟨names, hn, hb⟩ := ih (off + 8) _ (by omega)
            refine ⟨names, hn, ?_⟩
            simp only [List.length_append, List.length_singleton] at hb
            omega
          · obtain ⟨s, ok, hs⟩ := readCStringRVA_total f bin (u32 (u32 (leValue bin off 8) + 2))
            simp only [hs]
            obtain ⟨names, hn, hb⟩ := ih (off + 8) _ (by omega)
            refine ⟨names, hn, ?_⟩
            simp only [List.length_append, List.length_singleton] at hb
            omega

theorem parseImportNames_bounded (f : File) (bin : List Byte) (id : importDesc)
    (is64 : Bool) (hlen : bin.length < 2 ^ 32) (fuel : Nat) (hf : bin.length < fuel) :
    ∃ names, parseImportNames fuel f bin id is64 = .ok names ∧
      names.length ≤ bin.length / thunkWidth is64 := by
  simp only [parseImportNames]
  generalize (if id.OriginalFirstThunk = 0 then id.FirstThunk else id.OriginalFirstThunk) = thunk
  rcases hr : rvaToOff f thunk with ⟨off, ok⟩
  simp only
  by_cases hok : ok = false
  · rw [if_pos hok]; exact ⟨[], rfl, by simp⟩
  · rw [if_neg hok]
    obtain ⟨names, hn, hb⟩ := importNamesLoop_bounded f bin is64 hlen fuel off [] (by omega)
    refine ⟨names, hn, le_trans hb ?_⟩
    simp only [List.length_nil, Nat.zero_add]
    exact Nat.div_le_div_right (Nat.sub_le _ _)

theorem importsLoop_bounded (toLower : List Byte → List Byte) (f : File) (bin : List Byte)
    (is64 : Bool) (inner : Nat) (hlen : bin.length < 2 ^ 32) (hinner : bin.length < inner) :
    ∀ (fuel off : Nat) (r : ImportReport), bin.length - off < fuel →
      ∃ r', importsLoop toLower f bin is64 inner fuel off r = .ok r' ∧ r'.Note = r.Note ∧
        r'.DLLs.length ≤ r.DLLs.length + (bin.length - off) / 20 ∧
        ∀ d ∈ r'.DLLs, d ∈ r.DLLs ∨ d.Functions.length ≤ bin.length / thunkWidth is64 := by
  intro fuel
  induction fuel with
  | zero => intro off r h; omega
  | succ fuel ih =>
    intro off r hf
    rw [importsLoop]
    by_cases hfit : off + 20 > bin.length
    · exact ⟨r, by simp [hfit, pure, Except.pure], rfl, by omega, fun d hd => Or.inl hd⟩
    · obtain ⟨h1, h2, h3, h4, h5⟩ := importsLoop_read bin off hlen (by omega)
      rw [if_neg hfit, h1, h2, h3, h4, h5]
      simp only [bind, Except.bind]
      split
      · exact ⟨r, rfl, rfl, by omega, fun d hd => Or.inl hd⟩
      · obtain ⟨s, ok, hs⟩ := readCStringRVA_total f bin (leValue bin (off + 12) 4)
        obtain ⟨funcs, hfuncs, hfb⟩ := parseImportNames_bounded f bin
          { OriginalFirstThunk := leValue bin off 4, TimeDateStamp := leValue bin (off + 4) 4,
            ForwarderChain := leValue bin (off + 8) 4, NameRVA := leValue bin (off + 12) 4,
            FirstThunk := leValue bin (off + 16) 4 } is64 hlen inner hinner
        have hoff : u32 (off + 20) = off + 20 := u32_of_lt (by omega)
        simp only [hs, hfuncs, hoff]
        obtain ⟨r', hr', hnote, hcount, hmem⟩ := ih (off + 20)
          { r with DLLs := r.DLLs ++
              [{ Name := toLower (if ok = false ∨ s = [] then ascii "<unknown>" else s),
                 Functions := funcs }] } (by omega)
        refine ⟨r', hr', hnote, ?_, ?_⟩
        · simp only [List.length_append, List.length_singleton] at hcount
          omega
        · intro d hd
          rcases hmem d hd with h | h
          · simp only [List.mem_append, List.mem_singleton] at h
            rcases h with h | h
            · exact Or.inl h
            · right; rw [h]; exact hfb
          · exact Or.inr h

/-- On a buffer shorter than `2^32` bytes `parseImports` returns a report with
any fuel above the buffer length, with at most `len/20` DLL entries of at most
`len/w` functions each. -/
theorem parseImports_returns (toLower : List Byte → List Byte) (fuel : Nat) (f : File)
    (bin : List Byte) (is64 : Bool) (hlen : bin.length < 2 ^ 32) (hfuel : bin.length < fuel) :
    ∃ r, parseImports toLower fuel f bin is64 = .ok r ∧
      r.DLLs.length ≤ bin.length / 20 ∧
      ∀ d ∈ r.DLLs, d.Functions.length ≤ bin.length / thunkWidth is64 := by
  simp only [parseImports]
  cases hdir : dataDirectory f IMAGE_DIRECTORY_ENTRY_IMPORT with
  | none => exact ⟨_, rfl, by simp, by simp⟩
  | some dir =>
    simp only
    by_cases hnp : dir.VirtualAddress = 0 ∨ dir.Size < 20
    · rw [if_pos hnp]; exact ⟨_, rfl, by simp, by simp⟩
    · rw [if_neg hnp]
      rcases hbase : rvaToOff f dir.VirtualAddress with ⟨baseOff, ok⟩
      simp only
      by_cases hok : ok = false
      · rw [if_pos hok]; exact ⟨_, rfl, by simp, by simp⟩
      · rw [if_neg hok]
        obtain ⟨r', hr', _, hcount, hmem⟩ := importsLoop_bounded toLower f bin is64 fuel hlen
          hfuel fuel baseOff { DLLs := [], Note := "" } (by omega)
        refine ⟨r', hr', ?_, ?_⟩
        · simp only [List.length_nil, Nat.zero_add] at hcount
          exact le_trans hcount (Nat.div_le_div_right (Nat.sub_le _ _))
        · intro d hd
          rcases hmem d hd with h | h
          · simp at h
          · exact h

/-- C18: for every buffer shorter than `2^32` bytes, section table, import
directory and pointer width, `parseImports` (with its thunk walks and name
lookups) returns a report: no read of a descriptor field, thunk entry or name
byte indexes the buffer out of range, and no walk runs on for ever (any fuel
above the buffer length is enough). -/
theorem parseImports_no_panic (toLower : List Byte → List Byte) (fuel : Nat) (f : File)
    (bin : List Byte) (is64 : Bool) (hlen : bin.length < 2 ^ 32) (hfuel : bin.length < fuel) :
    ∃ r, parseImports toLower fuel f bin is64 = .ok r := by
  obtain ⟨r, hr, _⟩ := parseImports_returns toLower fuel f bin is64 hlen hfuel
  exact ⟨r, hr⟩

/-- Witness of C18: `parseImports` returns on `importBuf` in 32-bit mode. -/
theorem parseImports_no_panic_witness :
    importBuf.length < 2 ^ 32 ∧ importBuf.length < 100 ∧
    ∃ r, parseImports asciiLower 100 importFile importBuf false = .ok r :=
  ⟨by decide, by decide,
    parseImports_no_panic asciiLower 100 importFile importBuf false (by decide) (by decide)⟩

/-- C19: for every buffer of length `L` below `2^32`, section table and import
directory, `parseImports` returns (any fuel above `L` is enough, also when no
zero sentinel is present) at most `L/20` DLL entries, each with at most `L/4`
functions in 32-bit mode and at most `L/8` in 64-bit mode. -/
theorem parseImports_bounded (toLower : List Byte → List Byte) (fuel : Nat) (f : File)
    (bin : List Byte) (is64 : Bool) (hlen : bin.length < 2 ^ 32) (hfuel : bin.length < fuel) :
    ∃ r, parseImports toLower fuel f bin is64 = .ok r ∧
      r.DLLs.length ≤ bin.length / 20 ∧
      ∀ d ∈ r.DLLs, d.Functions.length ≤ bin.length / (if is64 = true then 8 else 4) := by
  obtain ⟨r, hr, h1, h2⟩ := parseImports_returns toLower fuel f bin is64 hlen hfuel
  refine ⟨r, hr, h1, ?_⟩
  cases is64 <;> simpa [thunkWidth] using h2

/-- Witness of C19: `unterminatedImportBuf` holds three live descriptors and no
zero sentinel; `parseImports` returns three DLL entries (60 / 20), each with
its functions within the bound 60 / 4. -/
theorem parseImports_bounded_witness :
    unterminatedImportBuf.length < 2 ^ 32 ∧ unterminatedImportBuf.length < 100 ∧
    (∃ r, parseImports asciiLower 100 importFile unterminatedImportBuf false = .ok r ∧
      r.DLLs.length ≤ unterminatedImportBuf.length / 20 ∧
      ∀ d ∈ r.DLLs, d.Functions.length
        ≤ unterminatedImportBuf.length / (if false = true then 8 else 4)) ∧
    (∃ r, parseImports asciiLower 100 importFile unterminatedImportBuf false = .ok r ∧
      r.DLLs.length = 3) :=
  ⟨by decide, by decide,
    parseImports_bounded asciiLower 100 importFile unterminatedImportBuf false
      (by decide) (by decide),
    ⟨_, rfl, by decide⟩⟩

/-! ### Absent directories and export guards -/

/-- C16: when the data directory of a decoder has `virtual_address = 0` or a
size below the structure minimum (20 for imports, 40 for exports, 16 for
resources), the decoder returns an empty list and an empty note, whatever the
buffer and the section table contain. -/
theorem absent_directory_empty (toLower : List Byte → List Byte) (fuel : Nat) (f : File)
    (bin : List Byte) (is64 : Bool) :
    (∀ dir, dataDirectory f IMAGE_DIRECTORY_ENTRY_IMPORT = some dir →
      (dir.VirtualAddress = 0 ∨ dir.Size < 20) →
      parseImports toLower fuel f bin is64 = .ok { DLLs := [], Note := "" }) ∧
    (∀ dir, dataDirectory f IMAGE_DIRECTORY_ENTRY_EXPORT = some dir →
      (dir.VirtualAddress = 0 ∨ dir.Size < 40) →
      parseExports f bin = .ok { DLLName := [], Symbols := [], Note := "" }) ∧
    (∀ dir, dataDirectory f IMAGE_DIRECTORY_ENTRY_RESOURCE = some dir →
      (dir.VirtualAddress = 0 ∨ dir.Size < 16) →
      parseResources f bin = .ok { Types := [], Note := "" }) := by
  refine ⟨?_, ?_, ?_⟩
  · intro dir hdir h
    simp only [parseImports, hdir, h, if_true]
  · intro dir hdir h
    simp only [parseExports, hdir, h, if_true]
  · intro dir hdir h
    simp only [parseResources, hdir, h, if_true]

/-- Witness of C16: in `absentDirFile` the import directory has size 19, the
export directory address 0 and the resource directory size 15; the three
decoders return empty reports on `importBuf`. -/
theorem absent_directory_empty_witness :
    (dataDirectory absentDirFile IMAGE_DIRECTORY_ENTRY_IMPORT = some ⟨0x1000, 19⟩ ∧
      ((0x1000 : Nat) = 0 ∨ 19 < 20)) ∧
    (dataDirectory absentDirFile IMAGE_DIRECTORY_ENTRY_EXPORT = some ⟨0, 100⟩ ∧
      ((0 : Nat) = 0 ∨ 100 < 40)) ∧
    (dataDirectory absentDirFile IMAGE_DIRECTORY_ENTRY_RESOURCE = some ⟨0x1000, 15⟩ ∧
      ((0x1000 : Nat) = 0 ∨ 15 < 16)) ∧
    parseImports asciiLower 100 absentDirFile importBuf false = .ok { DLLs := [], Note := "" } ∧
    parseExports absentDirFile importBuf = .ok { DLLName := [], Symbols := [], Note := "" } ∧
    parseResources absentDirFile importBuf = .ok { Types := [], Note := "" } :=
  ⟨by decide, by decide, by decide,
    (absent_directory_empty asciiLower 100 absentDirFile importBuf false).1 ⟨0x1000, 19⟩
      (by decide) (by decide),
    (absent_directory_empty asciiLower 100 absentDirFile importBuf false).2.1 ⟨0, 100⟩
      (by decide) (by decide),
    (absent_directory_empty asciiLower 100 absentDirFile importBuf false).2.2 ⟨0x1000, 15⟩
      (by decide) (by decide)⟩

theorem exportsLoop_note (f : File) (bin : List Byte) (ed : exportDir)
    (nFuncs funcsOff : Nat) :
    ∀ (n namesOff ordsOff : Nat) (r r' : ExportReport),
      exportsLoop f bin ed nFuncs funcsOff n namesOff ordsOff r = .ok r' →
      r'.Note = r.Note := by
  intro n
  induction n with
  | zero =>
    intro namesOff ordsOff r r' h
    simp only [exportsLoop, pure, Except.pure, Except.ok.injEq] at h
    rw [← h]
  | succ n ih =>
    intro namesOff ordsOff r r' h
    rw [exportsLoop] at h
    by_cases hbrk : namesOff + 4 > bin.length ∨ ordsOff + 2 > bin.length
    · rw [if_pos hbrk] at h
      simp only [pure, Except.pure, Except.ok.injEq] at h
      rw [← h]
    · rw [if_neg hbrk] at h
      obtain ⟨ok, hname⟩ := nameAt_eq f bin (leValue bin namesOff 4)
      rw [sliceU32_eq bin _ (by omega), sliceU16_eq bin _ (by omega)] at h
      simp only [bind, Except.bind, hname] at h
      by_cases hidx : leValue bin ordsOff 2 ≥ nFuncs
      · rw [if_pos hidx] at h
        exact ih _ _ r r' h
      · rw [if_neg hidx] at h
        cases hrd : sliceU32 bin (u32 (funcsOff + u32 (leValue bin ordsOff 2 * 4))) with
        | error e => rw [hrd] at h; simp at h
        | ok v =>
          rw [hrd] at h
          simp only at h
          have := ih _ _ _ r' h
          simpa using this

/-- C17: for a present export directory whose 40-byte header is readable: if
one of the three array RVAs does not resolve, or the function count or the
name count exceeds `2^20`, `parseExports` returns no symbols and a non-empty
note; when the three RVAs resolve and both counts are at most `2^20` (so also
when they are exactly `2^20`) the header is accepted: the name loop runs and
whatever report is returned has an empty note. -/
theorem parseExports_guards (f : File) (bin : List Byte) (dir : DataDirectory)
    (baseOff : Nat)
    (hdir : dataDirectory f IMAGE_DIRECTORY_ENTRY_EXPORT = some dir)
    (hva : dir.VirtualAddress ≠ 0) (hsz : 40 ≤ dir.Size)
    (hbase : rvaToOff f dir.VirtualAddress = (baseOff, true))
    (hfit : baseOff + 40 ≤ bin.length) :
    ((((rvaToOff f (exportDirAt bin baseOff).AddressOfFunctions).2 = false ∨
        (rvaToOff f (exportDirAt bin baseOff).AddressOfNames).2 = false ∨
        (rvaToOff f (exportDirAt bin baseOff).AddressOfNameOrdinal).2 = false) ∨
      (exportDirAt bin baseOff).NumberOfFunctions > 2 ^ 20 ∨
      (exportDirAt bin baseOff).NumberOfNames > 2 ^ 20) →
      ∃ r, parseExports f bin = .ok r ∧ r.Symbols = [] ∧ r.Note ≠ "") ∧
    ((rvaToOff f (exportDirAt bin baseOff).AddressOfFunctions).2 = true →
      (rvaToOff f (exportDirAt bin baseOff).AddressOfNames).2 = true →
      (rvaToOff f (exportDirAt bin baseOff).AddressOfNameOrdinal).2 = true →
      (exportDirAt bin baseOff).NumberOfFunctions ≤ 2 ^ 20 →
      (exportDirAt bin baseOff).NumberOfNames ≤ 2 ^ 20 →
      (∃ r0 : ExportReport, r0.Symbols = [] ∧ r0.Note = "" ∧
        parseExports f bin =
          exportsLoop f bin (exportDirAt bin baseOff) (exportDirAt bin baseOff).NumberOfFunctions
            (rvaToOff f (exportDirAt bin baseOff).AddressOfFunctions).1
            (exportDirAt bin baseOff).NumberOfNames
            (rvaToOff f (exportDirAt bin baseOff).AddressOfNames).1
            (rvaToOff f (exportDirAt bin baseOff).AddressOfNameOrdinal).1 r0) ∧
      ∀ r, parseExports f bin = .ok r → r.Note = "") := by
  obtain ⟨r0, hsym, hnote, heq⟩ :=
    parseExports_after_header f bin dir baseOff hdir hva hsz hbase hfit
  constructor
  · intro h
    rw [heq]
    by_cases hres : (rvaToOff f (exportDirAt bin baseOff).AddressOfFunctions).2 = false ∨
        (rvaToOff f (exportDirAt bin baseOff).AddressOfNames).2 = false ∨
        (rvaToOff f (exportDirAt bin baseOff).AddressOfNameOrdinal).2 = false
    · rw [if_pos hres]
      exact ⟨_, rfl, hsym, by simp⟩
    · rw [if_neg hres]
      have hcnt : (exportDirAt bin baseOff).NumberOfNames > 2 ^ 20 ∨
          (exportDirAt bin baseOff).NumberOfFunctions > 2 ^ 20 := by
        rcases h with h | h | h
        · exact absurd h hres
        · exact Or.inr h
        · exact Or.inl h
      rw [if_pos hcnt]
      exact ⟨_, rfl, hsym, by simp⟩
  · intro h1 h2 h3 hnf hnn
    have hres : ¬ ((rvaToOff f (exportDirAt bin baseOff).AddressOfFunctions).2 = false ∨
        (rvaToOff f (exportDirAt bin baseOff).AddressOfNames).2 = false ∨
        (rvaToOff f (exportDirAt bin baseOff).AddressOfNameOrdinal).2 = false) := by
      simp [h1, h2, h3]
    have hcnt : ¬ ((exportDirAt bin baseOff).NumberOfNames > 2 ^ 20 ∨
        (exportDirAt bin baseOff).NumberOfFunctions > 2 ^ 20) := by omega
    rw [if_neg hres, if_neg hcnt] at heq
    refine ⟨⟨r0, hsym, hnote, heq⟩, ?_⟩
    intro r hr
    rw [heq] at hr
    rw [exportsLoop_note f bin _ _ _ _ _ _ r0 r hr, hnote]

/-- Witness of C17: `unresolvedExportBuf` (function array RVA in no section)
and `overCountExportBuf` (`2^20 + 1` names) are rejected with a note and no
symbol; `fullCountExportBuf` (both counts exactly `2^20`) is accepted and
returns a report with an empty note. -/
theorem parseExports_guards_witness :
    dataDirectory exportFile IMAGE_DIRECTORY_ENTRY_EXPORT = some ⟨0x1000, 40⟩ ∧
    rvaToOff exportFile 0x1000 = (0, true) ∧
    (rvaToOff exportFile (exportDirAt unresolvedExportBuf 0).AddressOfFunctions).2 = false ∧
    (exportDirAt overCountExportBuf 0).NumberOfNames > 2 ^ 20 ∧
    (exportDirAt fullCountExportBuf 0).NumberOfFunctions = 2 ^ 20 ∧
    (exportDirAt fullCountExportBuf 0).NumberOfNames = 2 ^ 20 ∧
    (∃ r, parseExports exportFile unresolvedExportBuf = .ok r ∧ r.Symbols = [] ∧ r.Note ≠ "") ∧
    (∃ r, parseExports exportFile overCountExportBuf = .ok r ∧ r.Symbols = [] ∧ r.Note ≠ "") ∧
    (∀ r, parseExports exportFile fullCountExportBuf = .ok r → r.Note = "") ∧
    parseExports exportFile unresolvedExportBuf
      = .ok { DLLName := [], Symbols := [], Note := "malformed export arrays" } ∧
    parseExports exportFile overCountExportBuf
      = .ok { DLLName := [], Symbols := [], Note := "suspicious export counts" } ∧
    parseExports exportFile fullCountExportBuf
      = .ok { DLLName := [], Symbols := [], Note := "" } :=
  ⟨by decide, by decide, by decide, by decide, by decide, by decide,
    (parseExports_guards exportFile unresolvedExportBuf ⟨0x1000, 40⟩ 0
      (by decide) (by decide) (by decide) (by decide) (by decide)).1
      (Or.inl (Or.inl (by decide))),
    (parseExports_guards exportFile overCountExportBuf ⟨0x1000, 40⟩ 0
      (by decide) (by decide) (by decide) (by decide) (by decide)).1
      (Or.inr (Or.inr (by decide))),
    ((parseExports_guards exportFile fullCountExportBuf ⟨0x1000, 40⟩ 0
      (by decide) (by decide) (by decide) (by decide) (by decide)).2
      (by decide) (by decide) (by decide) (by decide) (by decide)).2,
    by decide, by decide, by decide⟩

/-! ### Ranked-string filter -/

theorem filterLoop_eq {α : Type} [LE α] [DecidableRel (fun a b : α => a ≤ b)] [Zero α]
    (minScore : α) :
    ∀ (l filtered : List (RankedString α)),
      filterLoop minScore l filtered = filtered ++ l.filter (kept minScore) := by
  intro l
  induction l with
  | nil => intro filtered; simp [filterLoop]
  | cons r rest ih =>
    intro filtered
    rcases r with ⟨t, sc⟩
    cases sc with
    | none =>
      by_cases h : minScore ≤ 0
      · simp [filterLoop, kept, h, ih]
      · simp [filterLoop, kept, h, ih]
    | some s =>
      by_cases h : s ≥ minScore
      · simp [filterLoop, kept, h, ih]
      · simp [filterLoop, kept, h, ih]

theorem insertStable_perm {β : Type} (less : β → β → Bool) (a : β) :
    ∀ l : List β, (insertStable less a l).Perm (a :: l) := by
  intro l
  induction l with
  | nil => simp [insertStable]
  | cons b l ih =>
    by_cases h : less b a = true
    · simp only [insertStable, h, if_true]
      exact (List.Perm.cons b ih).trans (List.Perm.swap a b l)
    · have hba : less b a = false := by simpa using h
      simp only [insertStable, hba, Bool.false_eq_true, if_false]
      exact List.Perm.refl _

theorem sliceStable_perm {β : Type} (less : β → β → Bool) :
    ∀ l : List β, (sliceStable less l).Perm l := by
  intro l
  induction l with
  | nil => simp [sliceStable]
  | cons a l ih =>
    simp only [sliceStable]
    exact (insertStable_perm less a _).trans (List.Perm.cons a ih)

theorem insertStable_sorted {β : Type} (less : β → β → Bool)
    (hasym : ∀ x y, less x y = true → less y x = false)
    (hneg : ∀ x y z, less x z = true → less x y = true ∨ less y z = true) (a : β) :
    ∀ l : List β, l.Pairwise (fun x y => less y x = false) →
      (insertStable less a l).Pairwise (fun x y => less y x = false) := by
  intro l
  induction l with
  | nil => intro _; simp [insertStable]
  | cons b l ih =>
    intro hl
    rw [List.pairwise_cons] at hl
    by_cases h : less b a = true
    · simp only [insertStable, h, if_true]
      rw [List.pairwise_cons]
      refine ⟨?_, ih hl.2⟩
      intro x hx
      rcases List.mem_cons.1 ((insertStable_perm less a l).subset hx) with hxa | hxl
      · rw [hxa]; exact hasym b a h
      · exact hl.1 x hxl
    · have hba : less b a = false := by simpa using h
      simp only [insertStable, hba, Bool.false_eq_true, if_false]
      rw [List.pairwise_cons]
      refine ⟨?_, List.pairwise_cons.2 hl⟩
      intro x hx
      rcases List.mem_cons.1 hx with hxb | hxl
      · rw [hxb]; exact hba
      · by_contra hc
        have hc' : less x a = true := by simpa using hc
        rcases hneg x b a hc' with h1 | h1
        · rw [hl.1 x hxl] at h1; cases h1
        · rw [hba] at h1; cases h1

theorem sliceStable_sorted {β : Type} (less : β → β → Bool)
    (hasym : ∀ x y, less x y = true → less y x = false)
    (hneg : ∀ x y z, less x z = true → less x y = true ∨ less y z = true) :
    ∀ l : List β, (sliceStable less l).Pairwise (fun x y => less y x = false) := by
  intro l
  induction l with
  | nil => simp [sliceStable]
  | cons a l ih =>
    simp only [sliceStable]
    exact insertStable_sorted less hasym hneg a _ ih

theorem insertStable_filter {β : Type} (less : β → β → Bool) (p : β → Bool)
    (hp : ∀ x y, p x = true → p y = true → less x y = false) (a : β) :
    ∀ l : List β, (insertStable less a l).filter p = (a :: l).filter p := by
  intro l
  induction l with
  | nil => simp [insertStable]
  | cons b l ih =>
    by_cases h : less b a = true
    · simp only [insertStable, h, if_true]
      by_cases hb : p b = true
      · have ha : p a = false := by
          by_contra hc
          have hc' : p a = true := by simpa using hc
          rw [hp b a hb hc'] at h; cases h
        rw [List.filter_cons_of_pos hb, ih]
        simp [List.filter_cons, ha, hb]
      · have hb' : p b = false := by simpa using hb
        rw [List.filter_cons_of_neg (by simp [hb']), ih]
        simp [List.filter_cons, hb']
    · have hba : less b a = false := by simpa using h
      simp only [insertStable, hba, Bool.false_eq_true, if_false]

/-- Stability of the sort: within a class of elements none of which is less
than another, the sorted list keeps the order of the input. -/
theorem sliceStable_filter {β : Type} (less : β → β → Bool) (p : β → Bool)
    (hp : ∀ x y, p x = true → p y = true → less x y = false) :
    ∀ l : List β, (sliceStable less l).filter p = l.filter p := by
  intro l
  induction l with
  | nil => simp [sliceStable]
  | cons a l ih =>
    simp only [sliceStable]
    rw [insertStable_filter less p hp a, List.filter_cons, List.filter_cons, ih]

/-- Two sorted lists that agree on every class of mutually equivalent
elements are equal. -/
theorem sorted_stable_unique {β : Type} (less : β → β → Bool)
    (hirr : ∀ x, less x x = false) :
    ∀ l1 l2 : List β, l1.Pairwise (fun x y => less y x = false) →
      l2.Pairwise (fun x y => less y x = false) →
      (∀ e, l1.filter (fun z => !less e z && !less z e)
        = l2.filter (fun z => !less e z && !less z e)) →
      l1 = l2 := by
  intro l1
  induction l1 with
  | nil =>
    intro l2 _ _ h
    cases l2 with
    | nil => rfl
    | cons y t =>
      have := h y
      simp [List.filter_cons, hirr y] at this
  | cons x t1 ih =>
    intro l2 h1 h2 h
    cases l2 with
    | nil =>
      have := h x
      simp [List.filter_cons, hirr x] at this
    | cons y t2 =>
      rw [List.pairwise_cons] at h1 h2
      have hx : x ∈ (y :: t2).filter (fun z => !less x z && !less z x) := by
        rw [← h x]; simp [List.filter_cons, hirr x]
      have hy : y ∈ (x :: t1).filter (fun z => !less y z && !less z y) := by
        rw [h y]; simp [List.filter_cons, hirr y]
      have hxy : less x y = false := by
        rcases List.mem_cons.1 (List.mem_filter.1 hx).1 with hxy | hxt
        · rw [hxy]; exact hirr y
        · exact h2.1 x hxt
      have hyx : less y x = false := by
        rcases List.mem_cons.1 (List.mem_filter.1 hy).1 with hyx | hyt
        · rw [hyx]; exact hirr x
        · exact h1.1 y hyt
      have hhead : x = y := by
        have := h x
        simp [List.filter_cons, hirr x, hxy, hyx] at this
        exact this.1
      subst hhead
      have htail : t1 = t2 := by
        apply ih t2 h1.2 h2.2
        intro e
        have := h e
        by_cases hc : (!less e x && !less x e) = true
        · simp only [List.filter_cons, hc, if_true, List.cons.injEq, true_and] at this
          exact this
        · simp only [List.filter_cons, hc, if_false] at this
          exact this
      rw [htail]

/-- The result of `sliceStable` is the only sorted list that keeps every
class of equivalent elements of the input in its original order: any stable
sort returns it. -/
theorem sliceStable_unique {β : Type} (less : β → β → Bool)
    (hasym : ∀ x y, less x y = true → less y x = false)
    (hneg : ∀ x y z, less x z = true → less x y = true ∨ less y z = true)
    (l l' : List β) (hsorted : l'.Pairwise (fun x y => less y x = false))
    (hstable : ∀ e, l'.filter (fun z => !less e z && !less z e)
      = l.filter (fun z => !less e z && !less z e)) :
    l' = sliceStable less l := by
  have hirr : ∀ x, less x x = false := by
    intro x
    by_contra hc
    have hc' : less x x = true := by simpa using hc
    rw [hasym x x hc'] at hc'; cases hc'
  apply sorted_stable_unique less hirr l' _ hsorted (sliceStable_sorted less hasym hneg l)
  intro e
  rw [hstable e, sliceStable_filter less _ _ l]
  intro x y hx hy
  simp only [Bool.and_eq_true, Bool.not_eq_true'] at hx hy
  by_contra hc
  have hc' : less x y = true := by simpa using hc
  rcases hneg x e y hc' with h1 | h1
  · rw [hx.2] at h1; cases h1
  · rw [hy.1] at h1; cases h1

theorem rankedLess_asymm {α : Type} [LinearOrder α] (x y : RankedString α)
    (h : rankedLess x y = true) : rankedLess y x = false := by
  rcases x with ⟨tx, sx⟩
  rcases y with ⟨ty, sy⟩
  cases sx <;> cases sy <;> simp_all [rankedLess]
  exact le_of_lt h

theorem rankedLess_negtrans {α : Type} [LinearOrder α] (x y z : RankedString α)
    (h : rankedLess x z = true) : rankedLess x y = true ∨ rankedLess y z = true := by
  rcases x with ⟨tx, sx⟩
  rcases y with ⟨ty, sy⟩
  rcases z with ⟨tz, sz⟩
  cases sx <;> cases sy <;> cases sz <;> simp_all [rankedLess]
  rename_i a b c
  by_cases hab : b < a
  · exact Or.inl hab
  · exact Or.inr (lt_of_lt_of_le h (not_lt.1 hab))

theorem rankedLess_false_iff {α : Type} [LinearOrder α] (x y : RankedString α) :
    rankedLess y x = false ↔ inRankOrder x y := by
  rcases x with ⟨tx, sx⟩
  rcases y with ⟨ty, sy⟩
  cases sx <;> cases sy <;> simp [rankedLess, inRankOrder]

theorem take_filter_take {β : Type} (p : β → Bool) :
    ∀ (l : List β) (n : Nat), ∃ k, (l.take n).filter p = (l.filter p).take k := by
  intro l
  induction l with
  | nil => intro n; exact ⟨0, by simp⟩
  | cons a l ih =>
    intro n
    cases n with
    | zero => exact ⟨0, by simp⟩
    | succ n =>
      obtain ⟨k, hk⟩ := ih n
      by_cases ha : p a = true
      · exact ⟨k + 1, by simp [List.filter_cons, ha, hk]⟩
      · exact ⟨k, by simp [List.filter_cons, ha, hk]⟩

/-- With no limit in force, `sortFilterRanked` is the stable sort of the kept
entries. -/
theorem sortFilterRanked_unlimited {α : Type} [LE α] [DecidableRel (fun a b : α => a ≤ b)] [LT α]
    [DecidableRel (fun a b : α => a < b)] [Zero α]
    (input : List (RankedString α)) (limit : Int) (minScore : α)
    (h : ¬ (limit > 0 ∧ ((input.filter (kept minScore)).length : Int) > limit)) :
    sortFilterRanked input limit minScore
      = sliceStable rankedLess (input.filter (kept minScore)) := by
  have hlen : (sliceStable rankedLess (input.filter (kept minScore))).length
      = (input.filter (kept minScore)).length := (sliceStable_perm _ _).length_eq
  simp only [sortFilterRanked, filterLoop_eq, List.nil_append, hlen]
  rw [if_neg h]

/-- With a limit in force, `sortFilterRanked` is the stable sort of the kept
entries cut after `limit` entries. -/
theorem sortFilterRanked_limited {α : Type} [LE α] [DecidableRel (fun a b : α => a ≤ b)] [LT α]
    [DecidableRel (fun a b : α => a < b)] [Zero α]
    (input : List (RankedString α)) (limit : Int) (minScore : α)
    (h : limit > 0 ∧ ((input.filter (kept minScore)).length : Int) > limit) :
    sortFilterRanked input limit minScore
      = (sliceStable rankedLess (input.filter (kept minScore))).take limit.toNat := by
  have hlen : (sliceStable rankedLess (input.filter (kept minScore))).length
      = (input.filter (kept minScore)).length := (sliceStable_perm _ _).length_eq
  simp only [sortFilterRanked, filterLoop_eq, List.nil_append, hlen]
  rw [if_pos h]

/-- C11: with `limit = 0` the entries returned by `sortFilterRanked` are, as a
multiset, exactly the input entries kept by the filter rule (a score at least
the minimum, or no score when the minimum is at most 0); every returned entry
is an input entry with its text and its score or absence of score unchanged. -/
theorem sortFilterRanked_keeps {α : Type} [LE α] [DecidableRel (fun a b : α => a ≤ b)] [LT α]
    [DecidableRel (fun a b : α => a < b)] [Zero α]
    (input : List (RankedString α)) (minScore : α) :
    (sortFilterRanked input 0 minScore).Perm (input.filter (kept minScore)) ∧
    ∀ r ∈ sortFilterRanked input 0 minScore, r ∈ input ∧ kept minScore r = true := by
  have heq := sortFilterRanked_unlimited input 0 minScore (fun h => absurd h.1 (by decide))
  rw [heq]
  refine ⟨sliceStable_perm _ _, ?_⟩
  intro r hr
  have := (sliceStable_perm rankedLess _).subset hr
  exact List.mem_filter.1 this

/-- Example of C11: on the list `a` 0.9, `b` unscored, `c` 0.5 with minimum 0.6
the kept entries are `a` alone, also with limit 10. -/
theorem sortFilterRanked_keeps_example :
    ((sortFilterRanked rankedExample 0 0.6).Perm (rankedExample.filter (kept 0.6)) ∧
      ∀ r ∈ sortFilterRanked rankedExample 0 0.6, r ∈ rankedExample ∧ kept 0.6 r = true) ∧
    sortFilterRanked rankedExample 10 0.6 = [{ Text := "a", Score := some 0.9 }] :=
  ⟨sortFilterRanked_keeps rankedExample 0.6, by
    norm_num [sortFilterRanked, rankedExample, filterLoop, sliceStable, insertStable,
      rankedLess]⟩

/-- C12: in the output of `sortFilterRanked`, for every limit, an entry is
followed only by entries in rank order (after an unscored entry come only
unscored entries, and scores do not increase), and the sort is stable: the
output entries of any one score, and the unscored output entries, are the
first so many of the kept input entries of that kind in input order (all of
them when no limit is in force). -/
theorem sortFilterRanked_order {α : Type} [LinearOrder α] [Zero α]
    (input : List (RankedString α)) (limit : Int) (minScore : α) :
    (sortFilterRanked input limit minScore).Pairwise inRankOrder ∧
    (∀ s : Option α, ∃ k,
      (sortFilterRanked input limit minScore).filter (fun r => decide (r.Score = s))
        = ((input.filter (kept minScore)).filter (fun r => decide (r.Score = s))).take k) ∧
    (limit ≤ 0 → ∀ s : Option α,
      (sortFilterRanked input limit minScore).filter (fun r => decide (r.Score = s))
        = (input.filter (kept minScore)).filter (fun r => decide (r.Score = s))) := by
  have hsorted : (sliceStable rankedLess (input.filter (kept minScore))).Pairwise inRankOrder :=
    (sliceStable_sorted rankedLess rankedLess_asymm rankedLess_negtrans _).imp
      (fun {x y} h => (rankedLess_false_iff x y).1 h)
  have hstable : ∀ s : Option α,
      (sliceStable rankedLess (input.filter (kept minScore))).filter
          (fun r => decide (r.Score = s))
        = (input.filter (kept minScore)).filter (fun r => decide (r.Score = s)) := by
    intro s
    apply sliceStable_filter
    intro x y hx hy
    rcases x with ⟨tx, sx⟩
    rcases y with ⟨ty, sy⟩
    simp only [decide_eq_true_eq] at hx hy
    subst hx; subst hy
    cases sy <;> simp [rankedLess]
  by_cases h : limit > 0 ∧ ((input.filter (kept minScore)).length : Int) > limit
  · rw [sortFilterRanked_limited input limit minScore h]
    refine ⟨hsorted.sublist (List.take_sublist _ _), ?_, fun hle => absurd h.1 (by omega)⟩
    intro s
    obtain ⟨k, hk⟩ := take_filter_take (fun r : RankedString α => decide (r.Score = s))
      (sliceStable rankedLess (input.filter (kept minScore))) limit.toNat
    exact ⟨k, by rw [hk, hstable s]⟩
  · rw [sortFilterRanked_unlimited input limit minScore h]
    refine ⟨hsorted, ?_, fun _ => hstable⟩
    intro s
    exact ⟨((input.filter (kept minScore)).filter (fun r => decide (r.Score = s))).length,
      by rw [hstable s, List.take_length]⟩

/-- Example of C12: on the list `a` 0.9, `b` unscored, `c` 0.5 with minimum 0
the output is `a`, `c`, `b`. -/
theorem sortFilterRanked_order_example :
    (sortFilterRanked rankedExample 10 0).Pairwise inRankOrder ∧
    sortFilterRanked rankedExample 10 0
      = [{ Text := "a", Score := some 0.9 }, { Text := "c", Score := some 0.5 },
         { Text := "b", Score := none }] :=
  ⟨(sortFilterRanked_order rankedExample 10 0).1, by
    norm_num [sortFilterRanked, rankedExample, filterLoop, sliceStable, insertStable,
      rankedLess]⟩

/-- C13: for `limit > 0`, `sortFilterRanked(in, limit, minimum)` is the first
`min(limit, k)` entries of `sortFilterRanked(in, 0, minimum)`, where `k` is the
length of that unlimited result; it has at most `limit` entries, and the
unlimited result has as many entries as the filter keeps. -/
theorem sortFilterRanked_truncates {α : Type} [LE α] [DecidableRel (fun a b : α => a ≤ b)] [LT α]
    [DecidableRel (fun a b : α => a < b)] [Zero α]
    (input : List (RankedString α)) (limit : Int) (minScore : α) (hlimit : limit > 0) :
    sortFilterRanked input limit minScore
      = (sortFilterRanked input 0 minScore).take
          (min limit.toNat (sortFilterRanked input 0 minScore).length) ∧
    ((sortFilterRanked input limit minScore).length : Int) ≤ limit ∧
    (sortFilterRanked input 0 minScore).length = (input.filter (kept minScore)).length := by
  have h0 := sortFilterRanked_unlimited input 0 minScore (fun h => absurd h.1 (by decide))
  have hlen : (sliceStable rankedLess (input.filter (kept minScore))).length
      = (input.filter (kept minScore)).length := (sliceStable_perm _ _).length_eq
  rw [h0, hlen]
  by_cases h : limit > 0 ∧ ((input.filter (kept minScore)).length : Int) > limit
  · rw [sortFilterRanked_limited input limit minScore h]
    have hmin : min limit.toNat (input.filter (kept minScore)).length = limit.toNat := by
      apply Nat.min_eq_left
      omega
    refine ⟨by rw [hmin], ?_, rfl⟩
    rw [List.length_take, hlen]
    omega
  · rw [sortFilterRanked_unlimited input limit minScore h]
    have hle : ((input.filter (kept minScore)).length : Int) ≤ limit := by
      by_contra hc
      exact h ⟨hlimit, by omega⟩
    have hmin : min limit.toNat (input.filter (kept minScore)).length
        = (input.filter (kept minScore)).length := by
      apply Nat.min_eq_right
      omega
    refine ⟨?_, by rw [hlen]; exact hle, rfl⟩
    rw [hmin, ← hlen, List.take_length]

/-- Witness of C13: with limit 1 and minimum 0 the output is the first entry,
`a`, of the unlimited output `a`, `c`, `b`. -/
theorem sortFilterRanked_truncates_witness :
    (1 : Int) > 0 ∧
    (sortFilterRanked rankedExample 1 0
      = (sortFilterRanked rankedExample 0 0).take
          (min (1 : Int).toNat (sortFilterRanked rankedExample 0 0).length) ∧
    ((sortFilterRanked rankedExample 1 0).length : Int) ≤ 1 ∧
    (sortFilterRanked rankedExample 0 0).length = (rankedExample.filter (kept 0)).length) ∧
    sortFilterRanked rankedExample 1 0 = [{ Text := "a", Score := some 0.9 }] :=
  ⟨by decide, sortFilterRanked_truncates rankedExample 1 0 (by decide), by
    norm_num [sortFilterRanked, rankedExample, filterLoop, sliceStable, insertStable,
      rankedLess]⟩

/-! ### Section byte tools -/

theorem hexCellsLoop_eq (data : List Byte) (i : Nat) :
    ∀ (n j : Nat) (b : List Byte),
      hexCellsLoop data i n j b = .ok (b
        ++ ((data.drop (i + j)).take n).flatMap (fun x => hexUpper 2 x.val ++ ascii " ")
        ++ (List.replicate (n - ((data.drop (i + j)).take n).length) (ascii "   ")).flatten) := by
  intro n
  induction n with
  | zero => intro j b; simp [hexCellsLoop]
  | succ n ih =>
    intro j b
    rw [hexCellsLoop]
    by_cases hlt : i + j < data.length
    · rw [if_pos hlt, index_of_lt data _ hlt]
      simp only [bind, Except.bind]
      rw [ih (j + 1), drop_cons_getD data (i + j) hlt]
      simp only [List.take_succ_cons, List.flatMap_cons, List.length_cons, Nat.add_sub_add_right,
        List.append_assoc, Nat.add_assoc]
    · rw [if_neg hlt, ih (j + 1)]
      have h1 : data.drop (i + j) = [] := List.drop_eq_nil_of_le (by omega)
      have h2 : data.drop (i + (j + 1)) = [] := List.drop_eq_nil_of_le (by omega)
      rw [h1, h2]
      simp [List.replicate_succ, List.flatten_cons]

theorem chunk_eq (data : List Byte) (i : Nat) (hlt : i < data.length) :
    sliceRange data i (if i + 16 > data.length then data.length else i + 16)
      = .ok ((data.drop i).take 16) := by
  by_cases h : i + 16 > data.length
  · rw [if_pos h, sliceRange, if_pos ⟨by omega, le_refl _⟩, List.take_length]
    rw [List.take_of_length_le (by simp; omega)]
  · rw [if_neg h, sliceRange, if_pos ⟨by omega, by omega⟩, List.drop_take]
    simp

theorem hexDumpLoop_eq (base : Nat) (data : List Byte) :
    ∀ (fuel k : Nat) (b : List Byte), 0 < fuel → data.length < fuel + 16 * k →
      hexDumpLoop base data fuel (16 * k) b = .ok (b ++
        ((List.range' k ((data.length + 15) / 16 - k)).map
          (fun k => dumpRow base k ((data.drop (16 * k)).take 16))).flatten) := by
  intro fuel
  induction fuel with
  | zero => intro k b h; omega
  | succ fuel ih =>
    intro k b _ hf
    rw [hexDumpLoop]
    by_cases hlt : 16 * k < data.length
    · have hk : (data.length + 15) / 16 - k = ((data.length + 15) / 16 - (k + 1)) + 1 := by omega
      have hlabel : u32 (base + u32 (16 * k)) = u32 (base + 16 * k) := by
        simp only [u32]; omega
      rw [if_pos hlt]
      simp only []
      rw [chunk_eq data _ hlt]
      simp only [bind, Except.bind, hexCellsLoop_eq, Nat.add_zero, hlabel]
      rw [show 16 * k + 16 = 16 * (k + 1) by ring, ih (k + 1) _ (by omega) (by omega), hk,
        List.range'_succ, List.map_cons, List.flatten_cons]
      have hmap : List.map (fun c : Byte => if c.val ≥ 32 ∧ c.val ≤ 126 then c else 46)
          (List.take 16 (List.drop (16 * k) data))
          = List.map (fun x : Byte => if 0x20 ≤ x.val ∧ x.val ≤ 0x7E then x else 46)
            (List.take 16 (List.drop (16 * k) data)) := rfl
      simp only [dumpRow, List.append_assoc, List.take_take, Nat.min_self, hmap]
    · rw [if_neg hlt]
      have hk : (data.length + 15) / 16 - k = 0 := by omega
      rw [hk]
      simp

/-- C14: `hexDumpWithOffsets` returns the concatenation of exactly
`ceil(n/16)` rows (none for `n = 0`), each ending in a newline; row `k` is the
address `base_offset + 16*k` (a `uint32`) in exactly 8 uppercase hex digits,
two spaces, the row's bytes in 2 uppercase hex digits each followed by a
space, three blanks for each of the 16 positions the row lacks, one space and
one character per byte of the row: the byte itself in `[0x20, 0x7E]`, a dot
otherwise. -/
theorem hexDumpWithOffsets_rows (base : Nat) (data : List Byte) :
    hexDumpWithOffsets base data = .ok (dumpRows base data).flatten ∧
    (dumpRows base data).length = (data.length + 15) / 16 ∧
    (∀ row ∈ dumpRows base data, row.getLast? = some 10) ∧
    ∀ k, (hexUpper 8 (u32 (base + 16 * k))).length = 8 := by
  refine ⟨?_, by simp [dumpRows], ?_, fun k => by simp [hexUpper]⟩
  · have h := hexDumpLoop_eq base data (data.length + 1) 0 [] (by omega) (by omega)
    simp only [Nat.mul_zero, Nat.sub_zero, List.nil_append, ← List.range_eq_range'] at h
    exact h
  · intro row hrow
    simp only [dumpRows, List.mem_map] at hrow
    obtain ⟨k, _, rfl⟩ := hrow
    have hnl : ascii "\n" = [10] := by decide
    rw [dumpRow, hnl, List.getLast?_concat]

/-- Example of C14: 17 bytes at base `0x10` give two rows; the second is
labelled `00000020` and holds one byte followed by 15 blank triples. -/
theorem hexDumpWithOffsets_rows_example :
    (hexDumpWithOffsets 0x10 seventeenBytes = .ok (dumpRows 0x10 seventeenBytes).flatten ∧
      (dumpRows 0x10 seventeenBytes).length = (seventeenBytes.length + 15) / 16 ∧
      (∀ row ∈ dumpRows 0x10 seventeenBytes, row.getLast? = some 10) ∧
      ∀ k, (hexUpper 8 (u32 (0x10 + 16 * k))).length = 8) ∧
    dumpRows 0x10 seventeenBytes = [ascii
      "00000010  41 42 43 44 45 46 47 48 49 4A 4B 4C 4D 4E 4F 50  ABCDEFGHIJKLMNOP\n", ascii
      "00000020  00                                               .\n"] ∧
    dumpRow 0x10 1 [0] = ascii "00000020  " ++ ascii "00 "
      ++ (List.replicate 15 (ascii "   ")).flatten ++ ascii " " ++ ascii "." ++ ascii "\n" :=
  ⟨hexDumpWithOffsets_rows 0x10 seventeenBytes, by decide, by decide⟩

/-- The strings the loop of `extractStrings` and its last flush select from a
list of pieces: the texts of the non-empty pieces whose text has at least
`m` bytes. -/
theorem selected_cons (m : Int) (hm : 1 ≤ m) (raw : List Byte) (pieces : List (List Byte)) :
    (((raw :: pieces).filter (fun run => decide (run ≠ []))).filter
        (fun run => decide (m ≤ ((runText run).length : Int)))).map runText
      = flushOut m (runText raw) [] ++
        ((pieces.filter (fun run => decide (run ≠ []))).filter
          (fun run => decide (m ≤ ((runText run).length : Int)))).map runText := by
  by_cases hraw : raw = []
  · subst hraw
    have h0 : ¬ ((([] : List Byte).length : Int) ≥ m) := by simp; omega
    simp [flushOut, runText]
    omega
  · by_cases hlen : ((runText raw).length : Int) ≥ m
    · simp [flushOut, hraw, hlen, List.filter_cons]
    · simp [flushOut, hraw, hlen, List.filter_cons]

theorem flushOut_append (m : Int) (buf : List Byte) (out : List (List Byte)) :
    flushOut m buf out = out ++ flushOut m buf [] := by
  by_cases h : (buf.length : Int) ≥ m <;> simp [flushOut, h]

theorem extractLoop_eq (m : Int) (hm : 1 ≤ m) :
    ∀ (data raw : List Byte) (out : List (List Byte)),
      flushOut m (extractLoop m data (runText raw, out)).1
          (extractLoop m data (runText raw, out)).2
        = out ++ ((((data.splitOnP (fun b => !printable b)).modifyHead (raw ++ ·)).filter
            (fun run => decide (run ≠ []))).filter
              (fun run => decide (m ≤ ((runText run).length : Int)))).map runText := by
  intro data
  induction data with
  | nil =>
    intro raw out
    have h := selected_cons m hm raw []
    simp only [List.filter_nil, List.map_nil, List.append_nil] at h
    simp only [extractLoop, List.splitOnP_nil, List.modifyHead_cons, List.append_nil, h]
    exact flushOut_append m _ out
  | cons b rest ih =>
    intro raw out
    rw [List.splitOnP_cons]
    by_cases hp : printable b = true
    · have hcond : isPrintLatin1 b = true ∧ b ≠ 9 ∧ b ≠ 13 ∧ b ≠ 10 := by
        simpa [printable, and_assoc] using hp
      have hnp : ¬ ((!printable b) = true) := by simp [hp]
      have htext : runText raw ++ encodeRune b = runText (raw ++ [b]) := by
        simp [runText]
      rw [extractLoop, if_pos hcond, if_neg hnp, htext, ih (raw ++ [b]) out,
        List.modifyHead_modifyHead]
      have hfun : ((fun x => raw ++ x) ∘ List.cons b) = (fun x => raw ++ [b] ++ x) := by
        funext x; simp
      rw [hfun]
    · have hcond : ¬ (isPrintLatin1 b = true ∧ b ≠ 9 ∧ b ≠ 13 ∧ b ≠ 10) := by
        simpa [printable, and_assoc] using hp
      have hnp : (!printable b) = true := by simpa using hp
      have hih : flushOut m (extractLoop m rest ([], flushOut m (runText raw) out)).1
            (extractLoop m rest ([], flushOut m (runText raw) out)).2
          = flushOut m (runText raw) out ++
            ((((rest.splitOnP (fun b => !printable b)).modifyHead (([] : List Byte) ++ ·)).filter
              (fun run => decide (run ≠ []))).filter
                (fun run => decide (m ≤ ((runText run).length : Int)))).map runText :=
        ih [] (flushOut m (runText raw) out)
      rw [extractLoop, if_neg hcond, if_pos hnp, hih]
      rw [List.modifyHead_cons, List.append_nil, selected_cons m hm raw, flushOut_append m _ out]
      have hid : (fun x : List Byte => [] ++ x) = id := by funext x; simp
      have hmod : ∀ l : List (List Byte), l.modifyHead id = l := by
        intro l; cases l <;> rfl
      rw [hid, hmod, List.append_assoc]

theorem extractStrings_eq (data : List Byte) (minLen : Int) :
    extractStrings data minLen
      = ((maximalRuns data).filter
          (fun run => decide (max minLen 1 ≤ ((runText run).length : Int)))).map runText := by
  have hm : (if minLen < 1 then (1 : Int) else minLen) = max minLen 1 := by
    by_cases h : minLen < 1
    · rw [if_pos h, max_eq_right (by omega)]
    · rw [if_neg h, max_eq_left (by omega)]
  have h := extractLoop_eq (max minLen 1) (le_max_right _ _) data [] []
  have hid : (fun x : List Byte => [] ++ x) = id := by funext x; simp
  have hmod : ∀ l : List (List Byte), l.modifyHead id = l := by
    intro l; cases l <;> rfl
  rw [hid, hmod, List.nil_append] at h
  simp only [extractStrings, hm, maximalRuns]
  exact h

theorem runText_ascii (run : List Byte) (h : ∀ b ∈ run, b.val < 0x80) : runText run = run := by
  induction run with
  | nil => rfl
  | cons b rest ih =>
    have hb := h b (List.mem_cons_self _ _)
    have := ih (fun c hc => h c (List.mem_cons_of_mem _ hc))
    simp only [runText, List.flatMap_cons] at this ⊢
    rw [this]
    simp [encodeRune, hb]

theorem mem_of_mem_splitOnP (p : Byte → Bool) :
    ∀ (data piece : List Byte), piece ∈ data.splitOnP p → ∀ b ∈ piece, b ∈ data := by
  intro data
  induction data with
  | nil =>
    intro piece hp b hb
    simp only [List.splitOnP_nil, List.mem_singleton] at hp
    subst hp; cases hb
  | cons x xs ih =>
    intro piece hp b hb
    rw [List.splitOnP_cons] at hp
    by_cases hx : p x = true
    · rw [if_pos hx] at hp
      rcases List.mem_cons.1 hp with h | h
      · subst h; cases hb
      · exact List.mem_cons_of_mem _ (ih piece h b hb)
    · rw [if_neg hx] at hp
      rcases hs : xs.splitOnP p with _ | ⟨hd, tl⟩
      · exact absurd hs (List.splitOnP_ne_nil p xs)
      · rw [hs, List.modifyHead_cons] at hp
        rcases List.mem_cons.1 hp with h | h
        · subst h
          rcases List.mem_cons.1 hb with h1 | h1
          · subst h1; exact List.mem_cons_self _ _
          · exact List.mem_cons_of_mem _ (ih hd (by rw [hs]; exact List.mem_cons_self _ _) b h1)
        · exact List.mem_cons_of_mem _
            (ih piece (by rw [hs]; exact List.mem_cons_of_mem _ h) b hb)

/-- On a buffer of ASCII bytes `extractStrings` returns the result of the
specification: the maximal runs of printable bytes of at least `max(min_len, 1)`
input bytes, in buffer order. -/
theorem extractStrings_ascii (data : List Byte) (minLen : Int)
    (h : ∀ b ∈ data, b.val < 0x80) :
    extractStrings data minLen = longRuns data minLen := by
  have hrun : ∀ run ∈ maximalRuns data, runText run = run := by
    intro run hmem
    simp only [maximalRuns, List.mem_filter] at hmem
    exact runText_ascii run (fun b hb => h b (mem_of_mem_splitOnP _ data run hmem.1 b hb))
  rw [extractStrings_eq, longRuns]
  have hf : (maximalRuns data).filter
        (fun run => decide (max minLen 1 ≤ ((runText run).length : Int)))
      = (maximalRuns data).filter (fun run => decide (max minLen 1 ≤ (run.length : Int))) :=
    List.filter_congr (fun run hmem => by rw [hrun run hmem])
  rw [hf]
  have hm : ∀ run ∈ (maximalRuns data).filter
      (fun run => decide (max minLen 1 ≤ (run.length : Int))), runText run = id run :=
    fun run hmem => hrun run (List.mem_filter.1 hmem).1
  rw [List.map_congr_left hm, List.map_id]

/-- The example of the specification: with `min_len = 4` the buffer
`AB\x00WXYZ\x00C` has the runs `AB`, `WXYZ` and `C`, and `extractStrings`
returns `WXYZ` alone, the result of the specification. -/
theorem extractStrings_ascii_example :
    (∀ b ∈ stringsExample, b.val < 0x80) ∧
    maximalRuns stringsExample = [ascii "AB", ascii "WXYZ", ascii "C"] ∧
    longRuns stringsExample 4 = [ascii "WXYZ"] ∧
    extractStrings stringsExample 4 = longRuns stringsExample 4 :=
  ⟨by simp [stringsExample]; decide, by decide, by decide,
    extractStrings_ascii stringsExample 4 (by simp [stringsExample]; decide)⟩

/-- No string returned by `extractStrings` is empty. -/
theorem extractStrings_ne_nil (data : List Byte) (minLen : Int) :
    ∀ s ∈ extractStrings data minLen, s ≠ [] := by
  intro s hs
  rw [extractStrings_eq] at hs
  simp only [List.mem_map, List.mem_filter, decide_eq_true_eq] at hs
  obtain ⟨run, ⟨_, hlen⟩, rfl⟩ := hs
  intro hnil
  rw [hnil] at hlen
  simp at hlen

/-- A `min_len` below 1 gives the result of `min_len = 1`. -/
theorem extractStrings_min_one (data : List Byte) (minLen : Int) (h : minLen < 1) :
    extractStrings data minLen = extractStrings data 1 := by
  rw [extractStrings_eq, extractStrings_eq, max_eq_right (by omega), max_eq_right (le_refl _)]

/-- C15 (refuted on the code): the buffer `E9 E9` is one maximal run of two
printable bytes; with `min_len = 4` the run has fewer input bytes than the
minimum, so the specification discards it and gives no string, while
`extractStrings` returns it, as the four bytes `C3 A9 C3 A9` that `WriteRune`
put in the builder whose length `flush` compares with the minimum. -/
theorem extractStrings_counts_encoded_bytes :
    maximalRuns [0xE9, 0xE9] = [[0xE9, 0xE9]] ∧
    (([0xE9, 0xE9] : List Byte).length : Int) < max 4 1 ∧
    longRuns [0xE9, 0xE9] 4 = [] ∧
    extractStrings [0xE9, 0xE9] 4 = [[0xC3, 0xA9, 0xC3, 0xA9]] ∧
    extractStrings [0xE9, 0xE9] 4 ≠ longRuns [0xE9, 0xE9] 4 := by
  decide

end PEParse
